import Mathlib

/-!
Verification development for the target-customer-matrix pipeline.

The Python sources are shallowly embedded: each Python function the claims
touch is translated into a computable Lean definition under its source name
(snake_case preserved).  Python dictionaries coming from parsed JSON are
modelled as structures with `Option` fields (a missing key is `none`),
Python list indexing and exceptions are modelled with `Option`, and Python
truthiness of ints/strings is spelled out (`≠ 0` / `≠ ""`).
-/

namespace TCImage

-- ===== Definitions =====

/-- Characters stripped by Python `str.strip()` (ASCII whitespace range that
occurs in model output; `\x0b`/`\x0c` written via `Char.ofNat`). -/
def isPySpace (c : Char) : Bool :=
  c = ' ' || c = '\t' || c = '\n' || c = '\r' || c = Char.ofNat 11 || c = Char.ofNat 12

/-- Python `str.strip()` on a character list: drop leading and trailing whitespace. -/
def lStripBoth (l : List Char) : List Char :=
  ((l.dropWhile isPySpace).reverse.dropWhile isPySpace).reverse

/-- Python `str.strip()`. -/
def pyStrip (s : String) : String := String.mk (lStripBoth s.data)

/-- Python `needle in hay` substring test on character lists. -/
def subIn (needle : List Char) : List Char → Bool
  | [] => needle.isEmpty
  | c :: t => needle.isPrefixOf (c :: t) || subIn needle t

/-- Python `str.lower()` (the retry classifier only meets ASCII error text). -/
def pyLower (s : String) : String := String.mk (s.data.map Char.toLower)

/-- A persona record as produced by step 2 and stored in canonical state
(`{id, industry, job_type, companies}`). -/
structure Persona where
  id : String
  industry : String
  job_type : String
  companies : List String
deriving DecidableEq, Repr

/-- An analysis-axis record (`{category, item}`). -/
structure Axis where
  category : String
  item : String
deriving DecidableEq, Repr

/-- First index of a label in a header row: Python `list.index` wrapped in
`try/except ValueError` (src/utils/matrix_sync.py lines 21-26). -/
def labelIdx : List String → String → Option Nat
  | [], _ => none
  | s :: rest, lab => if s = lab then some 0 else (labelIdx rest lab).map (· + 1)

/-- Text before the first `/` separator: Python `cell.split("/", 1)[0]`. -/
def headTok (s : String) : String := String.mk (s.data.takeWhile (fun c => c ≠ '/'))

/-- The companies list the sync dict associates to `pid`: personas with falsy
ids are skipped and later duplicates win (dict overwrite), so the value is the
last persona whose id equals `pid` (src/utils/matrix_sync.py lines 28-33). -/
def companiesFor (ps : List Persona) (pid : String) : Option (List String) :=
  ((ps.filter (fun p => p.id = pid)).getLast?).map Persona.companies

/-- Header label of the persona-id/age column. -/
def idColLabel : String := "ペルソナID/年齢"

/-- Header label of the companies column. -/
def companiesColLabel : String := "在籍企業イメージ"

/-- Body of the per-row loop of `sync_matrix_companies_with_personas`
(src/utils/matrix_sync.py lines 36-55): skip short rows, skip empty id
tokens, skip unknown ids, otherwise overwrite only the companies column. -/
def syncRow (idCol compCol : Nat) (ps : List Persona) (row : List String) : List String :=
  if row.length ≤ max idCol compCol then row
  else if pyStrip (headTok (row.getD idCol "")) = "" then row
  else
    match companiesFor ps (pyStrip (headTok (row.getD idCol ""))) with
    | none => row
    | some cs => row.set compCol (String.intercalate "、" cs)

/-- `sync_matrix_companies_with_personas` (src/utils/matrix_sync.py): locate
the id and companies columns by header label, then rewrite the companies cell
of every data row whose leading id token names a known persona. -/
def sync_matrix_companies_with_personas (m : List (List String)) (ps : List Persona) :
    List (List String) :=
  if m.length < 2 then m
  else
    match m with
    | [] => m
    | header :: rows =>
      match labelIdx header idColLabel, labelIdx header companiesColLabel with
      | some idCol, some compCol => header :: rows.map (syncRow idCol compCol ps)
      | _, _ => m

/-- The value stored under `companies` in a model-produced matrix row: the
code accepts either a string or a list (src/core/step4_matrix_evaluation.py
lines 153-157). -/
inductive CompVal where
  | s (v : String)
  | l (vs : List String)
deriving DecidableEq, Repr

/-- One row record of the model-produced matrix JSON; every key may be
missing (`row_data.get` with default), `evaluations` is the JSON object
mapping column labels to symbols. -/
structure RowData where
  persona_id : Option String
  age_range : Option String
  industry : Option String
  job_type : Option String
  companies : Option CompVal
  evaluations : List (String × String)
deriving DecidableEq, Repr

/-- Column label of an axis: `f"{axis['category']} - {axis['item']}"`. -/
def axisLabel (a : Axis) : String := a.category ++ " - " ++ a.item

/-- Companies cell text: a missing key renders as `""`, a list is joined with
`、`, a string is kept (src/core/step4_matrix_evaluation.py lines 153-157). -/
def renderCompanies : Option CompVal → String
  | none => ""
  | some (.s v) => v
  | some (.l vs) => String.intercalate "、" vs

/-- Python `evaluations.get(column_name, "")`: first (unique) matching key of
the parsed JSON object, defaulting to the empty string. -/
def lookupEval (evs : List (String × String)) (k : String) : String :=
  ((evs.find? (fun e => e.1 = k)).map Prod.snd).getD ""

/-- Header row assembled by `_convert_to_2d_list`: four identity columns then
one column per axis. -/
def headerOf (axes : List Axis) : List String :=
  ["ペルソナID/年齢", "業界", "職種", "在籍企業イメージ"] ++ axes.map axisLabel

/-- One data row assembled by `_convert_to_2d_list`
(src/core/step4_matrix_evaluation.py lines 148-174). -/
def convertRow (axes : List Axis) (rd : RowData) : List String :=
  [rd.persona_id.getD "" ++ "/" ++ rd.age_range.getD "",
   rd.industry.getD "",
   rd.job_type.getD "",
   renderCompanies rd.companies]
    ++ axes.map (fun a => lookupEval rd.evaluations (axisLabel a))

/-- `_convert_to_2d_list` (src/core/step4_matrix_evaluation.py lines 118-176):
header row followed by one assembled row per row record.  The `personas` and
`age_ranges` parameters of the source function are unused by its body and are
omitted. -/
def convert_to_2d_list (matrix_data : List RowData) (axes : List Axis) : List (List String) :=
  headerOf axes :: matrix_data.map (convertRow axes)

/-- `validate_matrix` (src/utils/validators.py lines 102-137) as a predicate:
`false` means the source raises `ValueError`. -/
def validate_matrix (m : List (List String)) (expected_rows : Option Nat) : Bool :=
  if m.isEmpty then false
  else
    (match expected_rows with
     | some e => decide (m.length = e + 1)
     | none => true)
    && m.tail.all (fun row => row.length = (m.headD []).length)

/-- The post-generation tail of `Step4MatrixEvaluator.evaluate_matrix`
(src/core/step4_matrix_evaluation.py lines 72-112): the per-persona model
outputs (`blocks`, one list of row records per generation call) are
concatenated, assembled into the 2-D grid and validated against
`len(personas) * len(age_ranges)` expected data rows; a validation failure
raises (`none`). -/
def evaluate_matrix (blocks : List (List RowData)) (personas : List Persona)
    (axes : List Axis) (age_ranges : List String) : Option (List (List String)) :=
  if validate_matrix (convert_to_2d_list blocks.flatten axes)
      (some (personas.length * age_ranges.length)) then
    some (convert_to_2d_list blocks.flatten axes)
  else none

/-- Exact message raised when rate-limit retries are exhausted
(src/utils/llm_client.py line 190). -/
def rateLimitAbortMsg : String := "OpenAI APIのレート制限により処理を中断しました"

/-- Exact message of the unreachable final raise (src/utils/llm_client.py line 201). -/
def retryFallThroughMsg : String := "予期しないエラー: 最大リトライ回数に到達しました"

/-- Rate-limit classification: `"rate_limit" in str(e).lower()`
(src/utils/llm_client.py line 182). -/
def isRateLimitMsg (m : String) : Bool := subIn ("rate_limit").data (pyLower m).data

/-- The retry loop of `generate_with_retry` from attempt
`max_retries - remaining` on, where `outcomes i` is what the `i`-th
underlying `generate` call would do (src/utils/llm_client.py lines 169-201). -/
def retryFrom (outcomes : Nat → Except String String) (max_retries : Nat) :
    Nat → Except String String
  | 0 => .error retryFallThroughMsg
  | r + 1 =>
    match outcomes (max_retries - (r + 1)) with
    | .ok s => .ok s
    | .error m =>
      if isRateLimitMsg m then
        if 0 < r then retryFrom outcomes max_retries r else .error rateLimitAbortMsg
      else
        if 0 < r then retryFrom outcomes max_retries r else .error m

/-- `generate_with_retry` (src/utils/llm_client.py lines 142-201) as a pure
function of the sequence of underlying call outcomes. -/
def generate_with_retry (outcomes : Nat → Except String String) (max_retries : Nat) :
    Except String String :=
  retryFrom outcomes max_retries max_retries

/-- The review-result shape used by step 4.5 (`confidence_score` is an exact
rational here; the source uses a float literal `0.5`). -/
structure ReviewResultS where
  has_issues : Bool
  issues : List String
  overall_quality : String
  confidence_score : ℚ
deriving DecidableEq, Repr

/-- The default result built in the `except` branch of `review`
(src/core/step4_5_self_review.py lines 96-104). -/
def defaultReviewResult : ReviewResultS :=
  { has_issues := false
    issues := []
    overall_quality := "レビュー失敗"
    confidence_score := 1 / 2 }

/-- `Step4_5SelfReviewer.review` (src/core/step4_5_self_review.py lines
62-104) as a function of the model call and of the structured parse of its
text: any failure inside the `try` block (transport error of the call or a
parse failure inside `generate_json`) yields the default result; a successful
parse is returned as-is. -/
def review (parse : String → Option ReviewResultS) (callResult : Except String String) :
    ReviewResultS :=
  match callResult with
  | .error _ => defaultReviewResult
  | .ok txt =>
    match parse txt with
    | none => defaultReviewResult
    | some r => r

/-- The id-assignment loop of `generate_additional_personas`
(src/core/step2_persona_generation.py lines 150-153), unrolled from a start
number: each new persona's id is overwritten in order. -/
def assignIdsFrom (start : Nat) : List Persona → List Persona
  | [] => []
  | p :: ps => { p with id := "P" ++ toString start } :: assignIdsFrom (start + 1) ps

/-- `validate_persona` (src/utils/validators.py lines 10-38) as a predicate;
the required keys are present by typing, leaving the companies-count bound. -/
def validate_persona (p : Persona) : Bool :=
  3 ≤ p.companies.length && p.companies.length ≤ 10

/-- `validate_personas` (src/utils/validators.py lines 41-64). -/
def validate_personas (ps : List Persona) (expected_count : Option Nat) : Bool :=
  (match expected_count with
   | some e => decide (ps.length = e)
   | none => true)
  && ps.all validate_persona

/-- The post-generation tail of `generate_additional_personas`
(src/core/step2_persona_generation.py lines 148-162): `new_personas` is the
parsed model output; ids are overwritten starting at
`len(existing_personas) + 1`, then the batch is validated (a failure raises,
modelled by `none`). -/
def generate_additional_personas (existing_personas new_personas : List Persona)
    (additional_count : Nat) : Option (List Persona) :=
  if validate_personas (assignIdsFrom (existing_personas.length + 1) new_personas)
      (some additional_count) then
    some (assignIdsFrom (existing_personas.length + 1) new_personas)
  else none

/-- A persona entry of a modification delta: every field may be missing
(partial JSON record); `mod_p['id']` is accessed unconditionally by the merge
loop, so a missing id raises there. -/
structure DeltaPersona where
  id : Option String
  industry : Option String
  job_type : Option String
  companies : Option (List String)
deriving DecidableEq, Repr

/-- Python `orig_p.update(mod_p)` restricted to the persona schema: every key
present in the delta overwrites the original field. -/
def updFields (p : Persona) (d : DeltaPersona) : Persona :=
  { id := d.id.getD p.id
    industry := d.industry.getD p.industry
    job_type := d.job_type.getD p.job_type
    companies := d.companies.getD p.companies }

/-- The inner loop of the personas merge (src/services/modification_service.py
lines 313-320): scan existing personas, update the first whose id matches,
then `break`. -/
def updateFirstPersona (i : String) (d : DeltaPersona) : List Persona → List Persona
  | [] => []
  | p :: ps => if p.id = i then updFields p d :: ps else p :: updateFirstPersona i d ps

/-- The personas branch of `_apply_modifications` (src/services/
modification_service.py lines 302-320): each delta persona is matched by id
against the current list; `mod_p['id']` on a delta entry without an id raises
(`none`) as soon as the inner loop runs, i.e. whenever the persona list is
non-empty. -/
def applyPersonaDelta : List DeltaPersona → List Persona → Option (List Persona)
  | [], ps => some ps
  | _ :: rest, [] => applyPersonaDelta rest []
  | d :: rest, p :: ps =>
    match d.id with
    | none => none
    | some i => applyPersonaDelta rest (updateFirstPersona i d (p :: ps))

/-- One cell update of a matrix-cells delta; the indices are JSON numbers and
may be missing. -/
structure CellUpdate where
  row_index : Option Int
  col_index : Option Int
  value : String
deriving DecidableEq, Repr

/-- Python list-index resolution (negative indices count from the end);
`none` is an `IndexError`. -/
def pyListIdx (i : Int) (n : Nat) : Option Nat :=
  if 0 ≤ i then (if i < (n : Int) then some i.toNat else none)
  else (if 0 ≤ i + (n : Int) then some (i + (n : Int)).toNat else none)

/-- One iteration of the matrix-cells merge loop (src/services/
modification_service.py lines 332-338): the update is applied only when
`row_idx and col_idx and row_idx < len(matrix)` is truthy — both indices
present AND non-zero and the row index below the row count — and the
assignment `matrix[row_idx][col_idx] = value` raises (`none`) when either
resolved index is out of range. -/
def stepCellUpdate (m : List (List String)) (u : CellUpdate) : Option (List (List String)) :=
  match u.row_index, u.col_index with
  | some ri, some ci =>
    if ri ≠ 0 ∧ ci ≠ 0 ∧ ri < (m.length : Int) then
      match pyListIdx ri m.length with
      | none => none
      | some r =>
        match pyListIdx ci (m.getD r []).length with
        | none => none
        | some c => some (m.set r ((m.getD r []).set c u.value))
    else some m
  | _, _ => some m

/-- The matrix-cells branch of `_apply_modifications` (src/services/
modification_service.py lines 327-338): the updates are applied in order;
an exception (`none`) aborts the whole merge. -/
def applyCellUpdates : List CellUpdate → List (List String) → Option (List (List String))
  | [], m => some m
  | u :: rest, m => (stepCellUpdate m u).bind (applyCellUpdates rest)

/-- The canonical state slice `_apply_modifications` reads and writes. -/
structure CanonState where
  personas : List Persona
  axes : List Axis
  matrix : List (List String)
  discussion_points : String
deriving DecidableEq, Repr

/-- The `modified_data` payload of a modification response; each subsystem
key may be missing. -/
structure ModDelta where
  personas : Option (List DeltaPersona)
  axes : Option (List Axis)
  cell_updates : Option (List CellUpdate)
  discussion_points : Option String
deriving DecidableEq, Repr

/-- `_apply_modifications` (src/services/modification_service.py lines
283-345): dispatch on the modification type; `none` models an exception
escaping the merge (in which case no updated state is produced). -/
def apply_modifications (modification_type : String) (modified_data : ModDelta)
    (current_data : CanonState) : Option CanonState :=
  if modification_type = "personas" then
    (applyPersonaDelta (modified_data.personas.getD []) current_data.personas).map
      (fun ps => { current_data with personas := ps })
  else if modification_type = "axes" then
    some (match modified_data.axes with
          | some a => { current_data with axes := a }
          | none => current_data)
  else if modification_type = "matrix_cells" then
    (applyCellUpdates (modified_data.cell_updates.getD []) current_data.matrix).map
      (fun m => { current_data with matrix := m })
  else if modification_type = "discussion_points" then
    some (match modified_data.discussion_points with
          | some t => { current_data with discussion_points := t }
          | none => current_data)
  else some current_data

/-- Cell of a 2-D string grid, with empty defaults (used only to state
frame properties about grids). -/
def cellAt (m : List (List String)) (i j : Nat) : String := (m.getD i []).getD j ""

/-- The double-quote character (written via its code point throughout the
JSON model). -/
def qt : Char := Char.ofNat 34

/-- The backslash character. -/
def bsl : Char := Char.ofNat 92

/-- The opening-brace character. -/
def lbr : Char := Char.ofNat 123

/-- The closing-brace character. -/
def rbr : Char := Char.ofNat 125

/-- The backtick character (code fences). -/
def btick : Char := Char.ofNat 96

/-- JSON whitespace as skipped by Python `json` (`' \t\n\r'`). -/
def isJWs (c : Char) : Bool := c = ' ' || c = '\t' || c = '\n' || c = '\r'

/-- Skip JSON whitespace (Python `json.decoder.WHITESPACE.match`). -/
def jSkipWs (l : List Char) : List Char := l.dropWhile isJWs

mutual
/-- A value parsed by Python `json.loads`.  Numbers keep their source token
(Python turns the token into an int/float; the token determines that value),
strings are decoded code-point sequences (`Nat`, since Python strings can
hold lone surrogates), and objects keep their members in source order
(Python builds a dict with the same keys; later duplicates win there). -/
inductive Json where
  | null
  | bool (b : Bool)
  | num (tok : List Char)
  | str (cps : List Nat)
  | arr (xs : JsonList)
  | obj (fs : JsonFields)
deriving DecidableEq
inductive JsonList where
  | nil
  | cons (hd : Json) (tl : JsonList)
deriving DecidableEq
inductive JsonFields where
  | nil
  | cons (k : List Nat) (v : Json) (tl : JsonFields)
deriving DecidableEq
end

/-- Hexadecimal digit value (Python `int(c, 16)` in `_decode_uXXXX`). -/
def hexVal (c : Char) : Option Nat :=
  if '0' ≤ c ∧ c ≤ '9' then some (c.toNat - 48)
  else if 'a' ≤ c ∧ c ≤ 'f' then some (c.toNat - 97 + 10)
  else if 'A' ≤ c ∧ c ≤ 'F' then some (c.toNat - 65 + 10)
  else none

/-- Four-hex-digit code (`\uXXXX`). -/
def hex4 (a b c d : Char) : Option Nat :=
  match hexVal a, hexVal b, hexVal c, hexVal d with
  | some va, some vb, some vc, some vd => some (((va * 16 + vb) * 16 + vc) * 16 + vd)
  | _, _, _, _ => none

/-- Code point of a single-character JSON escape (Python `BACKSLASH` table). -/
def escCode (c : Char) : Option Nat :=
  if c = qt then some 34
  else if c = bsl then some 92
  else if c = '/' then some 47
  else if c = 'b' then some 8
  else if c = 'f' then some 12
  else if c = 'n' then some 10
  else if c = 'r' then some 13
  else if c = 't' then some 9
  else none

/-- CPython `py_scanstring` after the opening quote, strict mode (the fuel
argument only makes recursion structural: each step consumes at least one
character, so callers pass `length + 1` and the fuel never runs out): content
code points are accumulated until the unescaped closing quote; raw control
characters, invalid escapes and unterminated strings raise (`none`).  After
a high-surrogate `\uXXXX`, a following `\uXXXX` low surrogate pairs up into
one astral code point, a following `\u` with bad or missing hex raises, and
anything else keeps the lone high surrogate. -/
def scanString : Nat → List Char → List Nat → Option (List Nat × List Char)
  | 0, _, _ => none
  | _ + 1, [], _ => none
  | fuel + 1, c :: rest, acc =>
    if c = qt then some (acc.reverse, rest)
    else if c = bsl then
      match rest with
      | 'u' :: a :: b :: c2 :: d :: rest2 =>
        match hex4 a b c2 d with
        | none => none
        | some code =>
          if 0xD800 ≤ code ∧ code ≤ 0xDBFF then
            match rest2 with
            | e1 :: e2 :: f1 :: f2 :: f3 :: f4 :: rest4 =>
              if e1 = bsl ∧ e2 = 'u' then
                match hex4 f1 f2 f3 f4 with
                | some code2 =>
                  if 0xDC00 ≤ code2 ∧ code2 ≤ 0xDFFF then
                    scanString fuel rest4
                      ((0x10000 + (code - 0xD800) * 1024 + (code2 - 0xDC00)) :: acc)
                  else scanString fuel rest2 (code :: acc)
                | none => none
              else scanString fuel rest2 (code :: acc)
            | e1 :: e2 :: _ =>
              if e1 = bsl ∧ e2 = 'u' then none
              else scanString fuel rest2 (code :: acc)
            | _ => scanString fuel rest2 (code :: acc)
          else scanString fuel rest2 (code :: acc)
      | e :: rest2 =>
        match escCode e with
        | some n => scanString fuel rest2 (n :: acc)
        | none => none
      | [] => none
    else if c.toNat < 32 then none
    else scanString fuel rest (c.toNat :: acc)

/-- Longest digit prefix (the `\d*` / `\d+` pieces of Python `NUMBER_RE`). -/
def takeDigitsJ : List Char → List Char × List Char
  | [] => ([], [])
  | c :: r =>
    if c.isDigit then
      match takeDigitsJ r with
      | (ds, r2) => (c :: ds, r2)
    else ([], c :: r)

/-- Integer part of `NUMBER_RE`: `0 | [1-9]\d*` (no sign). -/
def scanIntPart : List Char → Option (List Char × List Char)
  | [] => none
  | c :: r =>
    if c = '0' then some (['0'], r)
    else if c.isDigit then
      match takeDigitsJ r with
      | (ds, r2) => some (c :: ds, r2)
    else none

/-- Optional fraction group `(\.\d+)?`; a dot without digits matches nothing. -/
def scanFrac : List Char → List Char × List Char
  | '.' :: r =>
    match takeDigitsJ r with
    | ([], _) => ([], '.' :: r)
    | (ds, r2) => ('.' :: ds, r2)
  | l => ([], l)

/-- Optional exponent group `([eE][-+]?\d+)?`; without digits it matches
nothing. -/
def scanExp : List Char → List Char × List Char
  | [] => ([], [])
  | c :: r =>
    if c = 'e' ∨ c = 'E' then
      match r with
      | [] => ([], [c])
      | s :: r2 =>
        if s = '+' ∨ s = '-' then
          match takeDigitsJ r2 with
          | ([], _) => ([], c :: s :: r2)
          | (ds, r3) => (c :: s :: ds, r3)
        else
          match takeDigitsJ r with
          | ([], _) => ([], c :: r)
          | (ds, r3) => (c :: ds, r3)
    else ([], c :: r)

/-- Python `NUMBER_RE.match`: the matched token and the rest, or `none`. -/
def scanNumber (cs : List Char) : Option (List Char × List Char) :=
  match cs with
  | '-' :: r =>
    match scanIntPart r with
    | none => none
    | some (ip, r2) =>
      match scanFrac r2 with
      | (fp, r3) =>
        match scanExp r3 with
        | (ep, r4) => some ('-' :: (ip ++ fp ++ ep), r4)
  | _ =>
    match scanIntPart cs with
    | none => none
    | some (ip, r2) =>
      match scanFrac r2 with
      | (fp, r3) =>
        match scanExp r3 with
        | (ep, r4) => some (ip ++ fp ++ ep, r4)

/-- Token of the `null` literal. -/
def nullTok : List Char := ("null").data

/-- Token of the `true` literal. -/
def trueTok : List Char := ("true").data

/-- Token of the `false` literal. -/
def falseTok : List Char := ("false").data

/-- Token of the `NaN` constant. -/
def nanTok : List Char := ("NaN").data

/-- Token of the `Infinity` constant. -/
def infTok : List Char := ("Infinity").data

/-- Token of the `-Infinity` constant. -/
def ninfTok : List Char := ("-Infinity").data

mutual
/-- CPython `_scan_once`: dispatch on the first character — string, object,
array, the three literals, a number, then the three non-finite constants;
anything else is `Expecting value`.  Fuel only bounds nesting; every entry
point supplies more fuel than the input length. -/
def jValue : Nat → List Char → Option (Json × List Char)
  | 0, _ => none
  | fuel + 1, cs =>
    match cs with
    | [] => none
    | c :: r =>
      if c = qt then
        match scanString (r.length + 1) r [] with
        | none => none
        | some (s, r2) => some (.str s, r2)
      else if c = lbr then
        match jSkipWs r with
        | [] => none
        | c1 :: r1 =>
          if c1 = rbr then some (.obj .nil, r1)
          else
            match jMembers fuel (c1 :: r1) with
            | none => none
            | some (fs, r2) =>
              match r2 with
              | c2 :: r3 => if c2 = rbr then some (.obj fs, r3) else none
              | [] => none
      else if c = '[' then
        match jSkipWs r with
        | [] => none
        | c1 :: r1 =>
          if c1 = ']' then some (.arr .nil, r1)
          else
            match jItems fuel (c1 :: r1) with
            | none => none
            | some (vs, r2) =>
              match r2 with
              | c2 :: r3 => if c2 = ']' then some (.arr vs, r3) else none
              | [] => none
      else if nullTok.isPrefixOf cs then some (.null, cs.drop 4)
      else if trueTok.isPrefixOf cs then some (.bool true, cs.drop 4)
      else if falseTok.isPrefixOf cs then some (.bool false, cs.drop 5)
      else
        match scanNumber cs with
        | some (tok, r2) => some (.num tok, r2)
        | none =>
          if nanTok.isPrefixOf cs then some (.num nanTok, cs.drop 3)
          else if infTok.isPrefixOf cs then some (.num infTok, cs.drop 8)
          else if ninfTok.isPrefixOf cs then some (.num ninfTok, cs.drop 9)
          else none
/-- CPython `JSONObject` member loop, stopping (without consuming) at the
character that must be the closing brace. -/
def jMembers : Nat → List Char → Option (JsonFields × List Char)
  | 0, _ => none
  | fuel + 1, cs =>
    match cs with
    | [] => none
    | c :: r =>
      if c = qt then
        match scanString (r.length + 1) r [] with
        | none => none
        | some (key, r1) =>
          match jSkipWs r1 with
          | [] => none
          | c2 :: r2 =>
            if c2 = ':' then
              match jValue fuel (jSkipWs r2) with
              | none => none
              | some (v, r3) =>
                match jSkipWs r3 with
                | ',' :: r4 =>
                  match jMembers fuel (jSkipWs r4) with
                  | none => none
                  | some (fs, r5) => some (.cons key v fs, r5)
                | r5 => some (.cons key v .nil, r5)
            else none
      else none
/-- CPython `JSONArray` element loop, stopping (without consuming) at the
character that must be the closing bracket. -/
def jItems : Nat → List Char → Option (JsonList × List Char)
  | 0, _ => none
  | fuel + 1, cs =>
    match jValue fuel cs with
    | none => none
    | some (v, r) =>
      match jSkipWs r with
      | ',' :: r2 =>
        match jItems fuel (jSkipWs r2) with
        | none => none
        | some (vs, r3) => some (.cons v vs, r3)
      | _ => some (.cons v .nil, jSkipWs r)
end

/-- Result of Python `json.loads`: a value, the `Extra data` error (a
complete document followed by trailing non-whitespace), or any other
`JSONDecodeError` — the only distinction `_parse_json` inspects. -/
inductive JRes where
  | val (v : Json)
  | extra
  | fail
deriving DecidableEq

/-- Python `json.loads`: skip leading whitespace, parse one document, then
require only whitespace to remain (`Extra data` otherwise). -/
def jLoadsL (cs : List Char) : JRes :=
  match jValue ((jSkipWs cs).length + 1) (jSkipWs cs) with
  | none => .fail
  | some (v, r) => if jSkipWs r = [] then .val v else .extra

/-- Python `json.JSONDecoder().raw_decode(s)` at index 0: parse one document
starting exactly at the first character (no whitespace skip), ignoring what
follows. -/
def jRawDecodeL (cs : List Char) : Option Json :=
  (jValue (cs.length + 1) cs).map Prod.fst

/-- Fenced-code prefix `\x60\x60\x60json` stripped by the cleaning step. -/
def fenceJsonTok : List Char := ("```json").data

/-- Fenced-code marker `\x60\x60\x60`. -/
def fenceTok : List Char := ("```").data

/-- The prefix part of the markdown cleaning (src/utils/llm_client.py lines
241-244). -/
def dropFencePre (l : List Char) : List Char :=
  if fenceJsonTok.isPrefixOf l then l.drop 7
  else if fenceTok.isPrefixOf l then l.drop 3
  else l

/-- The suffix part of the markdown cleaning (src/utils/llm_client.py lines
246-247). -/
def dropFenceSuf (l : List Char) : List Char :=
  if fenceTok.isSuffixOf l then l.take (l.length - 3) else l

/-- One whole cleaning step (src/utils/llm_client.py lines 238-249):
`strip`, drop a fence prefix (with or without the `json` tag), drop a fence
suffix, `strip` again. -/
def cleanFences (l : List Char) : List Char :=
  lStripBoth (dropFenceSuf (dropFencePre (lStripBoth l)))

/-- The in-string flag update of the brace scanner
(src/utils/llm_client.py line 270). -/
def scanInStr (c : Char) (inStr esc : Bool) : Bool :=
  if c = qt ∧ ¬esc then ¬inStr else inStr

/-- The character loop of the last-resort brace scan (src/utils/
llm_client.py lines 260-281): track escape, string state and brace depth;
when depth returns to zero the consumed chunk is the candidate. -/
def braceScan : List Char → Int → Bool → Bool → List Char → Option (List Char)
  | [], _, _, _, _ => none
  | c :: rest, depth, inStr, esc, acc =>
    if c = bsl ∧ ¬esc then braceScan rest depth inStr true (c :: acc)
    else if scanInStr c inStr esc then
      braceScan rest depth (scanInStr c inStr esc) false (c :: acc)
    else if c = lbr then braceScan rest (depth + 1) (scanInStr c inStr esc) false (c :: acc)
    else if c = rbr then
      if depth - 1 = 0 then some (c :: acc).reverse
      else braceScan rest (depth - 1) (scanInStr c inStr esc) false (c :: acc)
    else braceScan rest depth (scanInStr c inStr esc) false (c :: acc)

/-- `text.find(...)` for the first opening brace plus the scan; `none` when
no brace exists or the loop ends without closing. -/
def braceCandidate (l : List Char) : Option (List Char) :=
  match l.dropWhile (fun c => c ≠ lbr) with
  | [] => none
  | c :: rest => braceScan (c :: rest) 0 false false []

/-- The whole last-resort branch (src/utils/llm_client.py lines 257-283):
extract the first balanced brace chunk of the ORIGINAL text and `json.loads`
it; any failure (no candidate, or any loads error) falls through to the
final raise. -/
def braceExtract (l : List Char) : Option Json :=
  match braceCandidate l with
  | none => none
  | some cand =>
    match jLoadsL cand with
    | .val v => some v
    | _ => none

/-- The retry loop of `_parse_json` (src/utils/llm_client.py lines 219-288)
with `remaining` attempts left: try `json.loads`; on `Extra data` try
`raw_decode` of the CURRENT text; otherwise clean fences and retry, and on
the last attempt run the brace scan over the ORIGINAL text. -/
def parseJsonLoop (original current : List Char) : Nat → Option Json
  | 0 => none
  | 1 =>
    match jLoadsL current with
    | .val v => some v
    | .extra =>
      match jRawDecodeL current with
      | some v => some v
      | none => braceExtract original
    | .fail => braceExtract original
  | n + 2 =>
    match jLoadsL current with
    | .val v => some v
    | .extra =>
      match jRawDecodeL current with
      | some v => some v
      | none => parseJsonLoop original (cleanFences current) (n + 1)
    | .fail => parseJsonLoop original (cleanFences current) (n + 1)

/-- `LLMClient._parse_json` (src/utils/llm_client.py lines 203-290) with the
default three attempts; `none` models the final `Exception` raise. -/
def parse_json (s : String) : Option Json := parseJsonLoop s.data s.data 3

/-- Default persona used with `List.getD` in positional statements. -/
def defaultPersona : Persona := ⟨"", "", "", []⟩

-- ===== Theorems =====

theorem assignIdsFrom_map_id (s : Nat) (ps : List Persona) :
    (assignIdsFrom s ps).map Persona.id
      = (List.range ps.length).map (fun i => "P" ++ toString (s + i)) := by
  induction ps generalizing s with
  | nil => simp [assignIdsFrom]
  | cons p ps ih =>
    show ("P" ++ toString s) :: (assignIdsFrom (s + 1) ps).map Persona.id = _
    rw [ih, List.length_cons, List.range_succ_eq_map, List.map_cons, List.map_map]
    refine List.cons_eq_cons.mpr ⟨by simp, ?_⟩
    symm
    apply List.map_congr_left
    intro a _
    simp only [Function.comp_apply]
    have h : s + Nat.succ a = s + 1 + a := by omega
    rw [h]

theorem assignIdsFrom_length (s : Nat) (ps : List Persona) :
    (assignIdsFrom s ps).length = ps.length := by
  induction ps generalizing s with
  | nil => rfl
  | cons p ps ih => simp [assignIdsFrom, ih]

/-- C9 counterexample: with a single existing persona whose id is `P5`
(maximum id number 5), the one added persona is assigned id `P2` — the
sequential continuation of the persona COUNT, not of the maximum id number
`P6` that the claim requires. -/
theorem c9_counterexample :
    generate_additional_personas [⟨"P5", "a", "b", ["x", "y", "z"]⟩]
        [⟨"", "c", "d", ["u", "v", "w"]⟩] 1
      = some [⟨"P2", "c", "d", ["u", "v", "w"]⟩] ∧ ("P2" : String) ≠ "P6" := by
  constructor
  · rfl
  · decide

/-- C9 (amended): in the additive re-run, the k new personas receive ids
`P<L+1> .. P<L+k>` in order, where `L` is the NUMBER of existing personas
(this coincides with the maximum id only when existing ids are exactly
`P1..PL`). -/
theorem c9_additional_ids (existing_personas new_personas out : List Persona) (k : Nat)
    (h : generate_additional_personas existing_personas new_personas k = some out) :
    out.map Persona.id
        = (List.range new_personas.length).map
            (fun i => "P" ++ toString (existing_personas.length + 1 + i))
      ∧ out.length = new_personas.length := by
  unfold generate_additional_personas at h
  split at h
  · cases h
    exact ⟨assignIdsFrom_map_id _ _, assignIdsFrom_length _ _⟩
  · exact absurd h (by simp)

/-- C9 witness: two existing personas, one new persona: the new id is `P3`. -/
theorem c9_witness :
    ([⟨"P3", "c", "d", ["u", "v", "w"]⟩] : List Persona).map Persona.id
      = (List.range 1).map (fun i => "P" ++ toString (2 + 1 + i)) :=
  (c9_additional_ids [⟨"P1", "a", "b", ["x", "y", "z"]⟩, ⟨"P2", "a", "b", ["x", "y", "z"]⟩]
    [⟨"q", "c", "d", ["u", "v", "w"]⟩] [⟨"P3", "c", "d", ["u", "v", "w"]⟩] 1 rfl).1

theorem retryFrom_all_fail (outcomes : Nat → Except String String) (msgs : Nat → String)
    (maxr : Nat) (hfail : ∀ i, i < maxr → outcomes i = .error (msgs i)) :
    ∀ r, 0 < r → r ≤ maxr →
      retryFrom outcomes maxr r
        = .error (if isRateLimitMsg (msgs (maxr - 1)) then rateLimitAbortMsg
                  else msgs (maxr - 1)) := by
  intro r
  induction r with
  | zero => omega
  | succ r ih =>
    intro _ hle
    have hidx : maxr - (r + 1) < maxr := by omega
    have hout := hfail (maxr - (r + 1)) hidx
    rcases Nat.eq_zero_or_pos r with hr0 | hrpos
    · subst hr0
      have hlast : maxr - (0 + 1) = maxr - 1 := by omega
      rw [hlast] at hout
      rw [retryFrom, hlast, hout]
      by_cases hc : isRateLimitMsg (msgs (maxr - 1))
      · simp [hc]
      · simp [hc]
    · have hrec := ih hrpos (by omega)
      rw [retryFrom, hout]
      by_cases hc : isRateLimitMsg (msgs (maxr - (r + 1)))
      · simpa [hc, hrpos] using hrec
      · simpa [hc, hrpos] using hrec

/-- C7 counterexample: a single attempt failing with a rate-limit error is
NOT re-raised verbatim — `generate_with_retry` raises the fixed message
`rateLimitAbortMsg` instead of the underlying failure text. -/
theorem c7_counterexample :
    generate_with_retry (fun _ => .error "Error 429: rate_limit exceeded") 1
        = .error rateLimitAbortMsg
      ∧ ("Error 429: rate_limit exceeded" : String) ≠ rateLimitAbortMsg := by
  constructor
  · rfl
  · decide

/-- C7 (amended): after all attempts are exhausted with failures, the raised
exception is the LAST failure re-raised verbatim for non-rate-limit failures,
but for rate-limit-class failures it is the fixed new message
`rateLimitAbortMsg`, not the underlying failure. -/
theorem c7_exhaustion_raises (outcomes : Nat → Except String String) (msgs : Nat → String)
    (maxr : Nat) (h0 : 0 < maxr) (hfail : ∀ i, i < maxr → outcomes i = .error (msgs i)) :
    generate_with_retry outcomes maxr
      = .error (if isRateLimitMsg (msgs (maxr - 1)) then rateLimitAbortMsg
                else msgs (maxr - 1)) :=
  retryFrom_all_fail outcomes msgs maxr hfail maxr h0 (Nat.le_refl maxr)

/-- C7 witness: three failing attempts with a non-rate-limit message re-raise
that message verbatim. -/
theorem c7_witness :
    generate_with_retry (fun _ => .error "boom") 3 = .error "boom" := by
  have h := c7_exhaustion_raises (fun _ => .error "boom") (fun _ => "boom") 3
    (by decide) (fun i _ => rfl)
  have hrl : isRateLimitMsg "boom" = false := by decide
  rw [hrl] at h
  simpa using h

/-- C8: any failure of the review model call, and any failure to parse its
output, makes `review` return the default result — `has_issues = false`,
an empty issue list and confidence 0.5 — instead of raising. -/
theorem c8_review_failure_default (parse : String → Option ReviewResultS)
    (callResult : Except String String)
    (hfail : ∀ txt, callResult = .ok txt → parse txt = none) :
    review parse callResult = defaultReviewResult
      ∧ defaultReviewResult.has_issues = false
      ∧ defaultReviewResult.issues = []
      ∧ defaultReviewResult.confidence_score = 1 / 2 := by
  refine ⟨?_, rfl, rfl, rfl⟩
  cases callResult with
  | error e => rfl
  | ok txt => simp [review, hfail txt rfl]

/-- C8 witness: a transport error yields the default result. -/
theorem c8_witness :
    review (fun _ => some ⟨true, ["x"], "q", 1⟩) (.error "transport error")
      = defaultReviewResult :=
  (c8_review_failure_default (fun _ => some ⟨true, ["x"], "q", 1⟩)
    (.error "transport error") (fun _ h => by cases h)).1

theorem headerOf_length (axes : List Axis) : (headerOf axes).length = 4 + axes.length := by
  simp [headerOf]
  omega

theorem convertRow_length (axes : List Axis) (rd : RowData) :
    (convertRow axes rd).length = 4 + axes.length := by
  simp [convertRow]
  omega

theorem convert_to_2d_list_shape (matrix_data : List RowData) (axes : List Axis) :
    (convert_to_2d_list matrix_data axes).length = matrix_data.length + 1
      ∧ ∀ row ∈ convert_to_2d_list matrix_data axes, row.length = 4 + axes.length := by
  constructor
  · simp [convert_to_2d_list]
  · intro row hrow
    rcases List.mem_cons.mp hrow with h | h
    · subst h; exact headerOf_length axes
    · rcases List.mem_map.mp h with ⟨rd, _, rfl⟩
      exact convertRow_length axes rd

/-- C10: matrix assembly is total and silently default-fills: every assembled
data row has exactly `4 + len(axes)` cells; an axis label missing from a
row's evaluations object renders as `""`, and a missing identity field
renders as `""` (shown for the `industry` and `companies` columns). -/
theorem c10_convert_total_default_fill (matrix_data : List RowData) (axes : List Axis) :
    (convert_to_2d_list matrix_data axes).length = matrix_data.length + 1
      ∧ (∀ row ∈ convert_to_2d_list matrix_data axes, row.length = 4 + axes.length)
      ∧ (∀ rd ∈ matrix_data, ∀ i a, axes[i]? = some a →
          rd.evaluations.find? (fun e => e.1 = axisLabel a) = none →
          (convertRow axes rd)[4 + i]? = some "")
      ∧ (∀ rd ∈ matrix_data, rd.industry = none → (convertRow axes rd)[1]? = some "")
      ∧ (∀ rd ∈ matrix_data, rd.companies = none → (convertRow axes rd)[3]? = some "") := by
  refine ⟨(convert_to_2d_list_shape matrix_data axes).1,
          (convert_to_2d_list_shape matrix_data axes).2, ?_, ?_, ?_⟩
  · intro rd _ i a hi hmiss
    have h4 : (convertRow axes rd)[4 + i]?
        = (axes.map (fun a => lookupEval rd.evaluations (axisLabel a)))[i]? := by
      unfold convertRow
      rw [List.getElem?_append_right (by simp)]
      simp
    rw [h4, List.getElem?_map, hi]
    simp [lookupEval, hmiss]
  · intro rd _ hnone
    simp [convertRow, hnone]
  · intro rd _ hnone
    simp [convertRow, hnone, renderCompanies]

/-- C10 witness: one axis, one row record with every key missing: the row has
5 cells, the axis cell and the identity cells are empty strings. -/
theorem c10_witness :
    (convert_to_2d_list [⟨none, none, none, none, none, []⟩] [⟨"フロー", "顧客折衝"⟩]).length
        = 2
      ∧ (convertRow [⟨"フロー", "顧客折衝"⟩] ⟨none, none, none, none, none, []⟩)[4]?
        = some "" := by
  have h := c10_convert_total_default_fill
    [⟨none, none, none, none, none, []⟩] [⟨"フロー", "顧客折衝"⟩]
  refine ⟨h.1, ?_⟩
  have h4 := h.2.2.1 ⟨none, none, none, none, none, []⟩ (by simp) 0 ⟨"フロー", "顧客折衝"⟩
    (by rfl) (by rfl)
  simpa using h4

/-- C3: every matrix `evaluate_matrix` returns for `P` personas and `A` age
ranges has exactly `P*A + 1` rows, and every row has exactly as many cells
as the header row; a matrix violating either condition is rejected by
`validate_matrix` and never returned. -/
theorem c3_evaluate_matrix_shape (blocks : List (List RowData)) (personas : List Persona)
    (axes : List Axis) (age_ranges : List String) (m : List (List String))
    (h : evaluate_matrix blocks personas axes age_ranges = some m) :
    m.length = personas.length * age_ranges.length + 1
      ∧ ∀ row ∈ m, row.length = (headerOf axes).length := by
  unfold evaluate_matrix at h
  split at h
  case isTrue hval =>
    cases h
    constructor
    · unfold validate_matrix at hval
      split at hval
      · simp at hval
      · simp only [Bool.and_eq_true, decide_eq_true_eq] at hval
        exact hval.1
    · intro row hrow
      rw [headerOf_length]
      exact (convert_to_2d_list_shape blocks.flatten axes).2 row hrow
  case isFalse => exact absurd h (by simp)

/-- C3 witness: one persona, one age range, a single block with one row
record: the returned matrix has 2 rows of equal width. -/
theorem c3_witness :
    ([["ペルソナID/年齢", "業界", "職種", "在籍企業イメージ"], ["P1/25-29", "", "", ""]] :
        List (List String)).length = 1 * 1 + 1 := by
  have h := c3_evaluate_matrix_shape [[⟨some "P1", some "25-29", none, none, none, []⟩]]
    [⟨"P1", "a", "b", ["x", "y", "z"]⟩] [] ["25-29"]
    [["ペルソナID/年齢", "業界", "職種", "在籍企業イメージ"], ["P1/25-29", "", "", ""]] rfl
  exact h.1

theorem getLast?_mem_of_eq {α : Type} (l : List α) (x : α) (h : l.getLast? = some x) :
    x ∈ l := by
  have hx : x ∈ l.getLast? := by rw [h]; rfl
  rcases List.mem_getLast?_eq_getLast hx with ⟨hne, rfl⟩
  exact List.getLast_mem hne

theorem labelIdx_getD (l : List String) (lab : String) :
    ∀ i, labelIdx l lab = some i → l.getD i "" = lab := by
  induction l with
  | nil => intro i h; cases h
  | cons s rest ih =>
    intro i h
    unfold labelIdx at h
    split at h
    · cases h
      simpa using by assumption
    · rcases Option.map_eq_some'.mp h with ⟨j, hj, rfl⟩
      simpa using ih j hj

theorem labelIdx_cols_ne (l : List String) (i j : Nat)
    (hi : labelIdx l idColLabel = some i) (hj : labelIdx l companiesColLabel = some j) :
    i ≠ j := by
  intro hij
  have h1 := labelIdx_getD l idColLabel i hi
  have h2 := labelIdx_getD l companiesColLabel j hj
  rw [hij, h2] at h1
  exact absurd h1 (by decide)

theorem syncRow_nil (ic cc : Nat) (ps : List Persona) : syncRow ic cc ps [] = [] := by
  simp [syncRow]

theorem syncRow_length (ic cc : Nat) (ps : List Persona) (row : List String) :
    (syncRow ic cc ps row).length = row.length := by
  unfold syncRow
  split
  · rfl
  split
  · rfl
  split
  · rfl
  · exact List.length_set row cc _

/-- Branch analysis of one sync-row step: either the row is returned
untouched, or the guards pass and exactly the companies cell is overwritten. -/
theorem syncRow_cases (ic cc : Nat) (ps : List Persona) (row : List String) :
    syncRow ic cc ps row = row
      ∨ (¬ row.length ≤ max ic cc
          ∧ pyStrip (headTok (row.getD ic "")) ≠ ""
          ∧ ∃ cs, companiesFor ps (pyStrip (headTok (row.getD ic ""))) = some cs
              ∧ syncRow ic cc ps row = row.set cc (String.intercalate "、" cs)) := by
  unfold syncRow
  split
  · exact Or.inl rfl
  next hlen =>
    split
    · exact Or.inl rfl
    next hpid =>
      split
      · exact Or.inl rfl
      next cs hcs =>
        exact Or.inr ⟨hlen, hpid, cs, hcs, rfl⟩

theorem syncRow_idem (ic cc : Nat) (hne : ic ≠ cc) (ps : List Persona) (row : List String) :
    syncRow ic cc ps (syncRow ic cc ps row) = syncRow ic cc ps row := by
  rcases syncRow_cases ic cc ps row with h | ⟨hlen, hpid, cs, hcs, hset⟩
  · rw [h, h]
  · rw [hset]
    have hlen2 : ¬ (row.set cc (String.intercalate "、" cs)).length ≤ max ic cc := by
      rw [List.length_set]; exact hlen
    have hcell : (row.set cc (String.intercalate "、" cs)).getD ic "" = row.getD ic "" := by
      rw [List.getD_eq_getElem?_getD, List.getElem?_set_ne (fun hx => hne hx.symm),
        ← List.getD_eq_getElem?_getD]
    unfold syncRow
    rw [if_neg hlen2, hcell, if_neg hpid, hcs]
    show (row.set cc (String.intercalate "、" cs)).set cc (String.intercalate "、" cs)
        = row.set cc (String.intercalate "、" cs)
    rw [List.set_set]

theorem getD_map_syncRow (ic cc : Nat) (ps : List Persona) (rows : List (List String))
    (i : Nat) :
    (rows.map (syncRow ic cc ps)).getD i [] = syncRow ic cc ps (rows.getD i []) := by
  rw [List.getD_eq_getElem?_getD, List.getD_eq_getElem?_getD, List.getElem?_map]
  cases h : rows[i]? with
  | none => simp [syncRow_nil]
  | some row => simp

theorem sync_two_eq_none_id (header r0 : List String) (rest : List (List String))
    (ps : List Persona) (hic : labelIdx header idColLabel = none) :
    sync_matrix_companies_with_personas (header :: r0 :: rest) ps = header :: r0 :: rest := by
  unfold sync_matrix_companies_with_personas
  rw [if_neg (by simp)]
  dsimp only
  rw [hic]

theorem sync_two_eq_none_comp (header r0 : List String) (rest : List (List String))
    (ps : List Persona) (ic : Nat) (hic : labelIdx header idColLabel = some ic)
    (hcc : labelIdx header companiesColLabel = none) :
    sync_matrix_companies_with_personas (header :: r0 :: rest) ps = header :: r0 :: rest := by
  unfold sync_matrix_companies_with_personas
  rw [if_neg (by simp)]
  dsimp only
  rw [hic, hcc]

theorem sync_two_eq_cols (header r0 : List String) (rest : List (List String))
    (ps : List Persona) (ic cc : Nat) (hic : labelIdx header idColLabel = some ic)
    (hcc : labelIdx header companiesColLabel = some cc) :
    sync_matrix_companies_with_personas (header :: r0 :: rest) ps
      = header :: (r0 :: rest).map (syncRow ic cc ps) := by
  unfold sync_matrix_companies_with_personas
  rw [if_neg (by simp)]
  dsimp only
  rw [hic, hcc]

/-- C5: resynchronizing the companies column twice with the same personas
produces the same matrix as doing it once. -/
theorem c5_sync_idempotent (m : List (List String)) (ps : List Persona) :
    sync_matrix_companies_with_personas (sync_matrix_companies_with_personas m ps) ps
      = sync_matrix_companies_with_personas m ps := by
  rcases m with _ | ⟨header, rows⟩
  · rfl
  rcases rows with _ | ⟨r0, rest⟩
  · rfl
  rcases hic : labelIdx header idColLabel with _ | ic
  · rw [sync_two_eq_none_id header r0 rest ps hic, sync_two_eq_none_id header r0 rest ps hic]
  rcases hcc : labelIdx header companiesColLabel with _ | cc
  · rw [sync_two_eq_none_comp header r0 rest ps ic hic hcc,
      sync_two_eq_none_comp header r0 rest ps ic hic hcc]
  rw [sync_two_eq_cols header r0 rest ps ic cc hic hcc, List.map_cons,
    sync_two_eq_cols header (syncRow ic cc ps r0) (rest.map (syncRow ic cc ps)) ps ic cc hic hcc,
    ← List.map_cons, List.map_map]
  congr 1
  apply List.map_congr_left
  intro row _
  exact syncRow_idem ic cc (labelIdx_cols_ne header ic cc hic hcc) ps row

/-- C6: resync changes only the companies column, and only in data rows whose
leading id token names some persona; the header row, every other cell, short
rows and rows with empty or unknown id tokens are unchanged (the function is
total by construction, so no input raises).  Any changed cell is
characterized: it sits in a data row, in the companies column located from
the header, its row's leading id token names a persona of the list, and its
new value is the joined companies of the persona the sync dict associates to
that token. -/
theorem c6_sync_frame (m : List (List String)) (ps : List Persona) :
    (sync_matrix_companies_with_personas m ps).length = m.length
      ∧ (sync_matrix_companies_with_personas m ps).headD [] = m.headD []
      ∧ (∀ i, ((sync_matrix_companies_with_personas m ps).getD i []).length
            = (m.getD i []).length)
      ∧ ∀ i j, cellAt (sync_matrix_companies_with_personas m ps) i j ≠ cellAt m i j →
          1 ≤ i
            ∧ ∃ ic cc, labelIdx (m.headD []) idColLabel = some ic
                ∧ labelIdx (m.headD []) companiesColLabel = some cc
                ∧ j = cc
                ∧ pyStrip (headTok (cellAt m i ic)) ≠ ""
                ∧ (∃ p ∈ ps, p.id = pyStrip (headTok (cellAt m i ic)))
                ∧ ∃ cs, companiesFor ps (pyStrip (headTok (cellAt m i ic))) = some cs
                    ∧ cellAt (sync_matrix_companies_with_personas m ps) i j
                        = String.intercalate "、" cs := by
  rcases m with _ | ⟨header, rows⟩
  · exact ⟨rfl, rfl, fun i => rfl, fun i j h => absurd rfl h⟩
  rcases rows with _ | ⟨r0, rest⟩
  · exact ⟨rfl, rfl, fun i => rfl, fun i j h => absurd rfl h⟩
  rcases hic : labelIdx header idColLabel with _ | ic
  · rw [sync_two_eq_none_id header r0 rest ps hic]
    exact ⟨rfl, rfl, fun i => rfl, fun i j h => absurd rfl h⟩
  rcases hcc : labelIdx header companiesColLabel with _ | cc
  · rw [sync_two_eq_none_comp header r0 rest ps ic hic hcc]
    exact ⟨rfl, rfl, fun i => rfl, fun i j h => absurd rfl h⟩
  rw [sync_two_eq_cols header r0 rest ps ic cc hic hcc]
  refine ⟨by simp, rfl, ?_, ?_⟩
  · intro i
    cases i with
    | zero => rfl
    | succ i =>
      show (((r0 :: rest).map (syncRow ic cc ps)).getD i []).length
          = ((r0 :: rest).getD i []).length
      rw [getD_map_syncRow, syncRow_length]
  · intro i j hchanged
    cases i with
    | zero => exact absurd rfl hchanged
    | succ i =>
      refine ⟨Nat.succ_le_succ (Nat.zero_le i), ic, cc, hic, hcc, ?_⟩
      have hrow : cellAt (header :: (r0 :: rest).map (syncRow ic cc ps)) (i + 1) j
          = (syncRow ic cc ps ((r0 :: rest).getD i [])).getD j "" := by
        show (((r0 :: rest).map (syncRow ic cc ps)).getD i []).getD j "" = _
        rw [getD_map_syncRow]
      have hcell : cellAt (header :: r0 :: rest) (i + 1) j
          = ((r0 :: rest).getD i []).getD j "" := rfl
      have hcellic : cellAt (header :: r0 :: rest) (i + 1) ic
          = ((r0 :: rest).getD i []).getD ic "" := rfl
      rw [hrow, hcell] at hchanged
      rcases syncRow_cases ic cc ps ((r0 :: rest).getD i []) with h | hcase
      · rw [h] at hchanged
        exact absurd rfl hchanged
      · rcases hcase with ⟨hlen, hpid, cs, hcs, hset⟩
        rw [hset] at hchanged
        have hcclt : cc < ((r0 :: rest).getD i []).length :=
          lt_of_le_of_lt (Nat.le_max_right ic cc) (Nat.lt_of_not_le hlen)
        have hjcc : j = cc := by
          by_contra hne
          apply hchanged
          rw [List.getD_eq_getElem?_getD, List.getElem?_set_ne (fun hx => hne hx.symm),
            ← List.getD_eq_getElem?_getD]
        subst hjcc
        have hpidmem : ∃ p ∈ ps,
            p.id = pyStrip (headTok (cellAt (header :: r0 :: rest) (i + 1) ic)) := by
          have hpick := hcs
          unfold companiesFor at hpick
          rcases Option.map_eq_some'.mp hpick with ⟨p, hp, _⟩
          have hmem := getLast?_mem_of_eq _ p hp
          have hf := List.mem_filter.mp hmem
          refine ⟨p, hf.1, ?_⟩
          rw [hcellic]
          simpa using hf.2
        refine ⟨rfl, by rw [hcellic]; exact hpid, hpidmem, cs, by rw [hcellic]; exact hcs, ?_⟩
        rw [hrow, hset, List.getD_eq_getElem?_getD, List.getElem?_set_self hcclt]
        rfl

theorem updateFirstPersona_map_id (i : String) (d : DeltaPersona) (hd : d.id = some i)
    (ps : List Persona) :
    (updateFirstPersona i d ps).map Persona.id = ps.map Persona.id := by
  induction ps with
  | nil => rfl
  | cons p pt ih =>
    unfold updateFirstPersona
    split
    · next hpi => simp [updFields, hd, hpi]
    · simpa using ih

theorem map_id_getD_eq (ps₁ ps : List Persona)
    (hmap : ps₁.map Persona.id = ps.map Persona.id) (k : Nat) (hk : k < ps.length) :
    (ps₁.getD k defaultPersona).id = (ps.getD k defaultPersona).id := by
  have hlen : ps₁.length = ps.length := by
    have := congrArg List.length hmap
    simpa using this
  have h1 : (ps₁.map Persona.id)[k]? = (ps.map Persona.id)[k]? := by rw [hmap]
  rw [List.getElem?_map, List.getElem?_map] at h1
  rw [List.getD_eq_getElem ps₁ defaultPersona (by omega),
    List.getD_eq_getElem ps defaultPersona hk]
  have h2 : ps₁[k]? = some ps₁[k] := List.getElem?_eq_getElem (by omega)
  have h3 : ps[k]? = some ps[k] := List.getElem?_eq_getElem hk
  rw [h2, h3] at h1
  simpa using h1

theorem updateFirstPersona_getD (i : String) (d : DeltaPersona) (ps : List Persona)
    (hnd : (ps.map Persona.id).Nodup) (k : Nat) (hk : k < ps.length) :
    (updateFirstPersona i d ps).getD k defaultPersona
      = (if (ps.getD k defaultPersona).id = i
         then updFields (ps.getD k defaultPersona) d
         else ps.getD k defaultPersona) := by
  induction ps generalizing k with
  | nil => cases hk
  | cons p pt ih =>
    rw [List.map_cons, List.nodup_cons] at hnd
    unfold updateFirstPersona
    split
    · next hpi =>
      cases k with
      | zero =>
        simp only [List.getD_cons_zero]
        rw [if_pos hpi]
      | succ k =>
        have hklt : k < pt.length := by simpa using hk
        have hmem : (pt.getD k defaultPersona).id ∈ pt.map Persona.id := by
          rw [List.getD_eq_getElem pt defaultPersona hklt]
          exact List.mem_map_of_mem Persona.id (List.getElem_mem hklt)
        have hne : ¬ (pt.getD k defaultPersona).id = i := by
          intro hx
          apply hnd.1
          rw [hpi, ← hx]
          exact hmem
        simp only [List.getD_cons_succ]
        rw [if_neg hne]
    · next hpi =>
      cases k with
      | zero =>
        simp only [List.getD_cons_zero]
        rw [if_neg hpi]
      | succ k =>
        have hklt : k < pt.length := by simpa using hk
        simp only [List.getD_cons_succ]
        exact ih hnd.2 k hklt

theorem applyPersonaDelta_spec (ds : List DeltaPersona) (ps ps' : List Persona)
    (hnd : (ps.map Persona.id).Nodup) (h : applyPersonaDelta ds ps = some ps') :
    ps'.map Persona.id = ps.map Persona.id
      ∧ ps'.length = ps.length
      ∧ ∀ k, k < ps.length →
          ps'.getD k defaultPersona
            = (ds.filter
                (fun d => d.id = some ((ps.getD k defaultPersona).id))).foldl
                updFields (ps.getD k defaultPersona) := by
  induction ds generalizing ps with
  | nil =>
    cases h
    exact ⟨rfl, rfl, fun k hk => rfl⟩
  | cons d ds ih =>
    rcases ps with _ | ⟨p, pt⟩
    · have hres := ih [] (by simp) h
      exact ⟨hres.1, hres.2.1, fun k hk => absurd hk (by simp)⟩
    · unfold applyPersonaDelta at h
      rcases hdid : d.id with _ | i
      · rw [hdid] at h; cases h
      · rw [hdid] at h
        have hmap1 := updateFirstPersona_map_id i d hdid (p :: pt)
        have hnd1 : ((updateFirstPersona i d (p :: pt)).map Persona.id).Nodup := by
          rw [hmap1]; exact hnd
        have hres := ih (updateFirstPersona i d (p :: pt)) hnd1 h
        have hlen1 : (updateFirstPersona i d (p :: pt)).length = (p :: pt).length := by
          have := congrArg List.length hmap1
          simpa using this
        refine ⟨hres.1.trans hmap1, hres.2.1.trans hlen1, ?_⟩
        intro k hk
        have hk1 : k < (updateFirstPersona i d (p :: pt)).length := by omega
        have hid1 := map_id_getD_eq _ _ hmap1 k hk
        have hstep := updateFirstPersona_getD i d (p :: pt) hnd k hk
        have hmain := hres.2.2 k hk1
        by_cases hcase : ((p :: pt).getD k defaultPersona).id = i
        · rw [List.filter_cons_of_pos
            (by simp only [hdid, hcase, decide_eq_true_eq, Option.some.injEq])]
          rw [List.foldl_cons]
          have hupd : (updateFirstPersona i d (p :: pt)).getD k defaultPersona
              = updFields ((p :: pt).getD k defaultPersona) d := by
            rw [hstep, if_pos hcase]
          rw [hid1] at hmain
          rw [hupd] at hmain
          exact hmain
        · rw [List.filter_cons_of_neg
            (by
              simp only [hdid, decide_eq_true_eq, Option.some.injEq]
              exact fun hx => hcase hx.symm)]
          have hupd : (updateFirstPersona i d (p :: pt)).getD k defaultPersona
              = (p :: pt).getD k defaultPersona := by
            rw [hstep, if_neg hcase]
          rw [hid1] at hmain
          rw [hupd] at hmain
          exact hmain

/-- C2: a personas-subsystem merge that completes preserves the persona id
sequence (hence the id set), leaves every persona whose id is named by no
delta entry completely unchanged, makes each existing persona's result the
field-wise overwrite by exactly the delta entries carrying its id (fields
absent from the delta are kept), never creates a persona, and touches no
other component of the state.  Canonical states have pairwise-distinct ids
(spec §3), taken as a hypothesis. -/
theorem c2_personas_merge (ds : List DeltaPersona) (dAxes : Option (List Axis))
    (dCells : Option (List CellUpdate)) (dDisc : Option String) (st st₂ : CanonState)
    (hnd : (st.personas.map Persona.id).Nodup)
    (h : apply_modifications "personas" ⟨some ds, dAxes, dCells, dDisc⟩ st = some st₂) :
    st₂.personas.map Persona.id = st.personas.map Persona.id
      ∧ st₂.personas.length = st.personas.length
      ∧ (∀ k, k < st.personas.length →
          st₂.personas.getD k defaultPersona
            = (ds.filter
                (fun d => d.id = some ((st.personas.getD k defaultPersona).id))).foldl
                updFields (st.personas.getD k defaultPersona))
      ∧ (∀ k, k < st.personas.length →
          (∀ d ∈ ds, d.id ≠ some ((st.personas.getD k defaultPersona).id)) →
          st₂.personas.getD k defaultPersona = st.personas.getD k defaultPersona)
      ∧ st₂.axes = st.axes ∧ st₂.matrix = st.matrix
      ∧ st₂.discussion_points = st.discussion_points := by
  unfold apply_modifications at h
  rw [if_pos rfl] at h
  rcases Option.map_eq_some'.mp h with ⟨ps', hps, hst⟩
  have hspec := applyPersonaDelta_spec ds st.personas ps' hnd (by simpa using hps)
  subst hst
  refine ⟨hspec.1, hspec.2.1, hspec.2.2, ?_, rfl, rfl, rfl⟩
  intro k hk hnone
  rw [hspec.2.2 k hk, List.filter_eq_nil_iff.mpr ?_]
  · rfl
  · intro d hd
    simpa using hnone d hd

/-- C2 witness: a delta renaming none and updating only P2's companies leaves
P1 untouched and preserves the id sequence. -/
theorem c2_witness :
    ([⟨"P1", "i1", "j1", ["x", "y", "z"]⟩,
      ⟨"P2", "i2", "j2", ["a", "b", "c", "d"]⟩] : List Persona).map Persona.id
      = ([⟨"P1", "i1", "j1", ["x", "y", "z"]⟩,
          ⟨"P2", "i2", "j2", ["u", "v", "w"]⟩] : List Persona).map Persona.id := by
  have h := c2_personas_merge [⟨some "P2", none, none, some ["a", "b", "c", "d"]⟩]
    none none none
    ⟨[⟨"P1", "i1", "j1", ["x", "y", "z"]⟩, ⟨"P2", "i2", "j2", ["u", "v", "w"]⟩], [], [], ""⟩
    ⟨[⟨"P1", "i1", "j1", ["x", "y", "z"]⟩, ⟨"P2", "i2", "j2", ["a", "b", "c", "d"]⟩], [], [], ""⟩
    (by decide) rfl
  exact h.1

theorem pyListIdx_nat (r n : Nat) (h : r < n) : pyListIdx (r : Int) n = some r := by
  unfold pyListIdx
  rw [if_pos (by omega), if_pos (by omega)]
  simp

theorem cellAt_set_same (m : List (List String)) (r c : Nat) (v : String)
    (hr : r < m.length) (hc : c < (m.getD r []).length) :
    cellAt (m.set r ((m.getD r []).set c v)) r c = v := by
  unfold cellAt
  rw [List.getD_eq_getElem?_getD (m.set r ((m.getD r []).set c v)) r [],
    List.getElem?_set_self hr]
  show ((m.getD r []).set c v).getD c "" = v
  rw [List.getD_eq_getElem?_getD ((m.getD r []).set c v) c "", List.getElem?_set_self hc]
  rfl

theorem cellAt_set_other (m : List (List String)) (r c : Nat) (v : String) (i j : Nat)
    (hne : r ≠ i ∨ c ≠ j) :
    cellAt (m.set r ((m.getD r []).set c v)) i j = cellAt m i j := by
  unfold cellAt
  by_cases hri : r = i
  · subst hri
    have hcj : c ≠ j := hne.resolve_left (fun hx => hx rfl)
    by_cases hlt : r < m.length
    · rw [List.getD_eq_getElem?_getD (m.set r ((m.getD r []).set c v)) r [],
        List.getElem?_set_self hlt]
      show ((m.getD r []).set c v).getD j "" = (m.getD r []).getD j ""
      rw [List.getD_eq_getElem?_getD ((m.getD r []).set c v) j "",
        List.getElem?_set_ne hcj, ← List.getD_eq_getElem?_getD]
    · have h1 : (m.set r ((m.getD r []).set c v))[r]? = none :=
        List.getElem?_eq_none (by rw [List.length_set]; omega)
      have h2 : m[r]? = none := List.getElem?_eq_none (by omega)
      rw [List.getD_eq_getElem?_getD (m.set r ((m.getD r []).set c v)) r [], h1,
        List.getD_eq_getElem?_getD m r [], h2]
  · rw [List.getD_eq_getElem?_getD (m.set r ((m.getD r []).set c v)) i [],
      List.getElem?_set_ne hri, ← List.getD_eq_getElem?_getD]

theorem stepCellUpdate_valid (m : List (List String)) (u : CellUpdate) (r c : Nat)
    (hr : u.row_index = some (r : Int)) (hc : u.col_index = some (c : Int))
    (hr0 : 0 < r) (hrlt : r < m.length) (hc0 : 0 < c) (hclt : c < (m.getD r []).length) :
    stepCellUpdate m u = some (m.set r ((m.getD r []).set c u.value)) := by
  unfold stepCellUpdate
  rw [hr, hc]
  dsimp only
  rw [if_pos ⟨by omega, by omega, by omega⟩, pyListIdx_nat r m.length hrlt]
  dsimp only
  rw [pyListIdx_nat c (m.getD r []).length hclt]

theorem applyCellUpdates_spec (us : List CellUpdate) :
    ∀ (m m₂ : List (List String)),
      (∀ u ∈ us, ∃ r c : Nat, u.row_index = some (r : Int) ∧ u.col_index = some (c : Int)
          ∧ 0 < r ∧ r < m.length ∧ 0 < c ∧ c < (m.getD r []).length) →
      (us.map (fun u => (u.row_index, u.col_index))).Nodup →
      applyCellUpdates us m = some m₂ →
      m₂.length = m.length
        ∧ (∀ i, (m₂.getD i []).length = (m.getD i []).length)
        ∧ (∀ u ∈ us, ∀ r c : Nat, u.row_index = some (r : Int) →
            u.col_index = some (c : Int) → cellAt m₂ r c = u.value)
        ∧ (∀ i j : Nat,
            (∀ u ∈ us, ¬(u.row_index = some (i : Int) ∧ u.col_index = some (j : Int))) →
            cellAt m₂ i j = cellAt m i j) := by
  induction us with
  | nil =>
    intro m m₂ _ _ h
    cases h
    exact ⟨rfl, fun i => rfl, fun u hu => absurd hu (List.not_mem_nil u), fun i j _ => rfl⟩
  | cons u us ih =>
    intro m m₂ hval hnd h
    rcases hval u (List.mem_cons_self u us) with ⟨r, c, hr, hc, hr0, hrlt, hc0, hclt⟩
    rw [List.map_cons, List.nodup_cons] at hnd
    unfold applyCellUpdates at h
    rw [stepCellUpdate_valid m u r c hr hc hr0 hrlt hc0 hclt, Option.some_bind] at h
    have hprofL : (m.set r ((m.getD r []).set c u.value)).length = m.length :=
      List.length_set m r _
    have hprofR : ∀ i, ((m.set r ((m.getD r []).set c u.value)).getD i []).length
        = (m.getD i []).length := by
      intro i
      by_cases hi : r = i
      · subst hi
        rw [List.getD_eq_getElem?_getD (m.set r ((m.getD r []).set c u.value)) r [],
          List.getElem?_set_self hrlt]
        show ((m.getD r []).set c u.value).length = (m.getD r []).length
        exact List.length_set _ c _
      · rw [List.getD_eq_getElem?_getD (m.set r ((m.getD r []).set c u.value)) i [],
          List.getElem?_set_ne hi, ← List.getD_eq_getElem?_getD]
    have hval2 : ∀ w ∈ us, ∃ r' c' : Nat, w.row_index = some (r' : Int)
        ∧ w.col_index = some (c' : Int) ∧ 0 < r'
        ∧ r' < (m.set r ((m.getD r []).set c u.value)).length ∧ 0 < c'
        ∧ c' < ((m.set r ((m.getD r []).set c u.value)).getD r' []).length := by
      intro w hw
      rcases hval w (List.mem_cons_of_mem u hw) with ⟨r', c', h1, h2, h3, h4, h5, h6⟩
      refine ⟨r', c', h1, h2, h3, ?_, h5, ?_⟩
      · rw [hprofL]; exact h4
      · rw [hprofR r']; exact h6
    have hres := ih _ _ hval2 hnd.2 h
    refine ⟨hres.1.trans hprofL, fun i => (hres.2.1 i).trans (hprofR i), ?_, ?_⟩
    · intro w hw r' c' hr' hc'
      rcases List.mem_cons.mp hw with heq | hwmem
      · rw [heq] at hr' hc'
        have hreq : r = r' := by
          have hx := Option.some.inj (hr.symm.trans hr')
          omega
        have hceq : c = c' := by
          have hx := Option.some.inj (hc.symm.trans hc')
          omega
        rw [heq, ← hreq, ← hceq]
        have huntarget : ∀ w ∈ us,
            ¬(w.row_index = some (r : Int) ∧ w.col_index = some (c : Int)) := by
          intro w hwm hpair
          apply hnd.1
          have hpw : (fun u : CellUpdate => (u.row_index, u.col_index)) w
              = (some (r : Int), some (c : Int)) := by
            show (w.row_index, w.col_index) = _
            rw [hpair.1, hpair.2]
          have : (some (r : Int), some (c : Int)) ∈
              us.map (fun u => (u.row_index, u.col_index)) := by
            rw [← hpw]
            exact List.mem_map_of_mem _ hwm
          rw [hr, hc]
          exact this
        have hframe := hres.2.2.2 r c huntarget
        rw [hframe]
        exact cellAt_set_same m r c u.value hrlt hclt
      · exact hres.2.2.1 w hwmem r' c' hr' hc'
    · intro i j hfree
      have h1 := hres.2.2.2 i j (fun w hw => hfree w (List.mem_cons_of_mem u hw))
      rw [h1]
      apply cellAt_set_other
      by_contra hcon
      push_neg at hcon
      apply hfree u (List.mem_cons_self u us)
      constructor
      · rw [hr, hcon.1]
      · rw [hc, hcon.2]

/-- C1 counterexample: a cell update with both indices present
(`row_index = 1`, `col_index = 0`) and the row index within bounds is NOT
applied — Python truthiness treats the present index `0` as absent, so the
merge returns the state unchanged instead of overwriting cell (1,0). -/
theorem c1_counterexample :
    apply_modifications "matrix_cells" ⟨none, none, some [⟨some 1, some 0, "X"⟩], none⟩
        ⟨[], [], [["a", "b"], ["c", "d"]], ""⟩
      = some ⟨[], [], [["a", "b"], ["c", "d"]], ""⟩
    ∧ apply_modifications "matrix_cells" ⟨none, none, some [⟨some 1, some 0, "X"⟩], none⟩
        ⟨[], [], [["a", "b"], ["c", "d"]], ""⟩
      ≠ some ⟨[], [], [["a", "b"], ["X", "d"]], ""⟩ := by
  constructor
  · rfl
  · decide

/-- C1 (amended): for every matrix-cells merge whose cell updates all carry
both indices present, NON-ZERO and in bounds (`0 < row < row count`,
`0 < col < that row's width`), with pairwise-distinct targets: the merge
completes, overwrites exactly the targeted cells with their values, leaves
every untargeted cell and the matrix shape unchanged, and leaves every other
component of the state unchanged.  (Updates with an index equal to 0 or
absent are skipped by the truthiness guard; an out-of-range guarded index
aborts the merge with an exception instead.) -/
theorem c1_matrix_cells_merge (us : List CellUpdate) (dp : Option (List DeltaPersona))
    (da : Option (List Axis)) (dd : Option String) (st st₂ : CanonState)
    (hval : ∀ u ∈ us, ∃ r c : Nat, u.row_index = some (r : Int)
        ∧ u.col_index = some (c : Int) ∧ 0 < r ∧ r < st.matrix.length ∧ 0 < c
        ∧ c < (st.matrix.getD r []).length)
    (hnd : (us.map (fun u => (u.row_index, u.col_index))).Nodup)
    (h : apply_modifications "matrix_cells" ⟨dp, da, some us, dd⟩ st = some st₂) :
    st₂.personas = st.personas ∧ st₂.axes = st.axes
      ∧ st₂.discussion_points = st.discussion_points
      ∧ st₂.matrix.length = st.matrix.length
      ∧ (∀ i, (st₂.matrix.getD i []).length = (st.matrix.getD i []).length)
      ∧ (∀ u ∈ us, ∀ r c : Nat, u.row_index = some (r : Int) →
          u.col_index = some (c : Int) → cellAt st₂.matrix r c = u.value)
      ∧ (∀ i j : Nat,
          (∀ u ∈ us, ¬(u.row_index = some (i : Int) ∧ u.col_index = some (j : Int))) →
          cellAt st₂.matrix i j = cellAt st.matrix i j) := by
  unfold apply_modifications at h
  rw [if_neg (by decide), if_neg (by decide), if_pos rfl] at h
  rcases Option.map_eq_some'.mp h with ⟨m₂, hcu, hst⟩
  have hspec := applyCellUpdates_spec us st.matrix m₂ hval hnd (by simpa using hcu)
  subst hst
  exact ⟨rfl, rfl, rfl, hspec.1, hspec.2.1, hspec.2.2.1, hspec.2.2.2⟩

/-- C1 witness: one valid update at (1,1) overwrites exactly that cell. -/
theorem c1_witness : cellAt [["h", "hh"], ["a", "Z"]] 1 1 = "Z" := by
  have h := c1_matrix_cells_merge [⟨some 1, some 1, "Z"⟩] none none none
    ⟨[], [], [["h", "hh"], ["a", "b"]], ""⟩ ⟨[], [], [["h", "hh"], ["a", "Z"]], ""⟩
    (by
      intro u hu
      rw [List.mem_singleton] at hu
      subst hu
      exact ⟨1, 1, rfl, rfl, by decide, by decide, by decide, by decide⟩)
    (by decide) rfl
  exact h.2.2.2.2.2.1 ⟨some 1, some 1, "Z"⟩ (List.mem_singleton.mpr rfl) 1 1 rfl rfl

/-- C6 witness: at a concrete matrix whose (1,1) cell is changed by resync,
the characterization applies: the changed data-row cell is in the companies
column and receives the joined companies of the named persona. -/
theorem c6_witness :
    1 ≤ 1
      ∧ (sync_matrix_companies_with_personas
          [["ペルソナID/年齢", "在籍企業イメージ"], ["P1/25-29", "old"]]
          [⟨"P1", "i", "j", ["a", "b", "c"]⟩]).length = 2 := by
  have h := c6_sync_frame
    [["ペルソナID/年齢", "在籍企業イメージ"], ["P1/25-29", "old"]]
    [⟨"P1", "i", "j", ["a", "b", "c"]⟩]
  refine ⟨(h.2.2.2 1 1 (by decide)).1, ?_⟩
  rw [h.1]
  rfl

/-- C4 counterexample: the parser does NOT return the same record for every
JSON document across the claimed wrappings: the array document `[1]` parses
on its own, but preceded by prose every fallback fails (the last-resort scan
only looks for an opening brace), so `_parse_json` raises. -/
theorem c4_counterexample :
    parse_json "[1]" = some (Json.arr (JsonList.cons (Json.num (['1'])) JsonList.nil))
      ∧ parse_json "note: [1]" = none := by
  constructor
  · decide
  · decide

theorem jSkipWs_cons_pos {c : Char} (l : List Char) (h : isJWs c = true) :
    jSkipWs (c :: l) = jSkipWs l := by
  simp [jSkipWs, List.dropWhile, h]

theorem jSkipWs_cons_neg {c : Char} (l : List Char) (h : isJWs c = false) :
    jSkipWs (c :: l) = c :: l := by
  simp [jSkipWs, List.dropWhile, h]

theorem jSkipWs_append_cons (l t : List Char) (c : Char) (r : List Char)
    (h : jSkipWs l = c :: r) : jSkipWs (l ++ t) = c :: (r ++ t) := by
  induction l with
  | nil => simp [jSkipWs] at h
  | cons a l ih =>
    cases ha : isJWs a with
    | true =>
      rw [jSkipWs_cons_pos l ha] at h
      rw [List.cons_append, jSkipWs_cons_pos (l ++ t) ha]
      exact ih h
    | false =>
      rw [jSkipWs_cons_neg l ha] at h
      cases h
      rw [List.cons_append, jSkipWs_cons_neg (r ++ t) ha]

theorem jSkipWs_append_nil (l t : List Char) (h : jSkipWs l = []) :
    jSkipWs (l ++ t) = jSkipWs t := by
  induction l with
  | nil => simp
  | cons a l ih =>
    cases ha : isJWs a with
    | true =>
      rw [jSkipWs_cons_pos l ha] at h
      rw [List.cons_append, jSkipWs_cons_pos (l ++ t) ha]
      exact ih h
    | false =>
      rw [jSkipWs_cons_neg l ha] at h
      cases h

theorem jSkipWs_split (l : List Char) :
    ∃ w, l = w ++ jSkipWs l ∧ ∀ c ∈ w, isJWs c = true := by
  induction l with
  | nil => exact ⟨[], rfl, by simp⟩
  | cons a l ih =>
    cases ha : isJWs a with
    | true =>
      rcases ih with ⟨w, hw, hws⟩
      refine ⟨a :: w, ?_, ?_⟩
      · rw [jSkipWs_cons_pos l ha, List.cons_append, ← hw]
      · intro c hc
        rcases List.mem_cons.mp hc with rfl | hc
        · exact ha
        · exact hws c hc
    | false =>
      exact ⟨[], by rw [jSkipWs_cons_neg l ha]; rfl, by simp⟩

theorem jSkipWs_head_not_ws (l : List Char) (c : Char) (r : List Char)
    (h : jSkipWs l = c :: r) : isJWs c = false := by
  induction l with
  | nil => simp [jSkipWs] at h
  | cons a l ih =>
    cases ha : isJWs a with
    | true =>
      rw [jSkipWs_cons_pos l ha] at h
      exact ih h
    | false =>
      rw [jSkipWs_cons_neg l ha] at h
      cases h
      exact ha

theorem isPrefixOf_append_true (p l t : List Char) (h : p.isPrefixOf l = true) :
    p.isPrefixOf (l ++ t) = true := by
  rw [List.isPrefixOf_iff_prefix] at h ⊢
  exact h.trans (l.prefix_append t)

theorem prefix_extract (p l : List Char) (h : p.isPrefixOf l = true) :
    l = p ++ l.drop p.length := by
  rw [List.isPrefixOf_iff_prefix] at h
  rcases h with ⟨t, rfl⟩
  rw [List.drop_left]

theorem drop_append_of_long (l t : List Char) (n : Nat) (h : n ≤ l.length) :
    (l ++ t).drop n = l.drop n ++ t :=
  List.drop_append_of_le_length h


/-- `py_scanstring` never succeeds on an exhausted input. -/
theorem scanString_nil (fuel : Nat) (acc : List Nat) : scanString fuel [] acc = none := by
  cases fuel <;> simp [scanString]

/-- A one-character success of `py_scanstring` is exactly the closing quote. -/
theorem scanString_one (fuel : Nat) (e : Char) (acc : List Nat) (x : List Nat × List Char)
    (h : scanString fuel [e] acc = some x) : e = qt := by
  cases fuel with
  | zero => simp [scanString] at h
  | succ f =>
    by_cases hq : e = qt
    · exact hq
    · exfalso
      simp [scanString, hq, scanString_nil] at h

set_option maxHeartbeats 2000000 in
/-- Fuel monotonicity of `py_scanstring`: success is stable under more fuel. -/
theorem scanString_mono (fuel : Nat) (l : List Char) (acc : List Nat)
    (x : List Nat × List Char) (h : scanString fuel l acc = some x) :
    scanString (fuel + 1) l acc = some x := by
  induction fuel, l, acc using scanString.induct generalizing x
  all_goals simp_all [scanString]
  all_goals try (rw [if_neg (by first | omega | tauto)] at h ⊢)
  all_goals try (obtain ⟨a, b⟩ := x; solve_by_elim)

/-- Fuel monotonicity of `py_scanstring`, `≤` form. -/
theorem scanString_mono_le (fuel fuel2 : Nat) (l : List Char) (acc : List Nat)
    (x : List Nat × List Char) (hle : fuel ≤ fuel2) (h : scanString fuel l acc = some x) :
    scanString fuel2 l acc = some x := by
  induction hle with
  | refl => exact h
  | step _ ih => exact scanString_mono _ _ _ _ ih

set_option maxHeartbeats 2000000 in
/-- Appending text after a successfully scanned string does not change the
scanned content: the scan stopped at the closing quote. -/
theorem scanString_ext (fuel : Nat) (l : List Char) (acc : List Nat)
    (codes : List Nat) (rest : List Char) (t : List Char)
    (h : scanString fuel l acc = some (codes, rest)) :
    scanString fuel (l ++ t) acc = some (codes, rest ++ t) := by
  induction fuel, l, acc using scanString.induct generalizing codes rest
  all_goals simp_all [scanString]
  all_goals try (rw [if_neg (by first | omega | tauto)] at h ⊢)
  all_goals try solve_by_elim
  case case10 fuel acc a b c2 d c hx hr e1 e2 tail hno4 hnb hnq ih =>
    rcases htt : tail ++ t with _ | ⟨g1, _ | ⟨g2, _ | ⟨g3, _ | ⟨g4, gr⟩⟩⟩⟩ <;>
      dsimp only <;> first | rfl | rw [if_neg (by tauto)]
  case case11 fuel acc a b c2 d rest2 c hx hr hno2 hnq ih =>
    rcases rest2 with _ | ⟨e1, _ | ⟨e2, tl⟩⟩
    · rw [scanString_nil] at h; cases h
    · have he : e1 = qt := scanString_one _ _ _ _ h
      subst he
      rcases t with _ | ⟨u1, _ | ⟨u2, _ | ⟨u3, _ | ⟨u4, _ | ⟨u5, ur⟩⟩⟩⟩⟩ <;>
        dsimp only [List.cons_append, List.nil_append] <;>
        first
          | rfl
          | rw [if_neg (fun hc => absurd hc.1 (by decide))]
    · exact absurd rfl (hno2 e1 e2 tl)
  case case13 fuel acc e rest2 code hno hesc hnq ih =>
    have hu : e ≠ 'u' := by
      rintro rfl
      rw [show escCode 'u' = none by decide] at hesc
      cases hesc
    split
    · rename_i a b c2 d r heq
      injection heq with h1 h2
      exact absurd h1 hu
    · rename_i e2 r2 heq
      injection heq with h1 h2
      subst h1; subst h2
      rw [hesc]
      exact ih
    · rename_i heq; cases heq



theorem takeDigitsJ_eq (l ds m : List Char) (h : takeDigitsJ l = (ds, m)) :
    l = ds ++ m ∧ ∀ c ∈ ds, c.isDigit := by
  induction l generalizing ds m with
  | nil => simp [takeDigitsJ] at h; simp [h.1, h.2]
  | cons c r ih =>
    by_cases hd : c.isDigit
    · rcases hr : takeDigitsJ r with ⟨ds2, m2⟩
      obtain ⟨he, hall⟩ := ih ds2 m2 hr
      simp [takeDigitsJ, hd, hr] at h
      rcases h with ⟨h1, h2⟩
      subst h1; subst h2
      constructor
      · simp [← he]
      · intro x hx
        rcases List.mem_cons.mp hx with rfl | hx2
        · exact hd
        · exact hall x hx2
    · simp [takeDigitsJ, hd] at h
      rcases h with ⟨h1, h2⟩
      subst h1; subst h2
      simp

theorem takeDigitsJ_stop (l ds : List Char) (c : Char) (r : List Char)
    (h : takeDigitsJ l = (ds, c :: r)) : ¬c.isDigit := by
  induction l generalizing ds with
  | nil => simp [takeDigitsJ] at h
  | cons c0 r0 ih =>
    by_cases hd : c0.isDigit
    · rcases hr : takeDigitsJ r0 with ⟨ds2, m2⟩
      simp [takeDigitsJ, hd, hr] at h
      rcases h with ⟨h1, h2⟩
      exact ih ds2 (by rw [hr, h2])
    · simp [takeDigitsJ, hd] at h
      rcases h with ⟨h1, h2⟩
      rcases h2 with ⟨rfl, rfl⟩
      exact hd

theorem takeDigitsJ_ext (l ds : List Char) (c : Char) (r t : List Char)
    (h : takeDigitsJ l = (ds, c :: r)) :
    takeDigitsJ (l ++ t) = (ds, c :: (r ++ t)) := by
  induction l generalizing ds with
  | nil => simp [takeDigitsJ] at h
  | cons c0 r0 ih =>
    by_cases hd : c0.isDigit
    · rcases hr : takeDigitsJ r0 with ⟨ds2, m2⟩
      simp [takeDigitsJ, hd, hr] at h
      rcases h with ⟨h1, h2⟩
      subst h1
      have := ih ds2 (by rw [hr, h2])
      simp [takeDigitsJ, hd, this]
    · simp [takeDigitsJ, hd] at h
      rcases h with ⟨h1, h2⟩
      rcases h2 with ⟨rfl, rfl⟩
      subst h1
      simp [takeDigitsJ, hd]

theorem scanIntPart_eq (l ip m : List Char) (h : scanIntPart l = some (ip, m)) :
    l = ip ++ m ∧ ip ≠ [] ∧ ∀ c ∈ ip, c.isDigit := by
  rcases l with _ | ⟨c, r⟩
  · simp [scanIntPart] at h
  · by_cases h0 : c = '0'
    · simp [scanIntPart, h0] at h
      rcases h with ⟨rfl, rfl⟩
      simp [h0]
    · by_cases hd : c.isDigit
      · rcases hr : takeDigitsJ r with ⟨ds2, m2⟩
        obtain ⟨he, hall⟩ := takeDigitsJ_eq r ds2 m2 hr
        simp [scanIntPart, h0, hd, hr] at h
        rcases h with ⟨rfl, rfl⟩
        refine ⟨by simp [← he], by simp, ?_⟩
        intro x hx
        rcases List.mem_cons.mp hx with rfl | hx2
        · exact hd
        · exact hall x hx2
      · simp [scanIntPart, h0, hd] at h

theorem scanIntPart_ext (l ip : List Char) (c : Char) (r t : List Char)
    (h : scanIntPart l = some (ip, c :: r)) :
    scanIntPart (l ++ t) = some (ip, c :: (r ++ t)) := by
  rcases l with _ | ⟨c0, r0⟩
  · simp [scanIntPart] at h
  · by_cases h0 : c0 = '0'
    · simp [scanIntPart, h0] at h ⊢
      rcases h with ⟨rfl, rfl⟩
      simp
    · by_cases hd : c0.isDigit
      · rcases hr : takeDigitsJ r0 with ⟨ds2, m2⟩
        simp [scanIntPart, h0, hd, hr] at h
        rcases h with ⟨rfl, h2⟩
        have := takeDigitsJ_ext r0 ds2 c r t (by rw [hr, h2])
        simp [scanIntPart, h0, hd, this]
      · simp [scanIntPart, h0, hd] at h

theorem scanFrac_eq (l fp m : List Char) (h : scanFrac l = (fp, m)) : l = fp ++ m := by
  unfold scanFrac at h
  split at h
  · rename_i r
    split at h
    · cases h
      simp
    · cases h
      obtain ⟨he, -⟩ := takeDigitsJ_eq r _ _ (by assumption)
      simp [he]
  · cases h
    simp

theorem scanFrac_not_dot (c : Char) (l : List Char) (hc : c ≠ '.') :
    scanFrac (c :: l) = ([], c :: l) := by
  unfold scanFrac
  split
  · rename_i r heq
    injection heq with h1 h2
    exact absurd h1 hc
  · rfl

theorem scanExp_eq (l ep m : List Char) (h : scanExp l = (ep, m)) : l = ep ++ m := by
  rcases l with _ | ⟨c, r⟩
  · simp [scanExp] at h
    simp [h.1, h.2]
  · by_cases he : c = 'e' ∨ c = 'E'
    · simp only [scanExp, if_pos he] at h
      rcases r with _ | ⟨s, r2⟩
      · cases h
        simp
      · by_cases hs : s = '+' ∨ s = '-'
        · simp only [if_pos hs] at h
          rcases hr : takeDigitsJ r2 with ⟨ds, r3⟩
          rw [hr] at h
          obtain ⟨hde, -⟩ := takeDigitsJ_eq r2 ds r3 hr
          rcases ds with _ | ⟨d0, ds2⟩
          · cases h
            simp
          · cases h
            simp [hde]
        · simp only [if_neg hs] at h
          rcases hr : takeDigitsJ (s :: r2) with ⟨ds, r3⟩
          rw [hr] at h
          obtain ⟨hde, -⟩ := takeDigitsJ_eq (s :: r2) ds r3 hr
          rcases ds with _ | ⟨d0, ds2⟩
          · cases h
            simp
          · cases h
            simp [hde]
    · simp only [scanExp, if_neg he] at h
      cases h
      simp

theorem scanExp_not_e (c : Char) (l : List Char) (hc : ¬(c = 'e' ∨ c = 'E')) :
    scanExp (c :: l) = ([], c :: l) := by
  simp [scanExp, hc]

theorem scanExp_ext (r3 ep : List Char) (c : Char) (r t : List Char)
    (hx : scanExp r3 = (ep, c :: r))
    (hd : ¬c.isDigit) (heE : ¬(c = 'e' ∨ c = 'E')) :
    scanExp (r3 ++ t) = (ep, c :: (r ++ t)) := by
  rcases r3 with _ | ⟨ce, rr⟩
  · simp [scanExp] at hx
  · by_cases he : ce = 'e' ∨ ce = 'E'
    · simp only [scanExp, if_pos he] at hx
      rcases rr with _ | ⟨s, rr2⟩
      · injection hx with h1 h2
        injection h2 with h3 h4
        subst h3
        exact absurd he heE
      · by_cases hs : s = '+' ∨ s = '-'
        · simp only [if_pos hs] at hx
          rcases hr : takeDigitsJ rr2 with ⟨ds, m⟩
          rw [hr] at hx
          rcases ds with _ | ⟨d0, ds2⟩
          · injection hx with h1 h2
            injection h2 with h3 h4
            subst h3
            exact absurd he heE
          · injection hx with h1 h2
            have hext := takeDigitsJ_ext rr2 (d0 :: ds2) c r t (by rw [hr, h2])
            simp only [List.cons_append, scanExp, if_pos he, if_pos hs, hext]
            rw [← h1]
        · simp only [if_neg hs] at hx
          rcases hr : takeDigitsJ (s :: rr2) with ⟨ds, m⟩
          rw [hr] at hx
          rcases ds with _ | ⟨d0, ds2⟩
          · injection hx with h1 h2
            injection h2 with h3 h4
            subst h3
            exact absurd he heE
          · injection hx with h1 h2
            have hext := takeDigitsJ_ext (s :: rr2) (d0 :: ds2) c r t (by rw [hr, h2])
            simp only [List.cons_append] at hext ⊢
            simp only [scanExp, if_pos he, if_neg hs, hext]
            rw [← h1]
    · have := scanExp_not_e ce rr he
      rw [this] at hx
      injection hx with h1 h2
      injection h2 with h3 h4
      subst h1; subst h3; subst h4
      simp only [List.cons_append]
      exact scanExp_not_e _ _ heE

theorem takeDigitsJ_nil_or_stop (l snd : List Char) (h : takeDigitsJ l = ([], snd)) :
    l = snd ∧ (l = [] ∨ ∃ d rr, l = d :: rr ∧ ¬d.isDigit) := by
  obtain ⟨he, -⟩ := takeDigitsJ_eq l [] snd h
  have hls : l = snd := by simpa using he
  subst hls
  refine ⟨rfl, ?_⟩
  rcases l with _ | ⟨d, rr⟩
  · exact Or.inl rfl
  · exact Or.inr ⟨d, rr, rfl, takeDigitsJ_stop (d :: rr) [] d rr h⟩

theorem scanFrac_dot_nil (l snd : List Char) (h : takeDigitsJ l = ([], snd)) :
    scanFrac ('.' :: l) = ([], '.' :: l) := by
  unfold scanFrac
  split
  · rename_i r2 heq
    injection heq with h0 hreq
    subst hreq
    rw [h]
  · rfl

theorem scanFrac_dot_cons (l ds m : List Char) (d : Char) (h : takeDigitsJ l = (d :: ds, m)) :
    scanFrac ('.' :: l) = ('.' :: d :: ds, m) := by
  unfold scanFrac
  split
  · rename_i r2 heq
    injection heq with h0 hreq
    subst hreq
    rw [h]
  · rename_i hne
    exact absurd rfl (hne l)

theorem scanFrac_ext (r2 fp r3 ep : List Char) (c : Char) (r t : List Char)
    (hf : scanFrac r2 = (fp, r3))
    (hx : scanExp r3 = (ep, c :: r))
    (hdot : c ≠ '.') :
    scanFrac (r2 ++ t) = (fp, r3 ++ t) := by
  rcases r2 with _ | ⟨c2, rr2⟩
  · simp [scanFrac] at hf
    rcases hf with ⟨rfl, rfl⟩
    simp [scanExp] at hx
  · by_cases hd2 : c2 = '.'
    · subst hd2
      rcases hr : takeDigitsJ rr2 with ⟨ds, m⟩
      rcases ds with _ | ⟨d0, ds2⟩
      · rw [scanFrac_dot_nil rr2 m hr] at hf
        injection hf with h1 h2
        subst h1
        subst h2
        obtain ⟨hsnd, hcase⟩ := takeDigitsJ_nil_or_stop rr2 m hr
        rcases hcase with rfl | ⟨d, rr3, rfl, hnd⟩
        · exfalso
          simp [scanExp, show ¬(('.' : Char) = 'e' ∨ ('.' : Char) = 'E') by decide] at hx
          exact hdot hx.2.1.symm
        · have hstep : takeDigitsJ ((d :: rr3) ++ t) = ([], d :: (rr3 ++ t)) := by
            simp [takeDigitsJ, hnd]
          simp only [List.cons_append] at hstep ⊢
          exact scanFrac_dot_nil _ _ hstep
      · rw [scanFrac_dot_cons rr2 ds2 m d0 hr] at hf
        injection hf with h1 h2
        subst h1
        subst h2
        have hr3 : m = ep ++ c :: r := scanExp_eq m ep (c :: r) hx
        rcases hm : m with _ | ⟨c3, rr3⟩
        · rw [hm] at hr3
          simp at hr3
        · have hext := takeDigitsJ_ext rr2 (d0 :: ds2) c3 rr3 t (by rw [hr, hm])
          simp only [List.cons_append] at hext ⊢
          exact scanFrac_dot_cons _ _ _ _ hext
    · rw [scanFrac_not_dot c2 rr2 hd2] at hf
      injection hf with h1 h2
      subst h1
      subst h2
      simp only [List.cons_append]
      exact scanFrac_not_dot c2 (rr2 ++ t) hd2

theorem scanNumber_cases (cs tok rem : List Char) (h : scanNumber cs = some (tok, rem)) :
    (∃ r ip r2 fp r3 ep, cs = '-' :: r ∧ scanIntPart r = some (ip, r2) ∧
      scanFrac r2 = (fp, r3) ∧ scanExp r3 = (ep, rem) ∧ tok = '-' :: (ip ++ fp ++ ep)) ∨
    ((∀ r, cs ≠ '-' :: r) ∧ ∃ ip r2 fp r3 ep, scanIntPart cs = some (ip, r2) ∧
      scanFrac r2 = (fp, r3) ∧ scanExp r3 = (ep, rem) ∧ tok = ip ++ fp ++ ep) := by
  unfold scanNumber at h
  split at h
  · rename_i r
    rcases hip : scanIntPart r with _ | ⟨ip, r2⟩
    · rw [hip] at h
      simp at h
    · rw [hip] at h
      dsimp only at h
      rcases hf : scanFrac r2 with ⟨fp, r3⟩
      rw [hf] at h
      dsimp only at h
      rcases hx : scanExp r3 with ⟨ep, r4⟩
      rw [hx] at h
      dsimp only at h
      simp only [Option.some.injEq, Prod.mk.injEq] at h
      exact Or.inl ⟨r, ip, r2, fp, r3, ep, rfl, hip, hf, by rw [hx, h.2], h.1.symm⟩
  · rename_i hne
    rcases hip : scanIntPart cs with _ | ⟨ip, r2⟩
    · rw [hip] at h
      simp at h
    · rw [hip] at h
      dsimp only at h
      rcases hf : scanFrac r2 with ⟨fp, r3⟩
      rw [hf] at h
      dsimp only at h
      rcases hx : scanExp r3 with ⟨ep, r4⟩
      rw [hx] at h
      dsimp only at h
      simp only [Option.some.injEq, Prod.mk.injEq] at h
      refine Or.inr ⟨fun r hr => hne r hr, ip, r2, fp, r3, ep, rfl, hf, by rw [hx, h.2], h.1.symm⟩

theorem scanNumber_neg_some (r ip r2 fp r3 ep r4 : List Char)
    (h1 : scanIntPart r = some (ip, r2)) (h2 : scanFrac r2 = (fp, r3))
    (h3 : scanExp r3 = (ep, r4)) :
    scanNumber ('-' :: r) = some ('-' :: (ip ++ fp ++ ep), r4) := by
  unfold scanNumber
  split
  · rename_i r_ heq
    injection heq with h0 hreq
    subst hreq
    rw [h1]
    dsimp only
    rw [h2]
    dsimp only
    rw [h3]
  · rename_i hne
    exact absurd rfl (hne r)

theorem scanNumber_pos_some (cs ip r2 fp r3 ep r4 : List Char)
    (hne : ∀ r, cs ≠ '-' :: r)
    (h1 : scanIntPart cs = some (ip, r2)) (h2 : scanFrac r2 = (fp, r3))
    (h3 : scanExp r3 = (ep, r4)) :
    scanNumber cs = some (ip ++ fp ++ ep, r4) := by
  unfold scanNumber
  split
  · rename_i r_
    exact absurd rfl (hne r_)
  · rw [h1]
    dsimp only
    rw [h2]
    dsimp only
    rw [h3]

theorem scanNumber_ext (cs tok : List Char) (c : Char) (r t : List Char)
    (h : scanNumber cs = some (tok, c :: r))
    (hd : ¬c.isDigit) (hdot : c ≠ '.') (heE : ¬(c = 'e' ∨ c = 'E')) :
    scanNumber (cs ++ t) = some (tok, c :: (r ++ t)) := by
  rcases scanNumber_cases cs tok (c :: r) h with
    ⟨r0, ip, r2, fp, r3, ep, rfl, hip, hf, hx, rfl⟩ |
    ⟨hne, ip, r2, fp, r3, ep, hip, hf, hx, rfl⟩
  · have hr3 : r3 = ep ++ c :: r := scanExp_eq r3 ep (c :: r) hx
    have hr2 : r2 = fp ++ r3 := scanFrac_eq r2 fp r3 hf
    rcases hshape : r2 with _ | ⟨c2, rr2⟩
    · rw [hshape, hr3] at hr2
      simp at hr2
    · have hipx := scanIntPart_ext r0 ip c2 rr2 t (by rw [hip, hshape])
      have hfx := scanFrac_ext r2 fp r3 ep c r t hf hx hdot
      have hxx := scanExp_ext r3 ep c r t hx hd heE
      rw [hshape] at hfx
      simp only [List.cons_append] at hipx hfx ⊢
      exact scanNumber_neg_some (r0 ++ t) ip (c2 :: (rr2 ++ t)) fp (r3 ++ t) ep
        (c :: (r ++ t)) hipx hfx hxx
  · have hr3 : r3 = ep ++ c :: r := scanExp_eq r3 ep (c :: r) hx
    have hr2 : r2 = fp ++ r3 := scanFrac_eq r2 fp r3 hf
    rcases hshape : r2 with _ | ⟨c2, rr2⟩
    · rw [hshape, hr3] at hr2
      simp at hr2
    · have hipx := scanIntPart_ext cs ip c2 rr2 t (by rw [hip, hshape])
      have hfx := scanFrac_ext r2 fp r3 ep c r t hf hx hdot
      have hxx := scanExp_ext r3 ep c r t hx hd heE
      rw [hshape] at hfx
      simp only [List.cons_append] at hfx
      have hne2 : ∀ r5, cs ++ t ≠ '-' :: r5 := by
        intro r5 hr5
        rcases cs with _ | ⟨c0, cs0⟩
        · obtain ⟨he0, hne0, -⟩ := scanIntPart_eq [] ip r2 hip
          simp [scanIntPart] at hip
        · injection hr5 with h5 h6
          exact hne cs0 (by rw [h5])
      exact scanNumber_pos_some (cs ++ t) ip (c2 :: (rr2 ++ t)) fp (r3 ++ t) ep
        (c :: (r ++ t)) hne2 hipx hfx hxx

theorem scanFrac_chars (l fp m : List Char) (h : scanFrac l = (fp, m)) :
    ∀ c ∈ fp, c.isDigit ∨ c = '.' := by
  unfold scanFrac at h
  split at h
  · rename_i r
    split at h
    · cases h
      simp
    · cases h
      rename_i heq
      obtain ⟨-, hall⟩ := takeDigitsJ_eq r _ _ heq
      intro c hc
      rcases List.mem_cons.mp hc with rfl | hc2
      · exact Or.inr rfl
      · exact Or.inl (hall c hc2)
  · cases h
    simp

theorem scanExp_chars (l ep m : List Char) (h : scanExp l = (ep, m)) :
    ∀ c ∈ ep, c.isDigit ∨ c = 'e' ∨ c = 'E' ∨ c = '+' ∨ c = '-' := by
  rcases l with _ | ⟨c0, r⟩
  · simp [scanExp] at h
    simp [h.1]
  · by_cases he : c0 = 'e' ∨ c0 = 'E'
    · simp only [scanExp, if_pos he] at h
      rcases r with _ | ⟨s, r2⟩
      · cases h
        simp
      · by_cases hs : s = '+' ∨ s = '-'
        · simp only [if_pos hs] at h
          rcases hr : takeDigitsJ r2 with ⟨ds, m2⟩
          rw [hr] at h
          obtain ⟨-, hall⟩ := takeDigitsJ_eq r2 ds m2 hr
          rcases ds with _ | ⟨d0, ds2⟩
          · cases h
            simp
          · cases h
            intro c hc
            rcases List.mem_cons.mp hc with rfl | hc2
            · tauto
            · rcases List.mem_cons.mp hc2 with rfl | hc3
              · tauto
              · exact Or.inl (hall c hc3)
        · simp only [if_neg hs] at h
          rcases hr : takeDigitsJ (s :: r2) with ⟨ds, m2⟩
          rw [hr] at h
          obtain ⟨-, hall⟩ := takeDigitsJ_eq (s :: r2) ds m2 hr
          rcases ds with _ | ⟨d0, ds2⟩
          · cases h
            simp
          · cases h
            intro c hc
            rcases List.mem_cons.mp hc with rfl | hc2
            · tauto
            · exact Or.inl (hall c hc2)
    · simp only [scanExp, if_neg he] at h
      cases h
      simp

theorem scanNumber_eq (cs tok rem : List Char) (h : scanNumber cs = some (tok, rem)) :
    cs = tok ++ rem ∧
      ∀ c ∈ tok, c.isDigit ∨ c = '-' ∨ c = '.' ∨ c = 'e' ∨ c = 'E' ∨ c = '+' := by
  rcases scanNumber_cases cs tok rem h with
    ⟨r0, ip, r2, fp, r3, ep, rfl, hip, hf, hx, rfl⟩ |
    ⟨hne, ip, r2, fp, r3, ep, hip, hf, hx, rfl⟩
  · obtain ⟨he1, -, hall1⟩ := scanIntPart_eq r0 ip r2 hip
    have he2 := scanFrac_eq r2 fp r3 hf
    have he3 := scanExp_eq r3 ep rem hx
    have hall2 := scanFrac_chars r2 fp r3 hf
    have hall3 := scanExp_chars r3 ep rem hx
    constructor
    · simp [he1, he2, he3]
    · intro c hc
      rcases List.mem_cons.mp hc with rfl | hc2
      · tauto
      · rcases List.mem_append.mp hc2 with hc3 | hc4
        · rcases List.mem_append.mp hc3 with hc5 | hc6
          · exact Or.inl (hall1 c hc5)
          · rcases hall2 c hc6 with hd | rfl <;> tauto
        · rcases hall3 c hc4 with hd | hrest <;> tauto
  · obtain ⟨he1, -, hall1⟩ := scanIntPart_eq cs ip r2 hip
    have he2 := scanFrac_eq r2 fp r3 hf
    have he3 := scanExp_eq r3 ep rem hx
    have hall2 := scanFrac_chars r2 fp r3 hf
    have hall3 := scanExp_chars r3 ep rem hx
    constructor
    · simp [he1, he2, he3]
    · intro c hc
      rcases List.mem_append.mp hc with hc3 | hc4
      · rcases List.mem_append.mp hc3 with hc5 | hc6
        · exact Or.inl (hall1 c hc5)
        · rcases hall2 c hc6 with hd | rfl <;> tauto
      · rcases hall3 c hc4 with hd | hrest <;> tauto

theorem scanNumber_none_head (c : Char) (r : List Char)
    (hm : c ≠ '-') (h0 : c ≠ '0') (hd : ¬c.isDigit) : scanNumber (c :: r) = none := by
  unfold scanNumber
  split
  · rename_i r_ heq
    injection heq with h1 h2
    exact absurd h1 hm
  · simp [scanIntPart, h0, hd]

theorem scanNumber_neg_none (r : List Char) (h : scanIntPart r = none) :
    scanNumber ('-' :: r) = none := by
  unfold scanNumber
  split
  · rename_i r_ heq
    injection heq with h1 h2
    subst h2
    rw [h]
  · rename_i hne
    exact absurd rfl (hne r)

theorem isPrefixOf_head_ne (a b : Char) (as bs : List Char) (h : a ≠ b) :
    (a :: as).isPrefixOf (b :: bs) = false := by
  simp [List.isPrefixOf, h]


set_option maxHeartbeats 4000000 in
/-- Fuel monotonicity of the three mutually recursive CPython scanner
functions: a successful parse is stable when the nesting budget grows. -/
theorem jscan_mono (fuel : Nat) :
    (∀ cs x, jValue fuel cs = some x → jValue (fuel + 1) cs = some x) ∧
    (∀ cs x, jMembers fuel cs = some x → jMembers (fuel + 1) cs = some x) ∧
    (∀ cs x, jItems fuel cs = some x → jItems (fuel + 1) cs = some x) := by
  induction fuel with
  | zero =>
    refine ⟨?_, ?_, ?_⟩ <;> intro cs x h <;> simp [jValue, jMembers, jItems] at h
  | succ f ih =>
    obtain ⟨ihv, ihm, ihi⟩ := ih
    refine ⟨?_, ?_, ?_⟩ <;> intro cs x h
    · rw [jValue.eq_def] at h ⊢
      dsimp only at h ⊢
      iterate 10 (all_goals (try split at h))
      iterate 3 (
          all_goals (try simp_all)
          all_goals (try (rw [ihv _ _ _ (by assumption)]))
          all_goals (try (rw [ihm _ _ _ (by assumption)]))
          all_goals (try (rw [ihi _ _ _ (by assumption)])))
      all_goals simp_all
    · rw [jMembers.eq_def] at h ⊢
      dsimp only at h ⊢
      iterate 10 (all_goals (try split at h))
      iterate 3 (
          all_goals (try simp_all)
          all_goals (try (rw [ihv _ _ _ (by assumption)]))
          all_goals (try (rw [ihm _ _ _ (by assumption)]))
          all_goals (try (rw [ihi _ _ _ (by assumption)])))
      all_goals simp_all
    · rw [jItems.eq_def] at h ⊢
      dsimp only at h ⊢
      iterate 10 (all_goals (try split at h))
      iterate 3 (
          all_goals (try simp_all)
          all_goals (try (rw [ihv _ _ _ (by assumption)]))
          all_goals (try (rw [ihm _ _ _ (by assumption)]))
          all_goals (try (rw [ihi _ _ _ (by assumption)])))
      all_goals simp_all

/-- Fuel monotonicity of `_scan_once`, `≤` form. -/
theorem jValue_mono_le (f f2 : Nat) (cs : List Char) (x : Json × List Char)
    (hle : f ≤ f2) (h : jValue f cs = some x) : jValue f2 cs = some x := by
  induction hle with
  | refl => exact h
  | step _ ih => exact (jscan_mono _).1 _ _ ih



theorem isDigit_facts (c : Char) (h : c.isDigit = true) :
    c ≠ qt ∧ c ≠ lbr ∧ c ≠ '[' ∧ c ≠ 'n' ∧ c ≠ 't' ∧ c ≠ 'f' ∧ c ≠ 'N' ∧ c ≠ 'I' ∧ c ≠ '-' := by
  refine ⟨?_, ?_, ?_, ?_, ?_, ?_, ?_, ?_, ?_⟩ <;> (rintro rfl; revert h; decide)

theorem jValue_build_str (f : Nat) (r : List Char) (s : List Nat) (r2 : List Char)
    (h : scanString (r.length + 1) r [] = some (s, r2)) :
    jValue (f + 1) (qt :: r) = some (.str s, r2) := by
  rw [jValue.eq_def]
  dsimp only
  rw [if_pos rfl, h]

theorem jValue_build_obj_empty (f : Nat) (r r1 : List Char)
    (h : jSkipWs r = rbr :: r1) :
    jValue (f + 1) (lbr :: r) = some (.obj .nil, r1) := by
  rw [jValue.eq_def]
  dsimp only
  rw [if_neg (by decide), if_pos rfl, h]
  dsimp only
  rw [if_pos rfl]

theorem jValue_build_obj (f : Nat) (r : List Char) (c1 : Char) (r1 : List Char)
    (fs : JsonFields) (r3 : List Char)
    (hws : jSkipWs r = c1 :: r1) (hc1 : c1 ≠ rbr)
    (hm : jMembers f (c1 :: r1) = some (fs, rbr :: r3)) :
    jValue (f + 1) (lbr :: r) = some (.obj fs, r3) := by
  rw [jValue.eq_def]
  dsimp only
  rw [if_neg (by decide), if_pos rfl, hws]
  dsimp only
  rw [if_neg hc1, hm]
  dsimp only
  rw [if_pos rfl]

theorem jValue_build_arr_empty (f : Nat) (r r1 : List Char)
    (h : jSkipWs r = ']' :: r1) :
    jValue (f + 1) ('[' :: r) = some (.arr .nil, r1) := by
  rw [jValue.eq_def]
  dsimp only
  rw [if_neg (by decide), if_neg (by decide), if_pos rfl, h]
  dsimp only
  rw [if_pos rfl]

theorem jValue_build_arr (f : Nat) (r : List Char) (c1 : Char) (r1 : List Char)
    (vs : JsonList) (r3 : List Char)
    (hws : jSkipWs r = c1 :: r1) (hc1 : c1 ≠ ']')
    (hi : jItems f (c1 :: r1) = some (vs, ']' :: r3)) :
    jValue (f + 1) ('[' :: r) = some (.arr vs, r3) := by
  rw [jValue.eq_def]
  dsimp only
  rw [if_neg (by decide), if_neg (by decide), if_pos rfl, hws]
  dsimp only
  rw [if_neg hc1, hi]
  dsimp only
  rw [if_pos rfl]

theorem jValue_build_null (f : Nat) (rest : List Char) :
    jValue (f + 1) (nullTok ++ rest) = some (.null, rest) := by
  have hp : nullTok.isPrefixOf (nullTok ++ rest) = true :=
    isPrefixOf_append_true _ _ _ (by decide)
  rw [show nullTok ++ rest = 'n' :: 'u' :: 'l' :: 'l' :: rest from rfl] at hp ⊢
  rw [jValue.eq_def]
  dsimp only
  rw [if_neg (by decide), if_neg (by decide), if_neg (by decide), if_pos hp]
  rfl

theorem jValue_build_true (f : Nat) (rest : List Char) :
    jValue (f + 1) (trueTok ++ rest) = some (.bool true, rest) := by
  have hp : trueTok.isPrefixOf (trueTok ++ rest) = true :=
    isPrefixOf_append_true _ _ _ (by decide)
  have hnp : nullTok.isPrefixOf ('t' :: 'r' :: 'u' :: 'e' :: rest) = false := by
    rw [show nullTok = ('n' :: 'u' :: 'l' :: 'l' :: ([] : List Char)) from rfl]
    exact isPrefixOf_head_ne _ _ _ _ (by decide)
  rw [show trueTok ++ rest = 't' :: 'r' :: 'u' :: 'e' :: rest from rfl] at hp ⊢
  rw [jValue.eq_def]
  dsimp only
  rw [if_neg (by decide), if_neg (by decide), if_neg (by decide),
    if_neg (by simp [hnp]), if_pos hp]
  rfl

theorem jValue_build_false (f : Nat) (rest : List Char) :
    jValue (f + 1) (falseTok ++ rest) = some (.bool false, rest) := by
  have hp : falseTok.isPrefixOf (falseTok ++ rest) = true :=
    isPrefixOf_append_true _ _ _ (by decide)
  have hnp : nullTok.isPrefixOf ('f' :: 'a' :: 'l' :: 's' :: 'e' :: rest) = false := by
    rw [show nullTok = ('n' :: 'u' :: 'l' :: 'l' :: ([] : List Char)) from rfl]
    exact isPrefixOf_head_ne _ _ _ _ (by decide)
  have htp : trueTok.isPrefixOf ('f' :: 'a' :: 'l' :: 's' :: 'e' :: rest) = false := by
    rw [show trueTok = ('t' :: 'r' :: 'u' :: 'e' :: ([] : List Char)) from rfl]
    exact isPrefixOf_head_ne _ _ _ _ (by decide)
  rw [show falseTok ++ rest = 'f' :: 'a' :: 'l' :: 's' :: 'e' :: rest from rfl] at hp ⊢
  rw [jValue.eq_def]
  dsimp only
  rw [if_neg (by decide), if_neg (by decide), if_neg (by decide),
    if_neg (by simp [hnp]), if_neg (by simp [htp]), if_pos hp]
  rfl

theorem jValue_build_num (f : Nat) (cs tok rem : List Char)
    (h : scanNumber cs = some (tok, rem)) :
    jValue (f + 1) cs = some (.num tok, rem) := by
  obtain ⟨c, r, hcs, hqt, hlbr, hlsq, hn, ht, hf2⟩ :
      ∃ c r, cs = c :: r ∧ c ≠ qt ∧ c ≠ lbr ∧ c ≠ '[' ∧ c ≠ 'n' ∧ c ≠ 't' ∧ c ≠ 'f' := by
    rcases scanNumber_cases cs tok rem h with
      ⟨r0, ip, r2, fp, r3, ep, rfl, hip, -, -, -⟩ | ⟨hne, ip, r2, fp, r3, ep, hip, -, -, -⟩
    · exact ⟨'-', r0, rfl, by decide, by decide, by decide, by decide, by decide, by decide⟩
    · obtain ⟨he, hipne, hall⟩ := scanIntPart_eq cs ip r2 hip
      rcases ip with _ | ⟨d, ip2⟩
      · exact absurd rfl hipne
      · obtain ⟨h1, h2, h3, h4, h5, h6, -⟩ := isDigit_facts d (hall d (by simp))
        exact ⟨d, ip2 ++ r2, by rw [he]; rfl, h1, h2, h3, h4, h5, h6⟩
  subst hcs
  have hnull : nullTok.isPrefixOf (c :: r) = false := by
    rw [show nullTok = ('n' :: 'u' :: 'l' :: 'l' :: ([] : List Char)) from rfl]
    exact isPrefixOf_head_ne _ _ _ _ (Ne.symm hn)
  have htrue : trueTok.isPrefixOf (c :: r) = false := by
    rw [show trueTok = ('t' :: 'r' :: 'u' :: 'e' :: ([] : List Char)) from rfl]
    exact isPrefixOf_head_ne _ _ _ _ (Ne.symm ht)
  have hfalse : falseTok.isPrefixOf (c :: r) = false := by
    rw [show falseTok = ('f' :: 'a' :: 'l' :: 's' :: 'e' :: ([] : List Char)) from rfl]
    exact isPrefixOf_head_ne _ _ _ _ (Ne.symm hf2)
  rw [jValue.eq_def]
  dsimp only
  rw [if_neg hqt, if_neg hlbr, if_neg hlsq, if_neg (by simp [hnull]),
    if_neg (by simp [htrue]), if_neg (by simp [hfalse]), h]

theorem jValue_build_nan (f : Nat) (rest : List Char) :
    jValue (f + 1) (nanTok ++ rest) = some (.num nanTok, rest) := by
  have hp : nanTok.isPrefixOf (nanTok ++ rest) = true :=
    isPrefixOf_append_true _ _ _ (by decide)
  rw [show nanTok ++ rest = 'N' :: 'a' :: 'N' :: rest from rfl] at hp ⊢
  have hnum : scanNumber ('N' :: 'a' :: 'N' :: rest) = none :=
    scanNumber_none_head _ _ (by decide) (by decide) (by decide)
  have hnull : nullTok.isPrefixOf ('N' :: 'a' :: 'N' :: rest) = false := by
    rw [show nullTok = ('n' :: 'u' :: 'l' :: 'l' :: ([] : List Char)) from rfl]
    exact isPrefixOf_head_ne _ _ _ _ (by decide)
  have htrue : trueTok.isPrefixOf ('N' :: 'a' :: 'N' :: rest) = false := by
    rw [show trueTok = ('t' :: 'r' :: 'u' :: 'e' :: ([] : List Char)) from rfl]
    exact isPrefixOf_head_ne _ _ _ _ (by decide)
  have hfalse : falseTok.isPrefixOf ('N' :: 'a' :: 'N' :: rest) = false := by
    rw [show falseTok = ('f' :: 'a' :: 'l' :: 's' :: 'e' :: ([] : List Char)) from rfl]
    exact isPrefixOf_head_ne _ _ _ _ (by decide)
  rw [jValue.eq_def]
  dsimp only
  rw [if_neg (by decide), if_neg (by decide), if_neg (by decide),
    if_neg (by simp [hnull]), if_neg (by simp [htrue]), if_neg (by simp [hfalse]), hnum,
    if_pos hp]
  rfl

theorem jValue_build_inf (f : Nat) (rest : List Char) :
    jValue (f + 1) (infTok ++ rest) = some (.num infTok, rest) := by
  have hp : infTok.isPrefixOf (infTok ++ rest) = true :=
    isPrefixOf_append_true _ _ _ (by decide)
  rw [show infTok ++ rest =
    'I' :: 'n' :: 'f' :: 'i' :: 'n' :: 'i' :: 't' :: 'y' :: rest from rfl] at hp ⊢
  have hnum : scanNumber ('I' :: 'n' :: 'f' :: 'i' :: 'n' :: 'i' :: 't' :: 'y' :: rest) = none :=
    scanNumber_none_head _ _ (by decide) (by decide) (by decide)
  have hnull : nullTok.isPrefixOf ('I' :: 'n' :: 'f' :: 'i' :: 'n' :: 'i' :: 't' :: 'y' :: rest) = false := by
    rw [show nullTok = ('n' :: 'u' :: 'l' :: 'l' :: ([] : List Char)) from rfl]
    exact isPrefixOf_head_ne _ _ _ _ (by decide)
  have htrue : trueTok.isPrefixOf ('I' :: 'n' :: 'f' :: 'i' :: 'n' :: 'i' :: 't' :: 'y' :: rest) = false := by
    rw [show trueTok = ('t' :: 'r' :: 'u' :: 'e' :: ([] : List Char)) from rfl]
    exact isPrefixOf_head_ne _ _ _ _ (by decide)
  have hfalse : falseTok.isPrefixOf ('I' :: 'n' :: 'f' :: 'i' :: 'n' :: 'i' :: 't' :: 'y' :: rest) = false := by
    rw [show falseTok = ('f' :: 'a' :: 'l' :: 's' :: 'e' :: ([] : List Char)) from rfl]
    exact isPrefixOf_head_ne _ _ _ _ (by decide)
  have hnan : nanTok.isPrefixOf ('I' :: 'n' :: 'f' :: 'i' :: 'n' :: 'i' :: 't' :: 'y' :: rest) = false := by
    rw [show nanTok = ('N' :: 'a' :: 'N' :: ([] : List Char)) from rfl]
    exact isPrefixOf_head_ne _ _ _ _ (by decide)
  rw [jValue.eq_def]
  dsimp only
  rw [if_neg (by decide), if_neg (by decide), if_neg (by decide),
    if_neg (by simp [hnull]), if_neg (by simp [htrue]), if_neg (by simp [hfalse]), hnum,
    if_neg (by simp [hnan]), if_pos hp]
  rfl

theorem jValue_build_ninf (f : Nat) (rest : List Char) :
    jValue (f + 1) (ninfTok ++ rest) = some (.num ninfTok, rest) := by
  have hp : ninfTok.isPrefixOf (ninfTok ++ rest) = true :=
    isPrefixOf_append_true _ _ _ (by decide)
  rw [show ninfTok ++ rest =
    '-' :: 'I' :: 'n' :: 'f' :: 'i' :: 'n' :: 'i' :: 't' :: 'y' :: rest from rfl] at hp ⊢
  have hnum : scanNumber ('-' :: 'I' :: 'n' :: 'f' :: 'i' :: 'n' :: 'i' :: 't' :: 'y' :: rest) = none := by
    apply scanNumber_neg_none
    simp [scanIntPart, show ('I' : Char) ≠ '0' from by decide,
      show ('I' : Char).isDigit = false from by decide]
  have hnull : nullTok.isPrefixOf ('-' :: 'I' :: 'n' :: 'f' :: 'i' :: 'n' :: 'i' :: 't' :: 'y' :: rest) = false := by
    rw [show nullTok = ('n' :: 'u' :: 'l' :: 'l' :: ([] : List Char)) from rfl]
    exact isPrefixOf_head_ne _ _ _ _ (by decide)
  have htrue : trueTok.isPrefixOf ('-' :: 'I' :: 'n' :: 'f' :: 'i' :: 'n' :: 'i' :: 't' :: 'y' :: rest) = false := by
    rw [show trueTok = ('t' :: 'r' :: 'u' :: 'e' :: ([] : List Char)) from rfl]
    exact isPrefixOf_head_ne _ _ _ _ (by decide)
  have hfalse : falseTok.isPrefixOf ('-' :: 'I' :: 'n' :: 'f' :: 'i' :: 'n' :: 'i' :: 't' :: 'y' :: rest) = false := by
    rw [show falseTok = ('f' :: 'a' :: 'l' :: 's' :: 'e' :: ([] : List Char)) from rfl]
    exact isPrefixOf_head_ne _ _ _ _ (by decide)
  have hnan : nanTok.isPrefixOf ('-' :: 'I' :: 'n' :: 'f' :: 'i' :: 'n' :: 'i' :: 't' :: 'y' :: rest) = false := by
    rw [show nanTok = ('N' :: 'a' :: 'N' :: ([] : List Char)) from rfl]
    exact isPrefixOf_head_ne _ _ _ _ (by decide)
  have hinf : infTok.isPrefixOf ('-' :: 'I' :: 'n' :: 'f' :: 'i' :: 'n' :: 'i' :: 't' :: 'y' :: rest) = false := by
    rw [show infTok = ('I' :: 'n' :: 'f' :: 'i' :: 'n' :: 'i' :: 't' :: 'y' :: ([] : List Char)) from rfl]
    exact isPrefixOf_head_ne _ _ _ _ (by decide)
  rw [jValue.eq_def]
  dsimp only
  rw [if_neg (by decide), if_neg (by decide), if_neg (by decide),
    if_neg (by simp [hnull]), if_neg (by simp [htrue]), if_neg (by simp [hfalse]), hnum,
    if_neg (by simp [hnan]), if_neg (by simp [hinf]), if_pos hp]
  rfl

theorem jMembers_build_comma (f : Nat) (r : List Char) (key : List Nat)
    (r1 r2 : List Char) (v : Json) (r3 r4 : List Char) (fs2 : JsonFields) (r5 : List Char)
    (hs : scanString (r.length + 1) r [] = some (key, r1))
    (hc : jSkipWs r1 = ':' :: r2)
    (hv : jValue f (jSkipWs r2) = some (v, r3))
    (hcm : jSkipWs r3 = ',' :: r4)
    (hm : jMembers f (jSkipWs r4) = some (fs2, r5)) :
    jMembers (f + 1) (qt :: r) = some (.cons key v fs2, r5) := by
  rw [jMembers.eq_def]
  dsimp only
  rw [if_pos rfl, hs]
  dsimp only
  rw [hc]
  dsimp only
  rw [if_pos rfl, hv]
  dsimp only
  rw [hcm]
  split
  · rename_i r4x heq
    injection heq with h1 h2
    subst h2
    rw [hm]
  · rename_i hne
    exact absurd rfl (hne r4)

theorem jMembers_build_last (f : Nat) (r : List Char) (key : List Nat)
    (r1 r2 : List Char) (v : Json) (r3 rem : List Char)
    (hs : scanString (r.length + 1) r [] = some (key, r1))
    (hc : jSkipWs r1 = ':' :: r2)
    (hv : jValue f (jSkipWs r2) = some (v, r3))
    (hcm : jSkipWs r3 = rem)
    (hne : ∀ r4, rem ≠ ',' :: r4) :
    jMembers (f + 1) (qt :: r) = some (.cons key v .nil, rem) := by
  rw [jMembers.eq_def]
  dsimp only
  rw [if_pos rfl, hs]
  dsimp only
  rw [hc]
  dsimp only
  rw [if_pos rfl, hv]
  dsimp only
  rw [hcm]
  split
  · rename_i r4x
    exact absurd rfl (hne r4x)
  · rfl

theorem jItems_build_comma (f : Nat) (cs : List Char) (v : Json) (r r2 : List Char)
    (vs2 : JsonList) (r3 : List Char)
    (hv : jValue f cs = some (v, r))
    (hcm : jSkipWs r = ',' :: r2)
    (hi : jItems f (jSkipWs r2) = some (vs2, r3)) :
    jItems (f + 1) cs = some (.cons v vs2, r3) := by
  rw [jItems.eq_def]
  dsimp only
  rw [hv]
  dsimp only
  rw [hcm]
  split
  · rename_i r2x heq
    injection heq with h1 h2
    subst h2
    rw [hi]
  · rename_i hne
    exact absurd rfl (hne r2)

theorem jItems_build_last (f : Nat) (cs : List Char) (v : Json) (r rem : List Char)
    (hv : jValue f cs = some (v, r))
    (hcm : jSkipWs r = rem)
    (hne : ∀ r2, rem ≠ ',' :: r2) :
    jItems (f + 1) cs = some (.cons v .nil, rem) := by
  rw [jItems.eq_def]
  dsimp only
  rw [hv]
  dsimp only
  rw [← hcm]
  split
  · rename_i r2x heq
    rw [hcm] at heq
    exact absurd heq (hne r2x)
  · rw [hcm]

set_option maxHeartbeats 2000000 in
theorem jValue_succ_cases (f : Nat) (cs : List Char) (v : Json) (rem : List Char)
    (h : jValue (f + 1) cs = some (v, rem)) :
    (∃ r s r2, cs = qt :: r ∧ scanString (r.length + 1) r [] = some (s, r2) ∧
        v = .str s ∧ rem = r2) ∨
    (∃ r r1, cs = lbr :: r ∧ jSkipWs r = rbr :: r1 ∧ v = .obj .nil ∧ rem = r1) ∨
    (∃ r c1 r1 fs r3, cs = lbr :: r ∧ jSkipWs r = c1 :: r1 ∧ c1 ≠ rbr ∧
        jMembers f (c1 :: r1) = some (fs, rbr :: r3) ∧ v = .obj fs ∧ rem = r3) ∨
    (∃ r r1, cs = '[' :: r ∧ jSkipWs r = ']' :: r1 ∧ v = .arr .nil ∧ rem = r1) ∨
    (∃ r c1 r1 vs r3, cs = '[' :: r ∧ jSkipWs r = c1 :: r1 ∧ c1 ≠ ']' ∧
        jItems f (c1 :: r1) = some (vs, ']' :: r3) ∧ v = .arr vs ∧ rem = r3) ∨
    (cs = nullTok ++ rem ∧ v = .null) ∨
    (cs = trueTok ++ rem ∧ v = .bool true) ∨
    (cs = falseTok ++ rem ∧ v = .bool false) ∨
    (∃ tok, scanNumber cs = some (tok, rem) ∧ v = .num tok) ∨
    (cs = nanTok ++ rem ∧ v = .num nanTok) ∨
    (cs = infTok ++ rem ∧ v = .num infTok) ∨
    (cs = ninfTok ++ rem ∧ v = .num ninfTok) := by
  rw [jValue.eq_def] at h
  dsimp only at h
  rcases cs with _ | ⟨c, r⟩
  · exact absurd h (by simp)
  dsimp only at h
  by_cases hqt : c = qt
  · rw [if_pos hqt] at h
    rcases hs : scanString (r.length + 1) r [] with _ | ⟨s, r2⟩ <;> rw [hs] at h
    · exact absurd h (by simp)
    · dsimp only at h
      simp only [Option.some.injEq, Prod.mk.injEq] at h
      exact Or.inl ⟨r, s, r2, by rw [hqt], hs, h.1.symm, h.2.symm⟩
  rw [if_neg hqt] at h
  by_cases hlb : c = lbr
  · rw [if_pos hlb] at h
    rcases hws : jSkipWs r with _ | ⟨c1, r1⟩ <;> rw [hws] at h
    · exact absurd h (by simp)
    dsimp only at h
    by_cases hc1 : c1 = rbr
    · rw [if_pos hc1] at h
      simp only [Option.some.injEq, Prod.mk.injEq] at h
      refine Or.inr (Or.inl ⟨r, r1, by rw [hlb], by rw [hws, hc1], h.1.symm, h.2.symm⟩)
    rw [if_neg hc1] at h
    rcases hm : jMembers f (c1 :: r1) with _ | ⟨fs, r2⟩ <;> rw [hm] at h
    · exact absurd h (by simp)
    dsimp only at h
    rcases r2 with _ | ⟨c2, r3⟩
    · exact absurd h (by simp)
    dsimp only at h
    by_cases hc2 : c2 = rbr
    · rw [if_pos hc2] at h
      simp only [Option.some.injEq, Prod.mk.injEq] at h
      subst hc2
      exact Or.inr (Or.inr (Or.inl ⟨r, c1, r1, fs, r3, by rw [hlb], hws, hc1, hm,
        h.1.symm, h.2.symm⟩))
    · rw [if_neg hc2] at h
      exact absurd h (by simp)
  rw [if_neg hlb] at h
  by_cases hlq : c = '['
  · rw [if_pos hlq] at h
    rcases hws : jSkipWs r with _ | ⟨c1, r1⟩ <;> rw [hws] at h
    · exact absurd h (by simp)
    dsimp only at h
    by_cases hc1 : c1 = ']'
    · rw [if_pos hc1] at h
      simp only [Option.some.injEq, Prod.mk.injEq] at h
      refine Or.inr (Or.inr (Or.inr (Or.inl ⟨r, r1, by rw [hlq], by rw [hws, hc1],
        h.1.symm, h.2.symm⟩)))
    rw [if_neg hc1] at h
    rcases hi : jItems f (c1 :: r1) with _ | ⟨vs, r2⟩ <;> rw [hi] at h
    · exact absurd h (by simp)
    dsimp only at h
    rcases r2 with _ | ⟨c2, r3⟩
    · exact absurd h (by simp)
    dsimp only at h
    by_cases hc2 : c2 = ']'
    · rw [if_pos hc2] at h
      simp only [Option.some.injEq, Prod.mk.injEq] at h
      subst hc2
      exact Or.inr (Or.inr (Or.inr (Or.inr (Or.inl ⟨r, c1, r1, vs, r3, by rw [hlq], hws,
        hc1, hi, h.1.symm, h.2.symm⟩))))
    · rw [if_neg hc2] at h
      exact absurd h (by simp)
  rw [if_neg hlq] at h
  by_cases hnul : nullTok.isPrefixOf (c :: r) = true
  · rw [if_pos hnul] at h
    simp only [Option.some.injEq, Prod.mk.injEq] at h
    refine Or.inr (Or.inr (Or.inr (Or.inr (Or.inr (Or.inl ⟨?_, h.1.symm⟩)))))
    rw [← h.2]
    exact prefix_extract _ _ hnul
  rw [if_neg hnul] at h
  by_cases htru : trueTok.isPrefixOf (c :: r) = true
  · rw [if_pos htru] at h
    simp only [Option.some.injEq, Prod.mk.injEq] at h
    refine Or.inr (Or.inr (Or.inr (Or.inr (Or.inr (Or.inr (Or.inl ⟨?_, h.1.symm⟩))))))
    rw [← h.2]
    exact prefix_extract _ _ htru
  rw [if_neg htru] at h
  by_cases hfls : falseTok.isPrefixOf (c :: r) = true
  · rw [if_pos hfls] at h
    simp only [Option.some.injEq, Prod.mk.injEq] at h
    refine Or.inr (Or.inr (Or.inr (Or.inr (Or.inr (Or.inr (Or.inr (Or.inl ⟨?_, h.1.symm⟩)))))))
    rw [← h.2]
    exact prefix_extract _ _ hfls
  rw [if_neg hfls] at h
  rcases hn : scanNumber (c :: r) with _ | ⟨tok, r2⟩ <;> rw [hn] at h
  · by_cases hnan : nanTok.isPrefixOf (c :: r) = true
    · rw [if_pos hnan] at h
      simp only [Option.some.injEq, Prod.mk.injEq] at h
      refine Or.inr (Or.inr (Or.inr (Or.inr (Or.inr (Or.inr (Or.inr (Or.inr (Or.inr
        (Or.inl ⟨?_, h.1.symm⟩)))))))))
      rw [← h.2]
      exact prefix_extract _ _ hnan
    rw [if_neg hnan] at h
    by_cases hinf : infTok.isPrefixOf (c :: r) = true
    · rw [if_pos hinf] at h
      simp only [Option.some.injEq, Prod.mk.injEq] at h
      refine Or.inr (Or.inr (Or.inr (Or.inr (Or.inr (Or.inr (Or.inr (Or.inr (Or.inr
        (Or.inr (Or.inl ⟨?_, h.1.symm⟩))))))))))
      rw [← h.2]
      exact prefix_extract _ _ hinf
    rw [if_neg hinf] at h
    by_cases hnin : ninfTok.isPrefixOf (c :: r) = true
    · rw [if_pos hnin] at h
      simp only [Option.some.injEq, Prod.mk.injEq] at h
      refine Or.inr (Or.inr (Or.inr (Or.inr (Or.inr (Or.inr (Or.inr (Or.inr (Or.inr
        (Or.inr (Or.inr ⟨?_, h.1.symm⟩))))))))))
      rw [← h.2]
      exact prefix_extract _ _ hnin
    · rw [if_neg hnin] at h
      exact absurd h (by simp)
  · dsimp only at h
    simp only [Option.some.injEq, Prod.mk.injEq] at h
    exact Or.inr (Or.inr (Or.inr (Or.inr (Or.inr (Or.inr (Or.inr (Or.inr (Or.inl
      ⟨tok, by rw [h.2], h.1.symm⟩))))))))

set_option maxHeartbeats 2000000 in
theorem jMembers_succ_cases (f : Nat) (cs : List Char) (fs : JsonFields) (rem : List Char)
    (h : jMembers (f + 1) cs = some (fs, rem)) :
    ∃ r key r1 r2 v r3, cs = qt :: r ∧ scanString (r.length + 1) r [] = some (key, r1) ∧
      jSkipWs r1 = ':' :: r2 ∧ jValue f (jSkipWs r2) = some (v, r3) ∧
      ((∃ r4 fs2 r5, jSkipWs r3 = ',' :: r4 ∧ jMembers f (jSkipWs r4) = some (fs2, r5) ∧
          fs = .cons key v fs2 ∧ rem = r5) ∨
       (jSkipWs r3 = rem ∧ (∀ r4, rem ≠ ',' :: r4) ∧ fs = .cons key v .nil)) := by
  rw [jMembers.eq_def] at h
  dsimp only at h
  rcases cs with _ | ⟨c, r⟩
  · exact absurd h (by simp)
  dsimp only at h
  by_cases hqt : c = qt
  · rw [if_pos hqt] at h
    rcases hs : scanString (r.length + 1) r [] with _ | ⟨key, r1⟩ <;> rw [hs] at h
    · exact absurd h (by simp)
    dsimp only at h
    rcases hw1 : jSkipWs r1 with _ | ⟨c2, r2⟩ <;> rw [hw1] at h
    · exact absurd h (by simp)
    dsimp only at h
    by_cases hc2 : c2 = ':'
    · rw [if_pos hc2] at h
      rcases hv : jValue f (jSkipWs r2) with _ | ⟨v, r3⟩ <;> rw [hv] at h
      · exact absurd h (by simp)
      dsimp only at h
      subst hqt
      subst hc2
      refine ⟨r, key, r1, r2, v, r3, rfl, hs, hw1, hv, ?_⟩
      split at h
      · rename_i r4 heq
        rcases hm : jMembers f (jSkipWs r4) with _ | ⟨fs2, r5⟩ <;> rw [hm] at h
        · exact absurd h (by simp)
        dsimp only at h
        simp only [Option.some.injEq, Prod.mk.injEq] at h
        exact Or.inl ⟨r4, fs2, r5, heq, hm, h.1.symm, h.2.symm⟩
      · rename_i hne
        simp only [Option.some.injEq, Prod.mk.injEq] at h
        refine Or.inr ⟨by rw [h.2], ?_, h.1.symm⟩
        intro r4 hr4
        rw [← h.2] at hr4
        exact hne r4 hr4
    · rw [if_neg hc2] at h
      exact absurd h (by simp)
  · rw [if_neg hqt] at h
    exact absurd h (by simp)

set_option maxHeartbeats 2000000 in
theorem jItems_succ_cases (f : Nat) (cs : List Char) (vs : JsonList) (rem : List Char)
    (h : jItems (f + 1) cs = some (vs, rem)) :
    ∃ v r, jValue f cs = some (v, r) ∧
      ((∃ r2 vs2 r3, jSkipWs r = ',' :: r2 ∧ jItems f (jSkipWs r2) = some (vs2, r3) ∧
          vs = .cons v vs2 ∧ rem = r3) ∨
       (rem = jSkipWs r ∧ (∀ r2, rem ≠ ',' :: r2) ∧ vs = .cons v .nil)) := by
  rw [jItems.eq_def] at h
  dsimp only at h
  rcases hv : jValue f cs with _ | ⟨v, r⟩ <;> rw [hv] at h
  · exact absurd h (by simp)
  dsimp only at h
  refine ⟨v, r, rfl, ?_⟩
  split at h
  · rename_i r2 heq
    rcases hi : jItems f (jSkipWs r2) with _ | ⟨vs2, r3⟩ <;> rw [hi] at h
    · exact absurd h (by simp)
    dsimp only at h
    simp only [Option.some.injEq, Prod.mk.injEq] at h
    exact Or.inl ⟨r2, vs2, r3, heq, hi, h.1.symm, h.2.symm⟩
  · rename_i hne
    simp only [Option.some.injEq, Prod.mk.injEq] at h
    refine Or.inr ⟨h.2.symm, ?_, h.1.symm⟩
    intro r2 hr2
    exact hne r2 (h.2.trans hr2)



theorem jValue_nil (f : Nat) : jValue f [] = none := by
  cases f <;> simp [jValue]

theorem jMembers_nil (f : Nat) : jMembers f [] = none := by
  cases f <;> simp [jMembers]

theorem jItems_nil (f : Nat) : jItems f [] = none := by
  cases f with
  | zero => simp [jItems]
  | succ f2 => rw [jItems.eq_def]; dsimp only; rw [jValue_nil]

theorem ws_num_facts (c : Char) (h : isJWs c = true) :
    ¬c.isDigit ∧ c ≠ '.' ∧ c ≠ 'e' ∧ c ≠ 'E' := by
  simp [isJWs] at h
  rcases h with ((rfl | rfl) | rfl) | rfl <;> exact (by decide)

theorem jSkipWs_src_head (l : List Char) (c : Char) (r : List Char)
    (h : jSkipWs l = c :: r) :
    ∃ d dr, l = d :: dr ∧ (isJWs d = true ∨ d = c) := by
  rcases l with _ | ⟨d, dr⟩
  · simp [jSkipWs] at h
  · by_cases hw : isJWs d
    · exact ⟨d, dr, rfl, Or.inl hw⟩
    · rw [jSkipWs_cons_neg dr (by simpa using hw)] at h
      injection h with h1 h2
      exact ⟨d, dr, rfl, Or.inr h1⟩

theorem jSkipWs_append_of_cons (l t : List Char) (d : Char) (dr : List Char)
    (h : jSkipWs l = d :: dr) : jSkipWs (l ++ t) = (jSkipWs l) ++ t := by
  rw [jSkipWs_append_cons l t d dr h, h]
  rfl

set_option maxHeartbeats 4000000 in
theorem jscan_ext (fuel : Nat) :
    (∀ cs v rem t, jValue fuel cs = some (v, rem) →
      (rem = [] → ∀ tk, v ≠ .num tk) →
      (∀ c r2, rem = c :: r2 → ¬c.isDigit ∧ c ≠ '.' ∧ c ≠ 'e' ∧ c ≠ 'E') →
      jValue fuel (cs ++ t) = some (v, rem ++ t)) ∧
    (∀ cs fs rem t, jMembers fuel cs = some (fs, rem) → rem.head? = some rbr →
      jMembers fuel (cs ++ t) = some (fs, rem ++ t)) ∧
    (∀ cs vs rem t, jItems fuel cs = some (vs, rem) → rem.head? = some ']' →
      jItems fuel (cs ++ t) = some (vs, rem ++ t)) := by
  induction fuel with
  | zero =>
    refine ⟨?_, ?_, ?_⟩ <;> intro cs a rem t h <;> simp [jValue, jMembers, jItems] at h
  | succ f ih =>
    obtain ⟨ihv, ihm, ihi⟩ := ih
    refine ⟨?_, ?_, ?_⟩
    · intro cs v rem t h h1 h2
      rcases jValue_succ_cases f cs v rem h with
        ⟨r, s, r2, rfl, hs, rfl, rfl⟩ |
        ⟨r, r1, rfl, hws, rfl, rfl⟩ |
        ⟨r, c1, r1, fs, r3, rfl, hws, hc1, hm, rfl, rfl⟩ |
        ⟨r, r1, rfl, hws, rfl, rfl⟩ |
        ⟨r, c1, r1, vs, r3, rfl, hws, hc1, hi, rfl, rfl⟩ |
        ⟨rfl, rfl⟩ | ⟨rfl, rfl⟩ | ⟨rfl, rfl⟩ |
        ⟨tok, hn, rfl⟩ |
        ⟨rfl, rfl⟩ | ⟨rfl, rfl⟩ | ⟨rfl, rfl⟩
      · have hsx := scanString_ext _ _ _ _ _ t hs
        have hsx2 := scanString_mono_le (r.length + 1) ((r ++ t).length + 1) _ _ _
          (by rw [List.length_append]; omega) hsx
        simp only [List.cons_append]
        exact jValue_build_str f (r ++ t) s _ hsx2
      · simp only [List.cons_append]
        exact jValue_build_obj_empty f (r ++ t) _ (jSkipWs_append_cons r t rbr _ hws)
      · have hmx := ihm (c1 :: r1) fs (rbr :: rem) t hm (by simp)
        simp only [List.cons_append] at hmx ⊢
        exact jValue_build_obj f (r ++ t) c1 (r1 ++ t) fs (rem ++ t)
          (jSkipWs_append_cons r t c1 r1 hws) hc1 hmx
      · simp only [List.cons_append]
        exact jValue_build_arr_empty f (r ++ t) _ (jSkipWs_append_cons r t ']' _ hws)
      · have hix := ihi (c1 :: r1) vs (']' :: rem) t hi (by simp)
        simp only [List.cons_append] at hix ⊢
        exact jValue_build_arr f (r ++ t) c1 (r1 ++ t) vs (rem ++ t)
          (jSkipWs_append_cons r t c1 r1 hws) hc1 hix
      · rw [List.append_assoc]
        exact jValue_build_null f (rem ++ t)
      · rw [List.append_assoc]
        exact jValue_build_true f (rem ++ t)
      · rw [List.append_assoc]
        exact jValue_build_false f (rem ++ t)
      · rcases rem with _ | ⟨c, r2⟩
        · exact absurd rfl (h1 rfl tok)
        · obtain ⟨hd, hdot, he, hE⟩ := h2 c r2 rfl
          have hnx := scanNumber_ext cs tok c r2 t hn hd hdot (by tauto)
          simp only [List.cons_append]
          exact jValue_build_num f (cs ++ t) tok _ hnx
      · rw [List.append_assoc]
        exact jValue_build_nan f (rem ++ t)
      · rw [List.append_assoc]
        exact jValue_build_inf f (rem ++ t)
      · rw [List.append_assoc]
        exact jValue_build_ninf f (rem ++ t)
    · intro cs fs rem t h hrem
      obtain ⟨r, key, r1, r2, v, r3, rfl, hs, hw1, hv, hbr⟩ := jMembers_succ_cases f cs fs rem h
      have hsx := scanString_ext _ _ _ _ _ t hs
      have hsx2 := scanString_mono_le (r.length + 1) ((r ++ t).length + 1) _ _ _
        (by rw [List.length_append]; omega) hsx
      have hw1x : jSkipWs (r1 ++ t) = ':' :: (r2 ++ t) := jSkipWs_append_cons _ _ _ _ hw1
      have hr2ne : ∃ d dr, jSkipWs r2 = d :: dr := by
        rcases hj : jSkipWs r2 with _ | ⟨d, dr⟩
        · rw [hj, jValue_nil] at hv
          cases hv
        · exact ⟨d, dr, rfl⟩
      obtain ⟨d, dr, hd0⟩ := hr2ne
      have hskipx : jSkipWs (r2 ++ t) = (jSkipWs r2) ++ t :=
        jSkipWs_append_of_cons r2 t d dr hd0
      rcases hbr with ⟨r4, fs2, r5, hcm, hm2, rfl, rfl⟩ | ⟨hlast, hnc, rfl⟩
      · obtain ⟨c3, rr3, hr3, hc3⟩ := jSkipWs_src_head r3 ',' r4 hcm
        have hvx : jValue f ((jSkipWs r2) ++ t) = some (v, r3 ++ t) := by
          apply ihv _ _ _ t hv
          · intro h0
            rw [h0] at hr3
            simp at hr3
          · intro c r2x hceq
            rw [hr3] at hceq
            injection hceq with he1 he2
            subst he1
            rcases hc3 with hws3 | rfl
            · exact ws_num_facts _ hws3
            · exact (by decide)
        have hvx2 : jValue f (jSkipWs (r2 ++ t)) = some (v, r3 ++ t) := by
          rw [hskipx]; exact hvx
        have hcmx : jSkipWs (r3 ++ t) = ',' :: (r4 ++ t) := jSkipWs_append_cons _ _ _ _ hcm
        have h4ne : ∃ d2 dr2, jSkipWs r4 = d2 :: dr2 := by
          rcases hj : jSkipWs r4 with _ | ⟨d2, dr2⟩
          · rw [hj, jMembers_nil] at hm2
            cases hm2
          · exact ⟨d2, dr2, rfl⟩
        obtain ⟨d2, dr2, hd2⟩ := h4ne
        have hskip4 : jSkipWs (r4 ++ t) = (jSkipWs r4) ++ t :=
          jSkipWs_append_of_cons r4 t d2 dr2 hd2
        have hmx := ihm _ _ _ t hm2 hrem
        simp only [List.cons_append]
        exact jMembers_build_comma f (r ++ t) key (r1 ++ t) (r2 ++ t) v (r3 ++ t)
          (r4 ++ t) fs2 (rem ++ t) hsx2 hw1x hvx2 hcmx (by rw [hskip4]; exact hmx)
      · rcases rem with _ | ⟨c0, rr⟩
        · simp at hrem
        have hc0 : c0 = rbr := by
          simp only [List.head?] at hrem
          injection hrem
        subst hc0
        obtain ⟨c3, rr3, hr3, hc3⟩ := jSkipWs_src_head r3 rbr rr hlast
        have hvx : jValue f ((jSkipWs r2) ++ t) = some (v, r3 ++ t) := by
          apply ihv _ _ _ t hv
          · intro h0
            rw [h0] at hr3
            simp at hr3
          · intro c r2x hceq
            rw [hr3] at hceq
            injection hceq with he1 he2
            subst he1
            rcases hc3 with hws3 | rfl
            · exact ws_num_facts _ hws3
            · exact (by decide)
        have hvx2 : jValue f (jSkipWs (r2 ++ t)) = some (v, r3 ++ t) := by
          rw [hskipx]; exact hvx
        have hlastx : jSkipWs (r3 ++ t) = (rbr :: rr) ++ t := by
          rw [jSkipWs_append_cons r3 t rbr rr hlast]
          rfl
        simp only [List.cons_append] at hlastx ⊢
        refine jMembers_build_last f (r ++ t) key (r1 ++ t) (r2 ++ t) v (r3 ++ t)
          (rbr :: (rr ++ t)) hsx2 hw1x hvx2 hlastx ?_
        intro r4 hq
        injection hq with hq1 hq2
        exact absurd hq1 (by decide)
    · intro cs vs rem t h hrem
      obtain ⟨v, r, hv, hbr⟩ := jItems_succ_cases f cs vs rem h
      rcases hbr with ⟨r2, vs2, r3, hcm, hi2, rfl, rfl⟩ | ⟨rfl, hnc, rfl⟩
      · obtain ⟨c3, rr3, hr3, hc3⟩ := jSkipWs_src_head r ',' r2 hcm
        have hvx : jValue f (cs ++ t) = some (v, r ++ t) := by
          apply ihv _ _ _ t hv
          · intro h0
            rw [h0] at hr3
            simp at hr3
          · intro c r2x hceq
            rw [hr3] at hceq
            injection hceq with he1 he2
            subst he1
            rcases hc3 with hws3 | rfl
            · exact ws_num_facts _ hws3
            · exact (by decide)
        have hcmx : jSkipWs (r ++ t) = ',' :: (r2 ++ t) := jSkipWs_append_cons _ _ _ _ hcm
        have h2ne : ∃ d2 dr2, jSkipWs r2 = d2 :: dr2 := by
          rcases hj : jSkipWs r2 with _ | ⟨d2, dr2⟩
          · rw [hj, jItems_nil] at hi2
            cases hi2
          · exact ⟨d2, dr2, rfl⟩
        obtain ⟨d2, dr2, hd2⟩ := h2ne
        have hskip2 : jSkipWs (r2 ++ t) = (jSkipWs r2) ++ t :=
          jSkipWs_append_of_cons r2 t d2 dr2 hd2
        have hix := ihi _ _ _ t hi2 hrem
        exact jItems_build_comma f (cs ++ t) v (r ++ t) (r2 ++ t) vs2 (rem ++ t)
          hvx hcmx (by rw [hskip2]; exact hix)
      · rcases hrm : jSkipWs r with _ | ⟨c0, rr⟩
        · rw [hrm] at hrem
          simp at hrem
        rw [hrm] at hrem
        have hc0 : c0 = ']' := by
          simp only [List.head?] at hrem
          injection hrem
        subst hc0
        obtain ⟨c3, rr3, hr3, hc3⟩ := jSkipWs_src_head r ']' rr hrm
        have hvx : jValue f (cs ++ t) = some (v, r ++ t) := by
          apply ihv _ _ _ t hv
          · intro h0
            rw [h0] at hr3
            simp at hr3
          · intro c r2x hceq
            rw [hr3] at hceq
            injection hceq with he1 he2
            subst he1
            rcases hc3 with hws3 | rfl
            · exact ws_num_facts _ hws3
            · exact (by decide)
        have hlastx : jSkipWs (r ++ t) = (']' :: rr) ++ t := by
          rw [jSkipWs_append_cons r t ']' rr hrm]
          rfl
        refine jItems_build_last f (cs ++ t) v (r ++ t) ((']' :: rr) ++ t)
          hvx hlastx ?_
        intro r2 hq
        simp only [List.cons_append] at hq
        injection hq with hq1 hq2
        exact absurd hq1 (by decide)



theorem braceScan_plain_step (c : Char) (r : List Char) (d : Int) (inStr : Bool)
    (acc : List Char) (hb : c ≠ bsl) (hq : c ≠ qt) (hl : c ≠ lbr) (hr : c ≠ rbr) :
    braceScan (c :: r) d inStr false acc = braceScan r d inStr false (c :: acc) := by
  cases inStr <;> simp [braceScan, scanInStr, hb, hq, hl, hr]

theorem braceScan_plain_chunk (u : List Char) (r : List Char) (d : Int) (inStr : Bool)
    (acc : List Char)
    (hu : ∀ c ∈ u, c ≠ bsl ∧ c ≠ qt ∧ c ≠ lbr ∧ c ≠ rbr) :
    braceScan (u ++ r) d inStr false acc = braceScan r d inStr false (u.reverse ++ acc) := by
  induction u generalizing acc with
  | nil => simp
  | cons c u2 ih =>
    obtain ⟨hb, hq, hl, hrr⟩ := hu c (by simp)
    rw [List.cons_append, braceScan_plain_step c (u2 ++ r) d inStr acc hb hq hl hrr]
    rw [ih (c :: acc) (fun x hx => hu x (by simp [hx]))]
    simp

theorem braceScan_str_step (c : Char) (r : List Char) (d : Int) (acc : List Char)
    (hb : c ≠ bsl) (hq : c ≠ qt) :
    braceScan (c :: r) d true false acc = braceScan r d true false (c :: acc) := by
  simp [braceScan, scanInStr, hb, hq]

theorem braceScan_esc_step (e : Char) (r : List Char) (d : Int) (acc : List Char) :
    braceScan (bsl :: e :: r) d true false acc = braceScan r d true false (e :: bsl :: acc) := by
  simp [braceScan, scanInStr, show bsl ≠ qt from by decide]

theorem braceScan_qt_open (r : List Char) (d : Int) (acc : List Char) :
    braceScan (qt :: r) d false false acc = braceScan r d true false (qt :: acc) := by
  simp [braceScan, scanInStr, show qt ≠ bsl from by decide]

theorem braceScan_qt_close (r : List Char) (d : Int) (acc : List Char) :
    braceScan (qt :: r) d true false acc = braceScan r d false false (qt :: acc) := by
  simp [braceScan, scanInStr, show qt ≠ bsl from by decide,
    show qt ≠ lbr from by decide, show qt ≠ rbr from by decide]

theorem braceScan_lbr_step (r : List Char) (d : Int) (acc : List Char) :
    braceScan (lbr :: r) d false false acc = braceScan r (d + 1) false false (lbr :: acc) := by
  simp [braceScan, scanInStr, show lbr ≠ bsl from by decide, show lbr ≠ qt from by decide]

theorem braceScan_rbr_step (r : List Char) (d : Int) (acc : List Char) (hd : ¬d - 1 = 0) :
    braceScan (rbr :: r) d false false acc = braceScan r (d - 1) false false (rbr :: acc) := by
  simp [braceScan, scanInStr, show rbr ≠ bsl from by decide, show rbr ≠ qt from by decide,
    show rbr ≠ lbr from by decide, hd]

theorem braceScan_rbr_final (r : List Char) (d : Int) (acc : List Char) (hd : d - 1 = 0) :
    braceScan (rbr :: r) d false false acc = some (rbr :: acc).reverse := by
  simp [braceScan, scanInStr, show rbr ≠ bsl from by decide, show rbr ≠ qt from by decide,
    show rbr ≠ lbr from by decide, hd]

theorem isDigit_not_special (c : Char) (h : c.isDigit = true) :
    c ≠ bsl ∧ c ≠ qt ∧ c ≠ lbr ∧ c ≠ rbr := by
  refine ⟨?_, ?_, ?_, ?_⟩ <;> (rintro rfl; revert h; decide)

theorem ws_not_special (c : Char) (h : isJWs c = true) :
    c ≠ bsl ∧ c ≠ qt ∧ c ≠ lbr ∧ c ≠ rbr := by
  simp [isJWs] at h
  rcases h with ((rfl | rfl) | rfl) | rfl <;> exact (by decide)

theorem numTok_not_special (tok : List Char)
    (h : ∀ c ∈ tok, c.isDigit ∨ c = '-' ∨ c = '.' ∨ c = 'e' ∨ c = 'E' ∨ c = '+') :
    ∀ c ∈ tok, c ≠ bsl ∧ c ≠ qt ∧ c ≠ lbr ∧ c ≠ rbr := by
  intro c hc
  rcases h c hc with hd | rfl | rfl | rfl | rfl | rfl
  · exact isDigit_not_special c hd
  all_goals exact (by decide)

theorem hexVal_ne (c : Char) (v : Nat) (h : hexVal c = some v) : c ≠ bsl ∧ c ≠ qt := by
  constructor
  · rintro rfl
    rw [show hexVal bsl = none from by decide] at h
    cases h
  · rintro rfl
    rw [show hexVal qt = none from by decide] at h
    cases h

theorem hex4_chars (a b c2 d : Char) (n : Nat) (h : hex4 a b c2 d = some n) :
    (a ≠ bsl ∧ a ≠ qt) ∧ (b ≠ bsl ∧ b ≠ qt) ∧ (c2 ≠ bsl ∧ c2 ≠ qt) ∧ (d ≠ bsl ∧ d ≠ qt) := by
  unfold hex4 at h
  rcases ha : hexVal a with _ | va <;> rcases hb2 : hexVal b with _ | vb <;>
    rcases hc : hexVal c2 with _ | vc <;> rcases hd : hexVal d with _ | vd <;>
    rw [ha, hb2, hc, hd] at h
  all_goals first
    | exact ⟨hexVal_ne a _ ha, hexVal_ne b _ hb2, hexVal_ne c2 _ hc, hexVal_ne d _ hd⟩
    | simp at h

set_option maxHeartbeats 4000000 in
theorem scanString_brace (fuel : Nat) (l : List Char) (acc0 : List Nat)
    (codes : List Nat) (rest : List Char)
    (h : scanString fuel l acc0 = some (codes, rest)) :
    ∃ pre, l = pre ++ rest ∧ ∀ (d : Int) (acc : List Char),
      braceScan l d true false acc = braceScan rest d false false (pre.reverse ++ acc) := by
  induction fuel, l, acc0 using scanString.induct generalizing codes rest with
  | case1 l acc => simp [scanString] at h
  | case2 n acc => simp [scanString] at h
  | case3 fuel r0 acc =>
    simp [scanString] at h
    obtain ⟨h1, h2⟩ := h
    subst h2
    exact ⟨[qt], rfl, fun d a => braceScan_qt_close _ _ _⟩
  | case4 fuel acc a b c2 d rest2 hx hnq => simp [scanString, hx, hnq] at h
  | case5 fuel acc a b c2 d c hx hr e1 e2 f1 f2 f3 f4 rest4 hb e hx2 hr2 hnq ih =>
    obtain ⟨rfl, rfl⟩ := hb
    simp only [scanString, hx, hr, hx2, hr2, hnq, if_true, if_false, and_self,
      ite_true, ite_false, if_neg, not_false_eq_true] at h
    obtain ⟨pre, hpre, hbs⟩ := ih _ _ h
    obtain ⟨hafacts, hbfacts, hcfacts, hdfacts⟩ := hex4_chars a b c2 d c hx
    obtain ⟨hf1, hf2x, hf3, hf4⟩ := hex4_chars f1 f2 f3 f4 e hx2
    refine ⟨bsl :: 'u' :: a :: b :: c2 :: d :: bsl :: 'u' :: f1 :: f2 :: f3 :: f4 :: pre,
      by simp [hpre], ?_⟩
    intro dep acc2
    rw [braceScan_esc_step,
      braceScan_str_step a _ _ _ hafacts.1 hafacts.2,
      braceScan_str_step b _ _ _ hbfacts.1 hbfacts.2,
      braceScan_str_step c2 _ _ _ hcfacts.1 hcfacts.2,
      braceScan_str_step d _ _ _ hdfacts.1 hdfacts.2,
      braceScan_esc_step,
      braceScan_str_step f1 _ _ _ hf1.1 hf1.2,
      braceScan_str_step f2 _ _ _ hf2x.1 hf2x.2,
      braceScan_str_step f3 _ _ _ hf3.1 hf3.2,
      braceScan_str_step f4 _ _ _ hf4.1 hf4.2,
      hbs dep _]
    simp
  | case6 fuel acc a b c2 d c hx hr e1 e2 f1 f2 f3 f4 rest4 hb e hx2 hr2 hnq ih =>
    obtain ⟨rfl, rfl⟩ := hb
    simp only [scanString, hx, hr, hx2, hr2, hnq, if_true, if_false, and_self,
      ite_true, ite_false, if_neg, not_false_eq_true] at h
    obtain ⟨pre, hpre, hbs⟩ := ih _ _ h
    obtain ⟨hafacts, hbfacts, hcfacts, hdfacts⟩ := hex4_chars a b c2 d c hx
    refine ⟨bsl :: 'u' :: a :: b :: c2 :: d :: pre, by simpa using hpre, ?_⟩
    intro dep acc2
    rw [braceScan_esc_step,
      braceScan_str_step a _ _ _ hafacts.1 hafacts.2,
      braceScan_str_step b _ _ _ hbfacts.1 hbfacts.2,
      braceScan_str_step c2 _ _ _ hcfacts.1 hcfacts.2,
      braceScan_str_step d _ _ _ hdfacts.1 hdfacts.2,
      hbs dep _]
    simp
  | case7 fuel acc a b c2 d c hx hr e1 e2 f1 f2 f3 f4 rest4 hb hx2 hnq =>
    obtain ⟨rfl, rfl⟩ := hb
    simp [scanString, hx, hr, hx2, hnq] at h
  | case8 fuel acc a b c2 d c hx hr e1 e2 f1 f2 f3 f4 rest4 hb hnq ih =>
    simp only [scanString, hx, hr, hb, hnq, if_true, if_false, and_self,
      ite_true, ite_false, if_neg, not_false_eq_true] at h
    obtain ⟨pre, hpre, hbs⟩ := ih _ _ h
    obtain ⟨hafacts, hbfacts, hcfacts, hdfacts⟩ := hex4_chars a b c2 d c hx
    refine ⟨bsl :: 'u' :: a :: b :: c2 :: d :: pre, by simpa using hpre, ?_⟩
    intro dep acc2
    rw [braceScan_esc_step,
      braceScan_str_step a _ _ _ hafacts.1 hafacts.2,
      braceScan_str_step b _ _ _ hbfacts.1 hbfacts.2,
      braceScan_str_step c2 _ _ _ hcfacts.1 hcfacts.2,
      braceScan_str_step d _ _ _ hdfacts.1 hdfacts.2,
      hbs dep _]
    simp
  | case9 fuel acc a b c2 d c hx hr e1 e2 tail hno4 hb hnq =>
    obtain ⟨rfl, rfl⟩ := hb
    simp [scanString, hx, hr, hnq] at h
  | case10 fuel acc a b c2 d c hx hr e1 e2 tail hno4 hb hnq ih =>
    simp only [scanString, hx, hr, hb, hnq, if_true, if_false, and_self,
      ite_true, ite_false, if_neg, not_false_eq_true] at h
    obtain ⟨pre, hpre, hbs⟩ := ih _ _ h
    obtain ⟨hafacts, hbfacts, hcfacts, hdfacts⟩ := hex4_chars a b c2 d c hx
    refine ⟨bsl :: 'u' :: a :: b :: c2 :: d :: pre, by simpa using hpre, ?_⟩
    intro dep acc2
    rw [braceScan_esc_step,
      braceScan_str_step a _ _ _ hafacts.1 hafacts.2,
      braceScan_str_step b _ _ _ hbfacts.1 hbfacts.2,
      braceScan_str_step c2 _ _ _ hcfacts.1 hcfacts.2,
      braceScan_str_step d _ _ _ hdfacts.1 hdfacts.2,
      hbs dep _]
    simp
  | case11 fuel acc a b c2 d rest2 c hx hr hno6 hno2 hnq ih =>
    simp only [scanString, hx, hr, hnq, if_true, if_false, and_self,
      ite_true, ite_false, if_neg, not_false_eq_true] at h
    obtain ⟨pre, hpre, hbs⟩ := ih _ _ h
    obtain ⟨hafacts, hbfacts, hcfacts, hdfacts⟩ := hex4_chars a b c2 d c hx
    refine ⟨bsl :: 'u' :: a :: b :: c2 :: d :: pre, by simpa using hpre, ?_⟩
    intro dep acc2
    rw [braceScan_esc_step,
      braceScan_str_step a _ _ _ hafacts.1 hafacts.2,
      braceScan_str_step b _ _ _ hbfacts.1 hbfacts.2,
      braceScan_str_step c2 _ _ _ hcfacts.1 hcfacts.2,
      braceScan_str_step d _ _ _ hdfacts.1 hdfacts.2,
      hbs dep _]
    simp
  | case12 fuel acc a b c2 d rest2 c hx hr hnq ih =>
    simp only [scanString, hx, hr, hnq, if_true, if_false, and_self,
      ite_true, ite_false, if_neg, not_false_eq_true] at h
    obtain ⟨pre, hpre, hbs⟩ := ih _ _ h
    obtain ⟨hafacts, hbfacts, hcfacts, hdfacts⟩ := hex4_chars a b c2 d c hx
    refine ⟨bsl :: 'u' :: a :: b :: c2 :: d :: pre, by simpa using hpre, ?_⟩
    intro dep acc2
    rw [braceScan_esc_step,
      braceScan_str_step a _ _ _ hafacts.1 hafacts.2,
      braceScan_str_step b _ _ _ hbfacts.1 hbfacts.2,
      braceScan_str_step c2 _ _ _ hcfacts.1 hcfacts.2,
      braceScan_str_step d _ _ _ hdfacts.1 hdfacts.2,
      hbs dep _]
    simp
  | case13 fuel acc e rest2 hno code hesc hnq ih =>
    simp only [scanString, hesc, hnq, if_true, if_false, and_self,
      ite_true, ite_false, if_neg, not_false_eq_true] at h
    obtain ⟨pre, hpre, hbs⟩ := ih _ _ h
    refine ⟨bsl :: e :: pre, by simpa using hpre, ?_⟩
    intro dep acc2
    rw [braceScan_esc_step, hbs dep _]
    simp
  | case14 fuel acc e rest2 hno hesc hnq => simp [scanString, hesc, hnq, hno] at h
  | case15 fuel acc hnq => simp [scanString, hnq] at h
  | case16 fuel c r0 acc hq hb hctrl => simp [scanString, hq, hb, hctrl] at h
  | case17 fuel c r0 acc hq hb hctrl ih =>
    simp only [scanString, hq, hb, hctrl, if_true, if_false,
      ite_true, ite_false, if_neg, not_false_eq_true] at h
    obtain ⟨pre, hpre, hbs⟩ := ih _ _ h
    refine ⟨c :: pre, by simpa using hpre, ?_⟩
    intro dep acc2
    rw [braceScan_str_step c _ _ _ hb hq, hbs dep _]
    simp

set_option maxHeartbeats 4000000 in
theorem jscan_brace (fuel : Nat) :
    (∀ cs v rem, jValue fuel cs = some (v, rem) → ∃ pre, cs = pre ++ rem ∧
      ∀ (d : Int) (acc : List Char), 1 ≤ d →
        braceScan cs d false false acc = braceScan rem d false false (pre.reverse ++ acc)) ∧
    (∀ cs fs rem, jMembers fuel cs = some (fs, rem) → ∃ pre, cs = pre ++ rem ∧
      ∀ (d : Int) (acc : List Char), 1 ≤ d →
        braceScan cs d false false acc = braceScan rem d false false (pre.reverse ++ acc)) ∧
    (∀ cs vs rem, jItems fuel cs = some (vs, rem) → ∃ pre, cs = pre ++ rem ∧
      ∀ (d : Int) (acc : List Char), 1 ≤ d →
        braceScan cs d false false acc = braceScan rem d false false (pre.reverse ++ acc)) := by
  induction fuel with
  | zero =>
    refine ⟨?_, ?_, ?_⟩ <;> intro cs a rem h <;> simp [jValue, jMembers, jItems] at h
  | succ f ih =>
    obtain ⟨ihv, ihm, ihi⟩ := ih
    refine ⟨?_, ?_, ?_⟩
    · intro cs v rem h
      rcases jValue_succ_cases f cs v rem h with
        ⟨r, s, r2, rfl, hs, rfl, rfl⟩ |
        ⟨r, r1, rfl, hws, rfl, rfl⟩ |
        ⟨r, c1, r1, fs, r3, rfl, hws, hc1, hm, rfl, rfl⟩ |
        ⟨r, r1, rfl, hws, rfl, rfl⟩ |
        ⟨r, c1, r1, vs, r3, rfl, hws, hc1, hi, rfl, rfl⟩ |
        ⟨rfl, rfl⟩ | ⟨rfl, rfl⟩ | ⟨rfl, rfl⟩ |
        ⟨tok, hn, rfl⟩ |
        ⟨rfl, rfl⟩ | ⟨rfl, rfl⟩ | ⟨rfl, rfl⟩
      · obtain ⟨pre_s, hpre, hbs⟩ := scanString_brace _ _ _ _ _ hs
        refine ⟨qt :: pre_s, by simp [hpre], ?_⟩
        intro dep acc hd
        rw [braceScan_qt_open, hbs dep (qt :: acc)]
        simp
      · obtain ⟨w, hw, hwall⟩ := jSkipWs_split r
        rw [hws] at hw
        refine ⟨lbr :: (w ++ [rbr]), by simp [hw], ?_⟩
        intro dep acc hd
        rw [show lbr :: r = lbr :: (w ++ (rbr :: rem)) from by rw [← hw]]
        rw [braceScan_lbr_step]
        rw [braceScan_plain_chunk w _ _ _ _ (fun c hc => ws_not_special c (hwall c hc))]
        rw [braceScan_rbr_step _ _ _ (by omega)]
        rw [show (dep + 1 - 1 : Int) = dep from by ring]
        simp
      · obtain ⟨w, hw, hwall⟩ := jSkipWs_split r
        rw [hws] at hw
        obtain ⟨pre_m, hpre_m, hbs_m⟩ := ihm _ _ _ hm
        refine ⟨lbr :: (w ++ pre_m ++ [rbr]), ?_, ?_⟩
        · rw [List.cons_append]
          rw [show r = w ++ (c1 :: r1) from hw, hpre_m]
          simp
        · intro dep acc hd
          rw [show lbr :: r = lbr :: (w ++ (c1 :: r1)) from by rw [← hw]]
          rw [braceScan_lbr_step]
          rw [braceScan_plain_chunk w _ _ _ _ (fun c hc => ws_not_special c (hwall c hc))]
          rw [hbs_m (dep + 1) _ (by omega)]
          rw [show pre_m ++ (rbr :: rem) = (pre_m ++ [rbr]) ++ rem from by simp] at hpre_m
          rw [braceScan_rbr_step _ _ _ (by omega)]
          rw [show (dep + 1 - 1 : Int) = dep from by ring]
          simp
      · obtain ⟨w, hw, hwall⟩ := jSkipWs_split r
        rw [hws] at hw
        refine ⟨'[' :: (w ++ [']']), by simp [hw], ?_⟩
        intro dep acc hd
        rw [show '[' :: r = '[' :: (w ++ (']' :: rem)) from by rw [← hw]]
        rw [braceScan_plain_step '[' _ _ _ _ (by decide) (by decide) (by decide) (by decide)]
        rw [braceScan_plain_chunk w _ _ _ _ (fun c hc => ws_not_special c (hwall c hc))]
        rw [braceScan_plain_step ']' _ _ _ _ (by decide) (by decide) (by decide) (by decide)]
        simp
      · obtain ⟨w, hw, hwall⟩ := jSkipWs_split r
        rw [hws] at hw
        obtain ⟨pre_i, hpre_i, hbs_i⟩ := ihi _ _ _ hi
        refine ⟨'[' :: (w ++ pre_i ++ [']']), ?_, ?_⟩
        · rw [List.cons_append]
          rw [show r = w ++ (c1 :: r1) from hw, hpre_i]
          simp
        · intro dep acc hd
          rw [show '[' :: r = '[' :: (w ++ (c1 :: r1)) from by rw [← hw]]
          rw [braceScan_plain_step '[' _ _ _ _ (by decide) (by decide) (by decide) (by decide)]
          rw [braceScan_plain_chunk w _ _ _ _ (fun c hc => ws_not_special c (hwall c hc))]
          rw [hbs_i dep _ hd]
          rw [braceScan_plain_step ']' _ _ _ _ (by decide) (by decide) (by decide) (by decide)]
          simp
      · refine ⟨nullTok, rfl, ?_⟩
        intro dep acc hd
        rw [braceScan_plain_chunk nullTok _ _ _ _ (by decide)]
      · refine ⟨trueTok, rfl, ?_⟩
        intro dep acc hd
        rw [braceScan_plain_chunk trueTok _ _ _ _ (by decide)]
      · refine ⟨falseTok, rfl, ?_⟩
        intro dep acc hd
        rw [braceScan_plain_chunk falseTok _ _ _ _ (by decide)]
      · obtain ⟨he, hchars⟩ := scanNumber_eq cs tok rem hn
        refine ⟨tok, he, ?_⟩
        intro dep acc hd
        rw [he, braceScan_plain_chunk tok _ _ _ _ (numTok_not_special tok hchars)]
      · refine ⟨nanTok, rfl, ?_⟩
        intro dep acc hd
        rw [braceScan_plain_chunk nanTok _ _ _ _ (by decide)]
      · refine ⟨infTok, rfl, ?_⟩
        intro dep acc hd
        rw [braceScan_plain_chunk infTok _ _ _ _ (by decide)]
      · refine ⟨ninfTok, rfl, ?_⟩
        intro dep acc hd
        rw [braceScan_plain_chunk ninfTok _ _ _ _ (by decide)]
    · intro cs fs rem h
      obtain ⟨r, key, r1, r2, v, r3, rfl, hs, hw1, hv, hbr⟩ := jMembers_succ_cases f cs fs rem h
      obtain ⟨pre_s, hpre_s, hbs_s⟩ := scanString_brace _ _ _ _ _ hs
      obtain ⟨w1, hw1e, hw1all⟩ := jSkipWs_split r1
      rw [hw1] at hw1e
      obtain ⟨pre_v, hpre_v, hbs_v⟩ := ihv _ _ _ hv
      obtain ⟨w2, hw2e, hw2all⟩ := jSkipWs_split r2
      rw [hpre_v] at hw2e
      rcases hbr with ⟨r4, fs2, r5, hcm, hm2, rfl, rfl⟩ | ⟨hlast, hnc, rfl⟩
      · obtain ⟨w3, hw3e, hw3all⟩ := jSkipWs_split r3
        rw [hcm] at hw3e
        obtain ⟨pre_r, hpre_r, hbs_r⟩ := ihm _ _ _ hm2
        obtain ⟨w4, hw4e, hw4all⟩ := jSkipWs_split r4
        rw [hpre_r] at hw4e
        refine ⟨qt :: (pre_s ++ w1 ++ [':'] ++ w2 ++ pre_v ++ w3 ++ [','] ++ w4 ++ pre_r),
          ?_, ?_⟩
        · rw [List.cons_append, hpre_s, hw1e, hw2e, hw3e, hw4e]
          simp
        · intro dep acc hd
          rw [braceScan_qt_open, hbs_s dep (qt :: acc)]
          rw [show r1 = w1 ++ (':' :: r2) from hw1e]
          rw [braceScan_plain_chunk w1 _ _ _ _ (fun c hc => ws_not_special c (hw1all c hc))]
          rw [braceScan_plain_step ':' _ _ _ _ (by decide) (by decide) (by decide) (by decide)]
          rw [show r2 = w2 ++ jSkipWs r2 from by rw [hpre_v]; exact hw2e]
          rw [braceScan_plain_chunk w2 _ _ _ _ (fun c hc => ws_not_special c (hw2all c hc))]
          rw [hbs_v dep _ hd]
          rw [show r3 = w3 ++ (',' :: r4) from hw3e]
          rw [braceScan_plain_chunk w3 _ _ _ _ (fun c hc => ws_not_special c (hw3all c hc))]
          rw [braceScan_plain_step ',' _ _ _ _ (by decide) (by decide) (by decide) (by decide)]
          rw [show r4 = w4 ++ jSkipWs r4 from by rw [hpre_r]; exact hw4e]
          rw [braceScan_plain_chunk w4 _ _ _ _ (fun c hc => ws_not_special c (hw4all c hc))]
          rw [hbs_r dep _ hd]
          simp
      · obtain ⟨w3, hw3e, hw3all⟩ := jSkipWs_split r3
        rw [hlast] at hw3e
        refine ⟨qt :: (pre_s ++ w1 ++ [':'] ++ w2 ++ pre_v ++ w3), ?_, ?_⟩
        · rw [List.cons_append, hpre_s, hw1e, hw2e, hw3e]
          simp
        · intro dep acc hd
          rw [braceScan_qt_open, hbs_s dep (qt :: acc)]
          rw [show r1 = w1 ++ (':' :: r2) from hw1e]
          rw [braceScan_plain_chunk w1 _ _ _ _ (fun c hc => ws_not_special c (hw1all c hc))]
          rw [braceScan_plain_step ':' _ _ _ _ (by decide) (by decide) (by decide) (by decide)]
          rw [show r2 = w2 ++ jSkipWs r2 from by rw [hpre_v]; exact hw2e]
          rw [braceScan_plain_chunk w2 _ _ _ _ (fun c hc => ws_not_special c (hw2all c hc))]
          rw [hbs_v dep _ hd]
          rw [show r3 = w3 ++ rem from hw3e]
          rw [braceScan_plain_chunk w3 _ _ _ _ (fun c hc => ws_not_special c (hw3all c hc))]
          simp
    · intro cs vs rem h
      obtain ⟨v, r, hv, hbr⟩ := jItems_succ_cases f cs vs rem h
      obtain ⟨pre_v, hpre_v, hbs_v⟩ := ihv _ _ _ hv
      rcases hbr with ⟨r2, vs2, r3, hcm, hi2, rfl, rfl⟩ | ⟨hrem_eq, hnc, rfl⟩
      · obtain ⟨w1, hw1e, hw1all⟩ := jSkipWs_split r
        rw [hcm] at hw1e
        obtain ⟨pre_r, hpre_r, hbs_r⟩ := ihi _ _ _ hi2
        obtain ⟨w2, hw2e, hw2all⟩ := jSkipWs_split r2
        rw [hpre_r] at hw2e
        refine ⟨pre_v ++ w1 ++ [','] ++ w2 ++ pre_r, ?_, ?_⟩
        · rw [hpre_v, hw1e, hw2e]
          simp
        · intro dep acc hd
          rw [hbs_v dep _ hd]
          rw [show r = w1 ++ (',' :: r2) from hw1e]
          rw [braceScan_plain_chunk w1 _ _ _ _ (fun c hc => ws_not_special c (hw1all c hc))]
          rw [braceScan_plain_step ',' _ _ _ _ (by decide) (by decide) (by decide) (by decide)]
          rw [show r2 = w2 ++ jSkipWs r2 from by rw [hpre_r]; exact hw2e]
          rw [braceScan_plain_chunk w2 _ _ _ _ (fun c hc => ws_not_special c (hw2all c hc))]
          rw [hbs_r dep _ hd]
          simp
      · obtain ⟨w1, hw1e, hw1all⟩ := jSkipWs_split r
        rw [← hrem_eq] at hw1e
        refine ⟨pre_v ++ w1, ?_, ?_⟩
        · rw [hpre_v, hw1e]
          simp
        · intro dep acc hd
          rw [hbs_v dep _ hd]
          rw [show r = w1 ++ rem from hw1e]
          rw [braceScan_plain_chunk w1 _ _ _ _ (fun c hc => ws_not_special c (hw1all c hc))]
          simp

theorem jValue_none_of_head (fuel : Nat) (c : Char) (r : List Char)
    (hqt : c ≠ qt) (hlb : c ≠ lbr) (hlq : c ≠ '[') (hm : c ≠ '-') (h0 : c ≠ '0')
    (hd : c.isDigit = false) (hn : c ≠ 'n') (ht : c ≠ 't') (hf : c ≠ 'f')
    (hN : c ≠ 'N') (hI : c ≠ 'I') :
    jValue fuel (c :: r) = none := by
  cases fuel with
  | zero => simp [jValue]
  | succ f =>
    have hnull : nullTok.isPrefixOf (c :: r) = false := by
      rw [show nullTok = ('n' :: 'u' :: 'l' :: 'l' :: ([] : List Char)) from rfl]
      exact isPrefixOf_head_ne _ _ _ _ (Ne.symm hn)
    have htrue : trueTok.isPrefixOf (c :: r) = false := by
      rw [show trueTok = ('t' :: 'r' :: 'u' :: 'e' :: ([] : List Char)) from rfl]
      exact isPrefixOf_head_ne _ _ _ _ (Ne.symm ht)
    have hfalse : falseTok.isPrefixOf (c :: r) = false := by
      rw [show falseTok = ('f' :: 'a' :: 'l' :: 's' :: 'e' :: ([] : List Char)) from rfl]
      exact isPrefixOf_head_ne _ _ _ _ (Ne.symm hf)
    have hnan : nanTok.isPrefixOf (c :: r) = false := by
      rw [show nanTok = ('N' :: 'a' :: 'N' :: ([] : List Char)) from rfl]
      exact isPrefixOf_head_ne _ _ _ _ (Ne.symm hN)
    have hinf : infTok.isPrefixOf (c :: r) = false := by
      rw [show infTok = ('I' :: 'n' :: 'f' :: 'i' :: 'n' :: 'i' :: 't' :: 'y' :: ([] : List Char)) from rfl]
      exact isPrefixOf_head_ne _ _ _ _ (Ne.symm hI)
    have hninf : ninfTok.isPrefixOf (c :: r) = false := by
      rw [show ninfTok = ('-' :: 'I' :: 'n' :: 'f' :: 'i' :: 'n' :: 'i' :: 't' :: 'y' :: ([] : List Char)) from rfl]
      exact isPrefixOf_head_ne _ _ _ _ (Ne.symm hm)
    have hnum : scanNumber (c :: r) = none := scanNumber_none_head c r hm h0 (by simp [hd])
    rw [jValue.eq_def]
    dsimp only
    rw [if_neg hqt, if_neg hlb, if_neg hlq, if_neg (by simp [hnull]),
      if_neg (by simp [htrue]), if_neg (by simp [hfalse]), hnum,
      if_neg (by simp [hnan]), if_neg (by simp [hinf]), if_neg (by simp [hninf])]

theorem jValue_lbr_obj (fuel : Nat) (u : List Char) (v : Json) (rem : List Char)
    (h : jValue fuel (lbr :: u) = some (v, rem)) : ∃ fs, v = .obj fs := by
  cases fuel with
  | zero => simp [jValue] at h
  | succ f =>
    rcases jValue_succ_cases f (lbr :: u) v rem h with
      ⟨r, s, r2, heq, -, -, -⟩ | ⟨r, r1, heq, -, hv, -⟩ |
      ⟨r, c1, r1, fs, r3, heq, -, -, -, hv, -⟩ | ⟨r, r1, heq, -, -, -⟩ |
      ⟨r, c1, r1, vs, r3, heq, -, -, -, -, -⟩ |
      ⟨heq, -⟩ | ⟨heq, -⟩ | ⟨heq, -⟩ | ⟨tok, hnum, -⟩ | ⟨heq, -⟩ | ⟨heq, -⟩ | ⟨heq, -⟩
    · exact absurd (List.head_eq_of_cons_eq heq) (by decide)
    · exact ⟨.nil, hv⟩
    · exact ⟨fs, hv⟩
    · exact absurd (List.head_eq_of_cons_eq heq) (by decide)
    · exact absurd (List.head_eq_of_cons_eq heq) (by decide)
    · exact absurd (List.head_eq_of_cons_eq heq) (by decide)
    · exact absurd (List.head_eq_of_cons_eq heq) (by decide)
    · exact absurd (List.head_eq_of_cons_eq heq) (by decide)
    · rcases scanNumber_cases _ _ _ hnum with
        ⟨r0, ip, r2, fp, r3, ep, heq, -, -, -, -⟩ | ⟨-, ip, r2, fp, r3, ep, hip, -, -, -⟩
      · exact absurd (List.head_eq_of_cons_eq heq) (by decide)
      · obtain ⟨-, hipne, hall⟩ := scanIntPart_eq _ _ _ hip
        rcases ip with _ | ⟨d0, ip2⟩
        · exact absurd rfl hipne
        · obtain ⟨he0, -⟩ := scanIntPart_eq _ _ _ hip
          have : d0 = lbr := (List.head_eq_of_cons_eq he0.symm)
          subst this
          exact absurd (hall lbr (by simp)) (by decide)
    · exact absurd (List.head_eq_of_cons_eq heq) (by decide)
    · exact absurd (List.head_eq_of_cons_eq heq) (by decide)
    · exact absurd (List.head_eq_of_cons_eq heq) (by decide)

set_option maxHeartbeats 2000000 in
theorem braceScan_top (f : Nat) (u : List Char) (v : Json)
    (h : jValue (f + 1) (lbr :: u) = some (v, [])) :
    braceScan (lbr :: u) 0 false false [] = some (lbr :: u) := by
  rcases jValue_succ_cases f (lbr :: u) v [] h with
    ⟨r, s, r2, heq, -, -, -⟩ | ⟨r, r1, heq, hws, -, rfl⟩ |
    ⟨r, c1, r1, fs, r3, heq, hws, hc1, hm, -, rfl⟩ | ⟨r, r1, heq, -, -, -⟩ |
    ⟨r, c1, r1, vs, r3, heq, -, -, -, -, -⟩ |
    ⟨heq, -⟩ | ⟨heq, -⟩ | ⟨heq, -⟩ | ⟨tok, hnum, -⟩ | ⟨heq, -⟩ | ⟨heq, -⟩ | ⟨heq, -⟩
  · exact absurd (List.head_eq_of_cons_eq heq) (by decide)
  · -- empty object
    injection heq with hh h2
    subst h2
    obtain ⟨w, hw, hwall⟩ := jSkipWs_split u
    rw [hws] at hw
    rw [show lbr :: u = lbr :: (w ++ (rbr :: ([] : List Char))) from by rw [← hw]]
    rw [braceScan_lbr_step]
    rw [braceScan_plain_chunk w _ _ _ _ (fun c hc => ws_not_special c (hwall c hc))]
    rw [braceScan_rbr_final _ _ _ (by ring)]
    simp [hw]
  · -- nonempty object
    injection heq with hh h2
    subst h2
    obtain ⟨w, hw, hwall⟩ := jSkipWs_split u
    rw [hws] at hw
    obtain ⟨pre_m, hpre_m, hbs_m⟩ := (jscan_brace f).2.1 _ _ _ hm
    rw [show lbr :: u = lbr :: (w ++ (c1 :: r1)) from by rw [← hw]]
    rw [braceScan_lbr_step]
    rw [braceScan_plain_chunk w _ _ _ _ (fun c hc => ws_not_special c (hwall c hc))]
    rw [hbs_m (0 + 1) _ (by omega)]
    rw [braceScan_rbr_final _ _ _ (by ring)]
    simp [hw, hpre_m]
  · exact absurd (List.head_eq_of_cons_eq heq) (by decide)
  · exact absurd (List.head_eq_of_cons_eq heq) (by decide)
  · exact absurd (List.head_eq_of_cons_eq heq) (by decide)
  · exact absurd (List.head_eq_of_cons_eq heq) (by decide)
  · exact absurd (List.head_eq_of_cons_eq heq) (by decide)
  · rcases scanNumber_cases _ _ _ hnum with
      ⟨r0, ip, r2, fp, r3, ep, heq, -, -, -, -⟩ | ⟨-, ip, r2, fp, r3, ep, hip, -, -, -⟩
    · exact absurd (List.head_eq_of_cons_eq heq) (by decide)
    · obtain ⟨he0, hipne, hall⟩ := scanIntPart_eq _ _ _ hip
      rcases ip with _ | ⟨d0, ip2⟩
      · exact absurd rfl hipne
      · have : d0 = lbr := (List.head_eq_of_cons_eq he0.symm)
        subst this
        exact absurd (hall lbr (by simp)) (by decide)
  · exact absurd (List.head_eq_of_cons_eq heq) (by decide)
  · exact absurd (List.head_eq_of_cons_eq heq) (by decide)
  · exact absurd (List.head_eq_of_cons_eq heq) (by decide)



theorem lStripBoth_noop (c0 : Char) (u : List Char) (c1 : Char)
    (hc0 : isPySpace c0 = false)
    (hl : (c0 :: u).getLast? = some c1) (hc1 : isPySpace c1 = false) :
    lStripBoth (c0 :: u) = c0 :: u := by
  unfold lStripBoth
  rw [List.dropWhile_cons_of_neg (by simp [hc0])]
  have hrevhead : (c0 :: u).reverse.head? = some c1 := by
    rw [List.head?_reverse]
    exact hl
  rcases hrev : (c0 :: u).reverse with _ | ⟨b, w⟩
  · simp at hrev
  rw [hrev] at hrevhead
  simp only [List.head?] at hrevhead
  injection hrevhead with hb
  subst hb
  rw [List.dropWhile_cons_of_neg (by simp [hc1]), ← hrev]
  simp

theorem lStrip_sandwich (w1 w2 : List Char) (c0 : Char) (u : List Char) (c1 : Char)
    (hw1 : ∀ c ∈ w1, isPySpace c = true) (hw2 : ∀ c ∈ w2, isPySpace c = true)
    (hc0 : isPySpace c0 = false)
    (hl : (c0 :: u).getLast? = some c1) (hc1 : isPySpace c1 = false) :
    lStripBoth (w1 ++ (c0 :: u) ++ w2) = c0 :: u := by
  have hw1eq : w1.dropWhile isPySpace = [] := by
    rw [List.dropWhile_eq_nil_iff]
    intro x hx
    exact hw1 x hx
  have hw2eq : w2.reverse.dropWhile isPySpace = [] := by
    rw [List.dropWhile_eq_nil_iff]
    intro x hx
    exact hw2 x (by simpa using hx)
  unfold lStripBoth
  have h1 : (w1 ++ (c0 :: u) ++ w2).dropWhile isPySpace = (c0 :: u) ++ w2 := by
    rw [List.append_assoc, List.dropWhile_append, if_pos (by simp [hw1eq])]
    rw [List.dropWhile_append]
    rw [List.dropWhile_cons_of_neg (by simp [hc0])]
    simp
  rw [h1]
  have hrevhead : (c0 :: u).reverse.head? = some c1 := by
    rw [List.head?_reverse]
    exact hl
  rcases hrev : (c0 :: u).reverse with _ | ⟨b, w⟩
  · simp at hrev
  rw [hrev] at hrevhead
  simp only [List.head?] at hrevhead
  injection hrevhead with hb
  subst hb
  have h2 : ((c0 :: u) ++ w2).reverse.dropWhile isPySpace = b :: w := by
    rw [List.reverse_append, hrev, List.dropWhile_append, if_pos (by simp [hw2eq])]
    rw [List.dropWhile_cons_of_neg (by simp [hc1])]
  rw [h2, ← hrev]
  simp

theorem dropFencePre_json (rest : List Char) :
    dropFencePre (fenceJsonTok ++ rest) = rest := by
  unfold dropFencePre
  rw [if_pos (isPrefixOf_append_true fenceJsonTok fenceJsonTok rest (by decide))]
  rw [show (7 : Nat) = fenceJsonTok.length from rfl, List.drop_left]

theorem dropFencePre_fence (rest : List Char)
    (hnj : fenceJsonTok.isPrefixOf (fenceTok ++ rest) = false) :
    dropFencePre (fenceTok ++ rest) = rest := by
  unfold dropFencePre
  rw [if_neg (by simp [hnj])]
  rw [if_pos (isPrefixOf_append_true fenceTok fenceTok rest (by decide))]
  rw [show (3 : Nat) = fenceTok.length from rfl, List.drop_left]

theorem dropFencePre_noop (c : Char) (r : List Char) (hc : c ≠ btick) :
    dropFencePre (c :: r) = c :: r := by
  unfold dropFencePre
  rw [if_neg (by
    rw [show fenceJsonTok = btick :: ('\x60' :: '\x60' :: 'j' :: 's' :: 'o' :: 'n' :: ([] : List Char)) from rfl]
    simp [isPrefixOf_head_ne _ _ _ _ (Ne.symm hc)])]
  rw [if_neg (by
    rw [show fenceTok = btick :: ('\x60' :: '\x60' :: ([] : List Char)) from rfl]
    simp [isPrefixOf_head_ne _ _ _ _ (Ne.symm hc)])]

theorem dropFenceSuf_fence (x : List Char) :
    dropFenceSuf (x ++ fenceTok) = x := by
  unfold dropFenceSuf
  rw [if_pos (by
    show (fenceTok.reverse.isPrefixOf (x ++ fenceTok).reverse) = true
    rw [List.reverse_append]
    exact isPrefixOf_append_true _ _ _ (by decide))]
  rw [show (x ++ fenceTok).length - 3 = x.length from by simp [fenceTok], List.take_left]

theorem dropFenceSuf_noop (l : List Char) (c : Char)
    (hl : l.getLast? = some c) (hc : c ≠ btick) :
    dropFenceSuf l = l := by
  unfold dropFenceSuf
  rw [if_neg ?_]
  show ¬fenceTok.reverse.isPrefixOf l.reverse = true
  have hrevhead : l.reverse.head? = some c := by
    rw [List.head?_reverse]
    exact hl
  rcases hrev : l.reverse with _ | ⟨b, w⟩
  · rw [hrev] at hrevhead
    simp at hrevhead
  rw [hrev] at hrevhead
  simp only [List.head?] at hrevhead
  injection hrevhead with hb
  subst hb
  rw [show fenceTok.reverse = btick :: ('\x60' :: '\x60' :: ([] : List Char)) from rfl]
  simp [isPrefixOf_head_ne _ _ _ _ (Ne.symm hc)]

theorem jLoadsL_obj_val (u : List Char) (v : Json)
    (hj : jValue ((lbr :: u).length + 1) (lbr :: u) = some (v, [])) :
    jLoadsL (lbr :: u) = .val v := by
  unfold jLoadsL
  rw [jSkipWs_cons_neg u (by decide)]
  rw [hj]
  simp [jSkipWs]

theorem jLoadsL_btick_fail (r : List Char) : jLoadsL (btick :: r) = .fail := by
  unfold jLoadsL
  rw [jSkipWs_cons_neg r (by decide)]
  rw [jValue_none_of_head (((btick :: r).length + 1)) btick r (by decide) (by decide)
    (by decide) (by decide) (by decide) (by decide) (by decide) (by decide) (by decide)
    (by decide) (by decide)]

theorem parseJsonLoop_step_fail (orig cur : List Char) (n : Nat)
    (h : jLoadsL cur = .fail) :
    parseJsonLoop orig cur (n + 2) = parseJsonLoop orig (cleanFences cur) (n + 1) := by
  conv_lhs => rw [parseJsonLoop.eq_def]
  dsimp only
  rw [h]

theorem parseJsonLoop_step_val (orig cur : List Char) (n : Nat) (v : Json)
    (h : jLoadsL cur = .val v) :
    parseJsonLoop orig cur (n + 2) = some v := by
  conv_lhs => rw [parseJsonLoop.eq_def]
  dsimp only
  rw [h]

theorem parseJsonLoop_one_val (orig cur : List Char) (v : Json)
    (h : jLoadsL cur = .val v) :
    parseJsonLoop orig cur 1 = some v := by
  conv_lhs => rw [parseJsonLoop.eq_def]
  dsimp only
  rw [h]

theorem parseJsonLoop_one_fail (orig cur : List Char)
    (h : jLoadsL cur = .fail) :
    parseJsonLoop orig cur 1 = braceExtract orig := by
  conv_lhs => rw [parseJsonLoop.eq_def]
  dsimp only
  rw [h]

theorem parseJsonLoop_step_extra (orig cur : List Char) (n : Nat) (v : Json)
    (h : jLoadsL cur = .extra) (h2 : jRawDecodeL cur = some v) :
    parseJsonLoop orig cur (n + 2) = some v := by
  conv_lhs => rw [parseJsonLoop.eq_def]
  dsimp only
  rw [h]
  dsimp only
  rw [h2]

theorem braceCandidate_clean (p u : List Char) (hp : lbr ∉ p) :
    braceCandidate (p ++ (lbr :: u)) = braceScan (lbr :: u) 0 false false [] := by
  have hdw : (p ++ (lbr :: u)).dropWhile (fun c => c ≠ lbr) = lbr :: u := by
    induction p with
    | nil => simp [List.dropWhile]
    | cons c p2 ih =>
      have hc : c ≠ lbr := fun hx => hp (by simp [hx])
      rw [List.cons_append, List.dropWhile_cons_of_pos (by simp [hc])]
      exact ih (fun hx => hp (by simp [hx]))
  unfold braceCandidate
  rw [hdw]

theorem braceExtract_clean (p u : List Char) (v : Json) (hp : lbr ∉ p)
    (hj : jValue ((lbr :: u).length + 1) (lbr :: u) = some (v, [])) :
    braceExtract (p ++ (lbr :: u)) = some v := by
  unfold braceExtract
  rw [braceCandidate_clean p u hp]
  rw [braceScan_top (u.length + 1) u v hj]
  dsimp only
  rw [jLoadsL_obj_val u v hj]

theorem sdata_append (a b : String) : (a ++ b).data = a.data ++ b.data := rfl

theorem dropWhile_head_false (P : Char → Bool) (l : List Char) (c : Char) (r : List Char)
    (h : l.dropWhile P = c :: r) : P c = false := by
  induction l with
  | nil => simp at h
  | cons a l2 ih =>
    by_cases ha : P a
    · rw [List.dropWhile_cons_of_pos ha] at h
      exact ih h
    · rw [List.dropWhile_cons_of_neg ha] at h
      injection h with h1 h2
      subst h1
      simpa using ha

set_option maxHeartbeats 4000000 in
/-- C4: `_parse_json` recovers a top-level JSON object from raw text, from
markdown-fenced text (with or without the `json` language tag), and from text
with trailing prose; leading prose is tolerated when it contains no opening
brace and no backtick and both the raw and the stripped text fail direct
parsing (the final fallback scans for the first top-level brace span). -/
theorem c4_parse_json_tolerance (j : String) (v : Json)
    (hj : jValue (j.data.length + 1) j.data = some (v, []))
    (hhead : j.data.head? = some lbr)
    (hlast : j.data.getLast? = some rbr) :
    parse_json j = some v ∧
    parse_json ("```json\n" ++ j ++ "\n```") = some v ∧
    parse_json ("```\n" ++ j ++ "\n```") = some v ∧
    (∀ p : String, parse_json (j ++ p) = some v) ∧
    (∀ p : String, lbr ∉ p.data → btick ∉ p.data →
      jLoadsL (p.data ++ j.data) = .fail →
      jLoadsL (lStripBoth (p.data ++ j.data)) = .fail →
      parse_json (p ++ j) = some v) := by
  rcases hdata : j.data with _ | ⟨c0, u⟩
  · rw [hdata] at hhead
    simp at hhead
  rw [hdata] at hhead
  simp only [List.head?] at hhead
  injection hhead with hc0
  subst hc0
  rw [hdata] at hj hlast
  have hload : jLoadsL j.data = .val v := by
    rw [hdata]
    exact jLoadsL_obj_val u v hj
  have hobj : ∃ fs, v = .obj fs := jValue_lbr_obj _ u v [] hj
  refine ⟨?_, ?_, ?_, ?_, ?_⟩
  · -- plain
    unfold parse_json
    rw [show (3 : Nat) = 1 + 2 from rfl]
    exact parseJsonLoop_step_val _ _ 1 v hload
  · -- json fence
    have h2data : ("```json\n" ++ j ++ "\n```").data =
        fenceJsonTok ++ ('\n' :: (j.data ++ ('\n' :: fenceTok))) := by
      rw [sdata_append, sdata_append]
      rw [show ("```json\n" : String).data = fenceJsonTok ++ ['\n'] from rfl,
        show ("\n```" : String).data = '\n' :: fenceTok from rfl]
      simp
    have hfail1 : jLoadsL (("```json\n" ++ j ++ "\n```").data) = .fail := by
      rw [h2data]
      rw [show fenceJsonTok ++ ('\n' :: (j.data ++ ('\n' :: fenceTok))) =
        btick :: (('\x60' :: '\x60' :: 'j' :: 's' :: 'o' :: 'n' :: ([] : List Char)) ++
          ('\n' :: (j.data ++ ('\n' :: fenceTok)))) from rfl]
      exact jLoadsL_btick_fail _
    have hclean : cleanFences (("```json\n" ++ j ++ "\n```").data) = j.data := by
      unfold cleanFences
      rw [h2data]
      have hstrip1 : lStripBoth (fenceJsonTok ++ ('\n' :: (j.data ++ ('\n' :: fenceTok)))) =
          fenceJsonTok ++ ('\n' :: (j.data ++ ('\n' :: fenceTok))) := by
        rw [show fenceJsonTok ++ ('\n' :: (j.data ++ ('\n' :: fenceTok))) =
          btick :: (('\x60' :: '\x60' :: 'j' :: 's' :: 'o' :: 'n' :: ([] : List Char)) ++
            ('\n' :: (j.data ++ ('\n' :: fenceTok)))) from rfl]
        apply lStripBoth_noop _ _ btick (by decide) ?_ (by decide)
        rw [show btick :: (('\x60' :: '\x60' :: 'j' :: 's' :: 'o' :: 'n' :: ([] : List Char)) ++
            ('\n' :: (j.data ++ ('\n' :: fenceTok)))) =
          (btick :: ('\x60' :: '\x60' :: 'j' :: 's' :: 'o' :: 'n' :: ([] : List Char)) ++
            ('\n' :: j.data) ++ ['\n']) ++ fenceTok from by simp]
        rw [List.getLast?_append, show fenceTok.getLast? = some btick from by decide]
        rfl
      rw [hstrip1, dropFencePre_json]
      rw [show '\n' :: (j.data ++ ('\n' :: fenceTok)) =
        (('\n' :: j.data) ++ ['\n']) ++ fenceTok from by simp]
      rw [dropFenceSuf_fence]
      rw [show ('\n' :: j.data) ++ ['\n'] = ['\n'] ++ (lbr :: u) ++ ['\n'] from by
        rw [hdata]; simp]
      rw [lStrip_sandwich ['\n'] ['\n'] lbr u rbr (by decide) (by decide) (by decide)
        hlast (by decide)]
      rw [hdata]
    unfold parse_json
    rw [show (3 : Nat) = 1 + 2 from rfl]
    rw [parseJsonLoop_step_fail _ _ 1 hfail1, hclean]
    rw [show (1 + 1 : Nat) = 0 + 2 from rfl]
    exact parseJsonLoop_step_val _ _ 0 v hload
  · -- plain fence
    have h3data : ("```\n" ++ j ++ "\n```").data =
        fenceTok ++ ('\n' :: (j.data ++ ('\n' :: fenceTok))) := by
      rw [sdata_append, sdata_append]
      rw [show ("```\n" : String).data = fenceTok ++ ['\n'] from rfl,
        show ("\n```" : String).data = '\n' :: fenceTok from rfl]
      simp
    have hfail1 : jLoadsL (("```\n" ++ j ++ "\n```").data) = .fail := by
      rw [h3data]
      rw [show fenceTok ++ ('\n' :: (j.data ++ ('\n' :: fenceTok))) =
        btick :: (('\x60' :: '\x60' :: ([] : List Char)) ++
          ('\n' :: (j.data ++ ('\n' :: fenceTok)))) from rfl]
      exact jLoadsL_btick_fail _
    have hclean : cleanFences (("```\n" ++ j ++ "\n```").data) = j.data := by
      unfold cleanFences
      rw [h3data]
      have hstrip1 : lStripBoth (fenceTok ++ ('\n' :: (j.data ++ ('\n' :: fenceTok)))) =
          fenceTok ++ ('\n' :: (j.data ++ ('\n' :: fenceTok))) := by
        rw [show fenceTok ++ ('\n' :: (j.data ++ ('\n' :: fenceTok))) =
          btick :: (('\x60' :: '\x60' :: ([] : List Char)) ++
            ('\n' :: (j.data ++ ('\n' :: fenceTok)))) from rfl]
        apply lStripBoth_noop _ _ btick (by decide) ?_ (by decide)
        rw [show btick :: (('\x60' :: '\x60' :: ([] : List Char)) ++
            ('\n' :: (j.data ++ ('\n' :: fenceTok)))) =
          (btick :: ('\x60' :: '\x60' :: ([] : List Char)) ++
            ('\n' :: j.data) ++ ['\n']) ++ fenceTok from by simp]
        rw [List.getLast?_append, show fenceTok.getLast? = some btick from by decide]
        rfl
      rw [hstrip1]
      rw [dropFencePre_fence _ (by rfl)]
      rw [show '\n' :: (j.data ++ ('\n' :: fenceTok)) =
        (('\n' :: j.data) ++ ['\n']) ++ fenceTok from by simp]
      rw [dropFenceSuf_fence]
      rw [show ('\n' :: j.data) ++ ['\n'] = ['\n'] ++ (lbr :: u) ++ ['\n'] from by
        rw [hdata]; simp]
      rw [lStrip_sandwich ['\n'] ['\n'] lbr u rbr (by decide) (by decide) (by decide)
        hlast (by decide)]
      rw [hdata]
    unfold parse_json
    rw [show (3 : Nat) = 1 + 2 from rfl]
    rw [parseJsonLoop_step_fail _ _ 1 hfail1, hclean]
    rw [show (1 + 1 : Nat) = 0 + 2 from rfl]
    exact parseJsonLoop_step_val _ _ 0 v hload
  · -- trailing prose
    intro p
    obtain ⟨fs, hvfs⟩ := hobj
    have hvp0 := ((jscan_ext (j.data.length + 1)).1 j.data v [] p.data
      (by rw [hdata]; exact hj)
      (fun _ tk heq => by rw [hvfs] at heq; cases heq)
      (fun c r2 h0 => by cases h0))
    rw [List.nil_append] at hvp0
    have hvp : jValue ((j.data ++ p.data).length + 1) (j.data ++ p.data) =
        some (v, p.data) :=
      jValue_mono_le _ _ _ _ (by rw [List.length_append]; omega) hvp0
    have hload2 : jLoadsL (j.data ++ p.data) =
        (if jSkipWs p.data = [] then JRes.val v else JRes.extra) := by
      unfold jLoadsL
      rw [show j.data ++ p.data = lbr :: (u ++ p.data) from by rw [hdata]; rfl]
      rw [jSkipWs_cons_neg (u ++ p.data) (by decide)]
      rw [show lbr :: (u ++ p.data) = j.data ++ p.data from by rw [hdata]; rfl]
      rw [hvp]
    unfold parse_json
    rw [sdata_append]
    rw [show (3 : Nat) = 1 + 2 from rfl]
    by_cases hsp : jSkipWs p.data = []
    · rw [if_pos hsp] at hload2
      exact parseJsonLoop_step_val _ _ 1 v hload2
    · rw [if_neg hsp] at hload2
      refine parseJsonLoop_step_extra _ _ 1 v hload2 ?_
      unfold jRawDecodeL
      rw [hvp]
      rfl
  · -- leading prose
    intro p hlbr hbt hfail1 hfail2
    rw [← hdata] at hfail1 hfail2
    have hstrip : lStripBoth (p.data ++ j.data) = p.data.dropWhile isPySpace ++ j.data ∨
        lStripBoth (p.data ++ j.data) = j.data := by
      rcases hq : p.data.dropWhile isPySpace with _ | ⟨d0, q⟩
      · right
        unfold lStripBoth
        rw [List.dropWhile_append, if_pos (by simp [hq])]
        rw [show j.data = lbr :: u from hdata]
        rw [List.dropWhile_cons_of_neg (by decide)]
        have hrevhead : (lbr :: u).reverse.head? = some rbr := by
          rw [List.head?_reverse]
          exact hlast
        rcases hrev : (lbr :: u).reverse with _ | ⟨b, w⟩
        · simp at hrev
        rw [hrev] at hrevhead
        simp only [List.head?] at hrevhead
        injection hrevhead with hb
        subst hb
        rw [List.dropWhile_cons_of_neg (by decide), ← hrev]
        simp
      · left
        unfold lStripBoth
        rw [List.dropWhile_append, if_neg (by simp [hq])]
        rw [hq]
        rw [show (d0 :: q) ++ j.data = d0 :: (q ++ j.data) from rfl]
        have hlast2 : (d0 :: (q ++ j.data)).getLast? = some rbr := by
          rw [show d0 :: (q ++ j.data) = (d0 :: q) ++ j.data from rfl]
          rw [List.getLast?_append]
          rw [show j.data.getLast? = some rbr from by rw [hdata]; exact hlast]
          rfl
        have hrevhead : (d0 :: (q ++ j.data)).reverse.head? = some rbr := by
          rw [List.head?_reverse]
          exact hlast2
        rcases hrev : (d0 :: (q ++ j.data)).reverse with _ | ⟨b, w⟩
        · simp at hrev
        rw [hrev] at hrevhead
        simp only [List.head?] at hrevhead
        injection hrevhead with hb
        subst hb
        rw [List.dropWhile_cons_of_neg (by decide), ← hrev]
        simp
    rcases hstrip with hstrip | hstrip
    · rcases hq : p.data.dropWhile isPySpace with _ | ⟨d0, q⟩
      · rw [hq] at hstrip
        simp only [List.nil_append] at hstrip
        rw [hstrip, hload] at hfail2
        cases hfail2
      · rw [hq] at hstrip
        have hd0nw : isPySpace d0 = false := dropWhile_head_false _ _ _ _ hq
        have hd0mem : d0 ∈ p.data := by
          have hsub := List.dropWhile_sublist (p := isPySpace) (l := p.data)
          exact hsub.subset (by rw [hq]; simp)
        have hd0bt : d0 ≠ btick := fun hx => hbt (by rw [← hx]; exact hd0mem)
        rw [show (d0 :: q) ++ j.data = d0 :: (q ++ j.data) from rfl] at hstrip
        have hs1last : (d0 :: (q ++ j.data)).getLast? = some rbr := by
          rw [show d0 :: (q ++ j.data) = (d0 :: q) ++ j.data from rfl]
          rw [List.getLast?_append]
          rw [show j.data.getLast? = some rbr from by rw [hdata]; exact hlast]
          rfl
        have hnoop : lStripBoth (d0 :: (q ++ j.data)) = d0 :: (q ++ j.data) :=
          lStripBoth_noop d0 (q ++ j.data) rbr hd0nw hs1last (by decide)
        have hfpre : dropFencePre (d0 :: (q ++ j.data)) = d0 :: (q ++ j.data) :=
          dropFencePre_noop d0 _ hd0bt
        have hfsuf : dropFenceSuf (d0 :: (q ++ j.data)) = d0 :: (q ++ j.data) :=
          dropFenceSuf_noop _ rbr hs1last (by decide)
        have hclean1 : cleanFences (p.data ++ j.data) = lStripBoth (p.data ++ j.data) := by
          unfold cleanFences
          rw [hstrip, hfpre, hfsuf, hnoop]
        have hfix : cleanFences (lStripBoth (p.data ++ j.data)) =
            lStripBoth (p.data ++ j.data) := by
          unfold cleanFences
          rw [hstrip, hnoop, hfpre, hfsuf, hnoop]
        unfold parse_json
        rw [sdata_append]
        rw [show (3 : Nat) = 1 + 2 from rfl]
        rw [parseJsonLoop_step_fail _ _ 1 hfail1, hclean1]
        rw [show (1 + 1 : Nat) = 0 + 2 from rfl]
        rw [parseJsonLoop_step_fail _ _ 0 (by rw [hstrip]; rw [hstrip] at hfail2; exact hfail2)]
        rw [hfix]
        rw [parseJsonLoop_one_fail _ _ hfail2]
        rw [show p.data ++ j.data = p.data ++ (lbr :: u) from by rw [hdata]]
        exact braceExtract_clean p.data u v hlbr hj
    · rw [hstrip, hload] at hfail2
      cases hfail2

/-- C4 witness: the tolerance theorem at the concrete object text and the
prose prefix `note: `. -/
theorem c4_witness :
    parse_json "\x7b\x7d" = some (Json.obj JsonFields.nil) ∧
    parse_json ("```json\n" ++ "\x7b\x7d" ++ "\n```") = some (Json.obj JsonFields.nil) ∧
    parse_json ("```\n" ++ "\x7b\x7d" ++ "\n```") = some (Json.obj JsonFields.nil) ∧
    parse_json ("\x7b\x7d" ++ " trailing") = some (Json.obj JsonFields.nil) ∧
    parse_json ("note: " ++ "\x7b\x7d") = some (Json.obj JsonFields.nil) := by
  have h := c4_parse_json_tolerance "\x7b\x7d" (Json.obj JsonFields.nil)
    (by decide) (by decide) (by decide)
  exact ⟨h.1, h.2.1, h.2.2.1, h.2.2.2.1 " trailing",
    h.2.2.2.2 "note: " (by decide) (by decide) (by decide) (by decide)⟩

end TCImage
